import Mathlib

/-!
Cheapest flight search (Dijkstra over an adjacency matrix).

A shallow embedding of `src/main.cpp`: `makeAdjMatrix` and
`findCheapestFlightWithDijkstra`, followed by the properties proved about them.

Conventions of the embedding.

* A C++ `int` is an `Int`; the single arithmetic operation of the program, the
  addition `cost + flightCost`, is taken modulo `2^32` (`wrap32`).
* `vector<vector<int>>` is `List (List Int)`.  Every unchecked `operator[]` goes
  through `vecAt`, which yields `Failure.undefinedIndex` outside the bounds.
* `APT_MAP.at` throws `std::out_of_range`, rendered as `Failure.outOfRange`.
* `priority_queue<vector<int>, ..., greater<vector<int>>>` is observed only through
  `push`, `top`, `pop` and `empty`; it is kept as the list of its entries in ascending
  lexicographic order, so that `top` is the head and `pop` drops it.
* The `while` loops carry a step budget; running out of it is `Failure.diverges`.
-/

namespace CheapestFlight

/-! ## Data model -/

/-- Ways in which a run ends without returning a value. -/
inductive Failure where
  /-- The exception `std::out_of_range` thrown by `APT_MAP.at`. -/
  | outOfRange
  /-- An unchecked `operator[]` access outside the bounds of a vector. -/
  | undefinedIndex
  /-- A loop that never exits. -/
  | diverges
  deriving DecidableEq

/-- The constant `INT_MAX` of a 32-bit `int`. -/
def INT_MAX : Int := 2147483647

/-- Addition result of a 32-bit signed `int`: the value modulo `2^32` in
`[-2^31, 2^31)`. -/
def wrap32 (x : Int) : Int := (x + 2147483648) % 4294967296 - 2147483648

/-- The global table `APT_MAP` (lines 23-26). -/
def APT_MAP : List (Int × String) :=
  [(0, "SFO"), (1, "SEA"), (2, "LAX"), (3, "DEN"), (4, "ORD"), (5, "DFW"),
   (6, "IAH"), (7, "ATL"), (8, "MIA"), (9, "JFK"), (10, "BOS")]

/-- The value `APT_MAP.size()` held by the local `numOfApt`. -/
def numOfApt : Nat := APT_MAP.length

/-- The call `APT_MAP.at(k)`: the label of `k`, or `std::out_of_range`. -/
def aptAt (k : Int) : Except Failure String :=
  match APT_MAP.lookup k with
  | some name => .ok name
  | none => .error .outOfRange

/-- The unchecked access `v[i]`. -/
def vecAt {α : Type} (v : List α) (i : Int) : Except Failure α :=
  if 0 ≤ i then
    match v[i.toNat]? with
    | some a => .ok a
    | none => .error .undefinedIndex
  else .error .undefinedIndex

/-- The locals `costs` (one `{Cost, PrevApt}` pair per airport) and `minHeap`
(entries `{Cost, AptIndex}`) of `findCheapestFlightWithDijkstra`. -/
structure State where
  costs : List (Int × Int)
  minHeap : List (Int × Int)
  deriving DecidableEq

/-- Lexicographic `<=` on two-element vectors `{Cost, AptIndex}`. -/
def entryLE (a b : Int × Int) : Bool :=
  decide (a.1 < b.1) || (decide (a.1 = b.1) && decide (a.2 ≤ b.2))

/-- The call `minHeap.push(e)`. -/
def heapPush (e : Int × Int) : List (Int × Int) → List (Int × Int)
  | [] => [e]
  | x :: xs => if entryLE e x then e :: x :: xs else x :: heapPush e xs

/-! ## `makeAdjMatrix` (lines 104-122) -/

/-- One iteration of the loop of `makeAdjMatrix`:
`adjMatrix[flight[0]][flight[1]] = flight[2]`. -/
def writeFlight (adjMatrix : List (List Int)) (flight : List Int) :
    Except Failure (List (List Int)) := do
  let fromApt ← vecAt flight 0
  let toApt ← vecAt flight 1
  let flightCost ← vecAt flight 2
  let row ← vecAt adjMatrix fromApt
  let _ ← vecAt row toApt
  pure (adjMatrix.set fromApt.toNat (row.set toApt.toNat flightCost))

/-- The function `makeAdjMatrix`. -/
def makeAdjMatrix (flights : List (List Int)) : Except Failure (List (List Int)) :=
  flights.foldlM writeFlight (List.replicate numOfApt (List.replicate numOfApt 0))

/-! ## `findCheapestFlightWithDijkstra` (lines 130-183) -/

/-- The table built by the initialisation loop (lines 137-140). -/
def initCosts (src : Int) : List (Int × Int) :=
  (List.range numOfApt).map fun (i : Nat) => if (i : Int) = src then (0, -1) else (INT_MAX, -1)

/-- The body of the `for` loop over `nextApt` (lines 151-159) for the popped entry
`{cost, currApt}`. -/
def relaxEdge (adjMatrix : List (List Int)) (cost currApt : Int) (s : State) (nextApt : Nat) :
    Except Failure State := do
  let row ← vecAt adjMatrix currApt
  let flightCost ← vecAt row nextApt
  if flightCost ≠ 0 then
    let entry ← vecAt s.costs nextApt
    if wrap32 (cost + flightCost) < entry.1 then
      pure { costs := s.costs.set nextApt (wrap32 (cost + flightCost), currApt),
             minHeap := heapPush (wrap32 (cost + flightCost), nextApt) s.minHeap }
    else pure s
  else pure s

/-- The `for` loop over `nextApt` (lines 150-160), started at the airports `apts`. -/
def relaxFrom (adjMatrix : List (List Int)) (cost currApt : Int) (apts : List Nat) (s : State) :
    Except Failure State :=
  apts.foldlM (relaxEdge adjMatrix cost currApt) s

/-- One iteration of the `while` loop (lines 145-160): pop the top entry and scan its row. -/
def popAndRelax (adjMatrix : List (List Int)) (s : State) : Except Failure State :=
  match s.minHeap with
  | [] => .ok s
  | current :: rest =>
    relaxFrom adjMatrix current.1 current.2 (List.range numOfApt) { s with minHeap := rest }

/-- The loop `while (!minHeap.empty())` (lines 144-161) with a budget of iterations. -/
def frontierLoop (adjMatrix : List (List Int)) : Nat → State → Except Failure State
  | 0, s => if s.minHeap = [] then .ok s else .error .diverges
  | fuel + 1, s =>
    if s.minHeap = [] then .ok s
    else popAndRelax adjMatrix s >>= frontierLoop adjMatrix fuel

/-- Budget of the frontier loop: every iteration lowers
`2 * (sum of the recorded costs, each offset by 2^31) + (size of the frontier)`,
which starts below this number. -/
def searchFuel : Nat := 2 * (11 * 4294967296) + 1

/-- Lines 131-161: the table `costs` when the frontier loop ends. -/
def search (adjMatrix : List (List Int)) (src : Int) : Except Failure (List (Int × Int)) := do
  let costs := initCosts src
  let srcEntry ← vecAt costs src
  let s ← frontierLoop adjMatrix searchFuel { costs := costs, minHeap := [(srcEntry.1, src)] }
  pure s.costs

/-- Lines 164-165: the cost written to `cout`; the operands of `<<` are evaluated from
left to right. -/
def printCost (costs : List (Int × Int)) (src dst : Int) : Except Failure Int := do
  let _ ← aptAt src
  let _ ← aptAt dst
  let entry ← vecAt costs dst
  pure entry.1

/-- Lines 168-172: the walk along `PrevApt` from `curr`; `route` is the stack, top first,
holding the airports whose labels were pushed. -/
def walkRoute (costs : List (Int × Int)) (src : Int) : Nat → Int → List Int →
    Except Failure (List Int)
  | 0, curr, route => if curr = src then .ok route else .error .diverges
  | fuel + 1, curr, route =>
    if curr = src then .ok route
    else do
      let _ ← aptAt curr
      let entry ← vecAt costs curr
      walkRoute costs src fuel entry.2 (curr :: route)

/-- The function `findCheapestFlightWithDijkstra`: the returned cost together with the
route written to `cout` (the airport of `src`, then the stack from the top).  A walk of
more than `numOfApt` steps has repeated an airport and never ends. -/
def findCheapestFlightWithDijkstra (adjMatrix : List (List Int)) (src dst : Int) :
    Except Failure (Int × List Int) := do
  let costs ← search adjMatrix src
  let _ ← printCost costs src dst
  let route ← walkRoute costs src numOfApt dst []
  let _ ← aptAt src
  let entry ← vecAt costs dst
  pure (entry.1, src :: route)

/-- The list `usFlights` of `main` (lines 29-39). -/
def usFlights : List (List Int) :=
  [[0, 1, 400], [0, 2, 150], [0, 4, 600], [0, 3, 240],
   [1, 0, 350], [1, 4, 500],
   [2, 0, 100], [2, 3, 300], [2, 9, 1000],
   [3, 0, 200], [3, 2, 360], [3, 4, 400], [3, 5, 210], [3, 6, 300],
   [4, 0, 500], [4, 1, 450], [4, 3, 420], [4, 10, 800], [4, 9, 600],
   [5, 3, 150], [5, 7, 360],
   [6, 3, 240], [6, 7, 400],
   [7, 5, 300], [7, 6, 360], [7, 8, 180], [7, 9, 400], [7, 10, 650],
   [8, 7, 100], [8, 9, 550],
   [9, 4, 630], [9, 2, 900], [9, 7, 450], [9, 8, 470], [9, 10, 100],
   [10, 4, 720], [10, 9, 150], [10, 7, 550]]

/-! ## Specification vocabulary -/

/-- The entry `adjMatrix[u][v]` for indices inside the matrix. -/
def entry (adjMatrix : List (List Int)) (u v : Nat) : Int := (adjMatrix.getD u []).getD v 0

/-- The matrix has `numOfApt` rows of `numOfApt` entries. -/
def Square (adjMatrix : List (List Int)) : Prop :=
  adjMatrix.length = numOfApt ∧ ∀ row ∈ adjMatrix, row.length = numOfApt

/-- Both airports of the flight `{fromApt, toApt, cost}` lie in `[0, numOfApt)`. -/
def FlightInRange (flight : List Int) : Prop :=
  0 ≤ flight.getD 0 0 ∧ flight.getD 0 0 < numOfApt ∧
    0 ≤ flight.getD 1 0 ∧ flight.getD 1 0 < numOfApt

/-- The weight of the last flight of the list from `u` to `v`, and `0` when the list has
no flight from `u` to `v`. -/
def lastWeight (flights : List (List Int)) (u v : Int) : Int :=
  match flights.reverse.find? (fun f => decide (f.getD 0 0 = u) && decide (f.getD 1 0 = v)) with
  | some f => f.getD 2 0
  | none => 0

/-! ## Matrices used as concrete inputs -/

/-- The matrix that `main` builds from `usFlights` (line 41). -/
def usMatrix : List (List Int) :=
  [[0, 400, 150, 240, 600, 0, 0, 0, 0, 0, 0],
   [350, 0, 0, 0, 500, 0, 0, 0, 0, 0, 0],
   [100, 0, 0, 300, 0, 0, 0, 0, 0, 1000, 0],
   [200, 0, 360, 0, 400, 210, 300, 0, 0, 0, 0],
   [500, 450, 0, 420, 0, 0, 0, 0, 0, 600, 800],
   [0, 0, 0, 150, 0, 0, 0, 360, 0, 0, 0],
   [0, 0, 0, 240, 0, 0, 0, 400, 0, 0, 0],
   [0, 0, 0, 0, 0, 300, 360, 0, 180, 400, 650],
   [0, 0, 0, 0, 0, 0, 0, 100, 0, 550, 0],
   [0, 0, 900, 0, 630, 0, 0, 450, 470, 0, 100],
   [0, 0, 0, 0, 720, 0, 0, 550, 0, 150, 0]]

/-- A matrix with two flights, `0 -> 1` of cost `INT_MAX - 1` and `1 -> 0` of cost `5`. -/
def wrapMatrix : List (List Int) :=
  [[0, 2147483646, 0, 0, 0, 0, 0, 0, 0, 0, 0],
   [5, 0, 0, 0, 0, 0, 0, 0, 0, 0, 0],
   [0, 0, 0, 0, 0, 0, 0, 0, 0, 0, 0],
   [0, 0, 0, 0, 0, 0, 0, 0, 0, 0, 0],
   [0, 0, 0, 0, 0, 0, 0, 0, 0, 0, 0],
   [0, 0, 0, 0, 0, 0, 0, 0, 0, 0, 0],
   [0, 0, 0, 0, 0, 0, 0, 0, 0, 0, 0],
   [0, 0, 0, 0, 0, 0, 0, 0, 0, 0, 0],
   [0, 0, 0, 0, 0, 0, 0, 0, 0, 0, 0],
   [0, 0, 0, 0, 0, 0, 0, 0, 0, 0, 0],
   [0, 0, 0, 0, 0, 0, 0, 0, 0, 0, 0]]

/-- A matrix with the single flight `0 -> 1` of cost `400`. -/
def oneFlightMatrix : List (List Int) :=
  [[0, 400, 0, 0, 0, 0, 0, 0, 0, 0, 0],
   [0, 0, 0, 0, 0, 0, 0, 0, 0, 0, 0],
   [0, 0, 0, 0, 0, 0, 0, 0, 0, 0, 0],
   [0, 0, 0, 0, 0, 0, 0, 0, 0, 0, 0],
   [0, 0, 0, 0, 0, 0, 0, 0, 0, 0, 0],
   [0, 0, 0, 0, 0, 0, 0, 0, 0, 0, 0],
   [0, 0, 0, 0, 0, 0, 0, 0, 0, 0, 0],
   [0, 0, 0, 0, 0, 0, 0, 0, 0, 0, 0],
   [0, 0, 0, 0, 0, 0, 0, 0, 0, 0, 0],
   [0, 0, 0, 0, 0, 0, 0, 0, 0, 0, 0],
   [0, 0, 0, 0, 0, 0, 0, 0, 0, 0, 0]]

/-! ## Paths, weights and the invariants of the search -/

/-- The recorded cost `costs[v][0]` of an airport inside the table. -/
def costOf (costs : List (Int × Int)) (v : Nat) : Int := (costs.getD v (INT_MAX, -1)).1

/-- The recorded predecessor `costs[v][1]` of an airport inside the table. -/
def prevOf (costs : List (Int × Int)) (v : Nat) : Int := (costs.getD v (INT_MAX, -1)).2

/-- All entries of the matrix are non-negative. -/
def NonNeg (adjMatrix : List (List Int)) : Prop := ∀ row ∈ adjMatrix, ∀ x ∈ row, 0 ≤ x

/-- A directed path of the matrix: a non-empty list of airports in `[0, numOfApt)` in
which every consecutive pair is connected (its entry is not `0`). -/
def isPath (adjMatrix : List (List Int)) : List Nat → Bool
  | [] => false
  | [u] => decide (u < numOfApt)
  | u :: v :: rest =>
    decide (u < numOfApt) && decide (entry adjMatrix u v ≠ 0) && isPath adjMatrix (v :: rest)

/-- The sum of the entries along the consecutive pairs of a list of airports. -/
def pathWeight (adjMatrix : List (List Int)) : List Nat → Int
  | [] => 0
  | [_] => 0
  | u :: v :: rest => entry adjMatrix u v + pathWeight adjMatrix (v :: rest)

/-- The list `p` is a directed path of the matrix from `src` to `dst`. -/
def PathFromTo (adjMatrix : List (List Int)) (src dst : Nat) (p : List Nat) : Prop :=
  isPath adjMatrix p = true ∧ p.head? = some src ∧ p.getLast? = some dst

/-- No sum that the relaxation can form reaches `INT_MAX`: every directed path of at most
`numOfApt` hops (a path without repeated airport, extended by one hop) weighs less than
`INT_MAX`. -/
def NoOverflow (adjMatrix : List (List Int)) : Prop :=
  ∀ p : List Nat, isPath adjMatrix p = true → p.length ≤ numOfApt + 1 →
    pathWeight adjMatrix p < INT_MAX

/-- The quantity lowered by every iteration of the frontier loop. -/
def loopMeasure (s : State) : Nat :=
  2 * (s.costs.map fun e => (e.1 + 2147483648).toNat).sum + s.minHeap.length

/-- The table and the frontier index only existing airports. -/
def InBounds (s : State) : Prop :=
  s.costs.length = numOfApt ∧ ∀ e ∈ s.minHeap, 0 ≤ e.2 ∧ e.2 < numOfApt

/-- The state on entry to the frontier loop (lines 137-142). -/
def initState (src : Int) : State :=
  { costs := initCosts src, minHeap := [(0, src)] }

/-- The state after lines 154-156: the new cost and predecessor of `nextApt` are recorded
and the entry `{cand, nextApt}` is pushed. -/
def relaxed (s : State) (cand : Int) (currApt nextApt : Nat) : State :=
  { costs := s.costs.set nextApt (cand, (currApt : Int)),
    minHeap := heapPush (cand, (nextApt : Int)) s.minHeap }

/-- Evidence for a recorded value: `Reached adjMatrix src c p v d` says that `p` is a
directed path from `src` to `v` without repeated airport, of weight `d`, such that the
cost `c` of every airport on it is at most the weight of the path up to that airport. -/
inductive Reached (adjMatrix : List (List Int)) (src : Nat) (c : Nat → Int) :
    List Nat → Nat → Int → Prop
  | base : c src ≤ 0 → Reached adjMatrix src c [src] src 0
  | step {p : List Nat} {u : Nat} {d : Int} (v : Nat) :
      Reached adjMatrix src c p u d → v < numOfApt → entry adjMatrix u v ≠ 0 → v ∉ p →
      c v ≤ d + entry adjMatrix u v →
      Reached adjMatrix src c (p ++ [v]) v (d + entry adjMatrix u v)

/-- The table and the frontier hold only values reached along paths from `src`, and every
recorded predecessor is the tail of a connected pair that accounts for the recorded cost. -/
structure Labelled (adjMatrix : List (List Int)) (src : Nat) (s : State) : Prop where
  inBounds : InBounds s
  srcCost : costOf s.costs src = 0
  srcPrev : prevOf s.costs src = -1
  label : ∀ v, v < numOfApt →
    (costOf s.costs v = INT_MAX ∧ prevOf s.costs v = -1 ∧ v ≠ src) ∨
      ∃ p, Reached adjMatrix src (costOf s.costs) p v (costOf s.costs v)
  frontier : ∀ e ∈ s.minHeap,
    ∃ (p : List Nat) (u : Nat), e.2 = (u : Int) ∧ Reached adjMatrix src (costOf s.costs) p u e.1
  prev : ∀ v, v < numOfApt → v ≠ src → costOf s.costs v ≠ INT_MAX →
    ∃ u, u < numOfApt ∧ prevOf s.costs v = (u : Int) ∧ entry adjMatrix u v ≠ 0 ∧
      costOf s.costs u + entry adjMatrix u v ≤ costOf s.costs v

/-- Every connected pair out of an airport with a recorded cost is relaxed, unless the
airport still waits on the frontier with that cost. -/
def Settled (adjMatrix : List (List Int)) (s : State) : Prop :=
  ∀ u v, u < numOfApt → v < numOfApt → costOf s.costs u ≠ INT_MAX → entry adjMatrix u v ≠ 0 →
    costOf s.costs v ≤ costOf s.costs u + entry adjMatrix u v ∨
      (costOf s.costs u, (u : Int)) ∈ s.minHeap

/-- The same during the scan of the popped entry `{cost, currApt}`, whose pairs towards
the airports `apts` are still to be examined. -/
def Scanning (adjMatrix : List (List Int)) (src : Nat) (cost : Int) (currApt : Nat)
    (apts : List Nat) (s : State) : Prop :=
  (∃ p, Reached adjMatrix src (costOf s.costs) p currApt cost) ∧
    ∀ u v, u < numOfApt → v < numOfApt → costOf s.costs u ≠ INT_MAX →
      entry adjMatrix u v ≠ 0 →
      costOf s.costs v ≤ costOf s.costs u + entry adjMatrix u v ∨
        (costOf s.costs u, (u : Int)) ∈ s.minHeap ∨
        (costOf s.costs u = cost ∧ u = currApt ∧ v ∈ apts)

/-- The number of airports whose recorded cost is below that of `v`. -/
def rank (costs : List (Int × Int)) (v : Nat) : Nat :=
  ((List.range numOfApt).filter fun x => decide (costOf costs x < costOf costs v)).length

/-- No entry of the matrix exceeds `W`. -/
def EntriesAtMost (adjMatrix : List (List Int)) (W : Int) : Prop :=
  ∀ row ∈ adjMatrix, ∀ x ∈ row, x ≤ W

/-! ## The run of the frontier loop, iteration by iteration -/

/-- The state after `n` iterations of the `while` loop of lines 144-161; a loop that has
ended (empty frontier) stays in its last state. -/
def runPops (adjMatrix : List (List Int)) : Nat → State → Except Failure State
  | 0, s => .ok s
  | n + 1, s => popAndRelax adjMatrix s >>= runPops adjMatrix n

/-- The entries of the frontier are in ascending lexicographic order. -/
def FrontierSorted (s : State) : Prop :=
  s.minHeap.Pairwise fun a b => entryLE a b = true

/-- The variant of one iteration that skips a stale entry: the popped entry
`{cost, currApt}` is dropped without a scan when `cost` exceeds the recorded cost of
`currApt`. -/
def popAndRelaxSkippingStale (adjMatrix : List (List Int)) (s : State) : Except Failure State :=
  match s.minHeap with
  | [] => .ok s
  | current :: rest => do
    let entry ← vecAt s.costs current.2
    if entry.1 < current.1 then pure { s with minHeap := rest }
    else relaxFrom adjMatrix current.1 current.2 (List.range numOfApt) { s with minHeap := rest }

/-- The frontier loop of the variant that skips stale entries. -/
def frontierLoopSkippingStale (adjMatrix : List (List Int)) : Nat → State → Except Failure State
  | 0, s => if s.minHeap = [] then .ok s else .error .diverges
  | fuel + 1, s =>
    if s.minHeap = [] then .ok s
    else popAndRelaxSkippingStale adjMatrix s >>= frontierLoopSkippingStale adjMatrix fuel

/-- The search of the variant that skips stale entries. -/
def searchSkippingStale (adjMatrix : List (List Int)) (src : Int) :
    Except Failure (List (Int × Int)) := do
  let costs := initCosts src
  let srcEntry ← vecAt costs src
  let s ← frontierLoopSkippingStale adjMatrix searchFuel
    { costs := costs, minHeap := [(srcEntry.1, src)] }
  pure s.costs

/-- Every airport of the list after the first has the airport before it as its recorded
predecessor: read from its end, the list is the walk `curr = costs[curr][1]`. -/
def prevChain (costs : List (Int × Int)) : List Nat → Prop
  | [] => True
  | [_] => True
  | u :: v :: rest => prevOf costs v = (u : Int) ∧ prevChain costs (v :: rest)

/-- A matrix in which the sums along `0 -> 1 -> 2 -> 1` pass `INT_MAX`. -/
def cycleMatrix : List (List Int) :=
  [[0, 2147483646, 0, 0, 0, 0, 0, 0, 0, 0, 0],
   [0, 0, 5, 0, 0, 0, 0, 0, 0, 0, 0],
   [0, 5, 0, 0, 0, 0, 0, 0, 0, 0, 0],
   [0, 0, 0, 0, 0, 0, 0, 0, 0, 0, 0],
   [0, 0, 0, 0, 0, 0, 0, 0, 0, 0, 0],
   [0, 0, 0, 0, 0, 0, 0, 0, 0, 0, 0],
   [0, 0, 0, 0, 0, 0, 0, 0, 0, 0, 0],
   [0, 0, 0, 0, 0, 0, 0, 0, 0, 0, 0],
   [0, 0, 0, 0, 0, 0, 0, 0, 0, 0, 0],
   [0, 0, 0, 0, 0, 0, 0, 0, 0, 0, 0],
   [0, 0, 0, 0, 0, 0, 0, 0, 0, 0, 0]]

/-- A matrix in which airport `1` is first reached at cost `INT_MAX - 1` and then at
cost `2`, so that its first frontier entry is stale when popped. -/
def staleMatrix : List (List Int) :=
  [[0, 2147483646, 1, 0, 0, 0, 0, 0, 0, 0, 0],
   [0, 0, 0, 5, 0, 0, 0, 0, 0, 0, 0],
   [0, 1, 0, 0, 0, 0, 0, 0, 0, 0, 0],
   [0, 0, 0, 0, 0, 0, 0, 0, 0, 0, 0],
   [0, 0, 0, 0, 0, 0, 0, 0, 0, 0, 0],
   [0, 0, 0, 0, 0, 0, 0, 0, 0, 0, 0],
   [0, 0, 0, 0, 0, 0, 0, 0, 0, 0, 0],
   [0, 0, 0, 0, 0, 0, 0, 0, 0, 0, 0],
   [0, 0, 0, 0, 0, 0, 0, 0, 0, 0, 0],
   [0, 0, 0, 0, 0, 0, 0, 0, 0, 0, 0],
   [0, 0, 0, 0, 0, 0, 0, 0, 0, 0, 0]]

/-- The list of flights with every flight from `u` to `v` removed. -/
def withoutEdges (flights : List (List Int)) (u v : Int) : List (List Int) :=
  flights.filter fun f => !(decide (f.getD 0 0 = u) && decide (f.getD 1 0 = v))

/-- Every recorded predecessor other than `-1` is the tail of a connected pair. -/
def PrevLinked (adjMatrix : List (List Int)) (costs : List (Int × Int)) : Prop :=
  ∀ v, v < numOfApt → prevOf costs v = -1 ∨
    ∃ u, u < numOfApt ∧ prevOf costs v = (u : Int) ∧ entry adjMatrix u v ≠ 0

/-- Every consecutive pair of the route is a pair of airports with a non-zero entry. -/
def connectedPairs (adjMatrix : List (List Int)) : List Int → Prop
  | [] => True
  | [_] => True
  | a :: b :: rest =>
    (0 ≤ a ∧ entry adjMatrix a.toNat b.toNat ≠ 0) ∧ connectedPairs adjMatrix (b :: rest)

/-- Only airports with a path from `src` are ever written or pushed: every entry of the
table is still `{INT_MAX, -1}` or belongs to an airport reachable from `src`, and every
frontier entry belongs to an airport reachable from `src`. -/
def WrittenReachable (adjMatrix : List (List Int)) (src : Nat) (s : State) : Prop :=
  (∀ v, v < numOfApt →
      (costOf s.costs v = INT_MAX ∧ prevOf s.costs v = -1) ∨
        ∃ p, PathFromTo adjMatrix src v p) ∧
    ∀ e ∈ s.minHeap, ∃ u : Nat, e.2 = (u : Int) ∧ ∃ p, PathFromTo adjMatrix src u p
/-! ## Elementary facts -/

theorem numOfApt_eq : numOfApt = 11 := rfl

theorem vecAt_natCast {α : Type} (v : List α) (n : Nat) (h : n < v.length) :
    vecAt v (n : Int) = .ok (v.get ⟨n, h⟩) := by
  simp [vecAt, List.getElem?_eq_getElem h]

theorem vecAt_of_toNat {α : Type} (v : List α) (i : Int) (h0 : 0 ≤ i) (h : i.toNat < v.length) :
    vecAt v i = .ok (v.get ⟨i.toNat, h⟩) := by
  simp [vecAt, h0, List.getElem?_eq_getElem h]

theorem vecAt_neg {α : Type} (v : List α) (i : Int) (h : i < 0) :
    vecAt v i = .error .undefinedIndex := by
  simp [vecAt, not_le.mpr h]

theorem vecAt_ge {α : Type} (v : List α) (i : Int) (h : (v.length : Int) ≤ i) :
    vecAt v i = .error .undefinedIndex := by
  have h0 : 0 ≤ i := le_trans (Int.ofNat_nonneg _) h
  have h1 : v.length ≤ i.toNat := by omega
  simp [vecAt, h0, List.getElem?_eq_none h1]

theorem aptAt_natCast (n : Nat) (h : n < numOfApt) : ∃ name, aptAt (n : Int) = .ok name := by
  rw [numOfApt_eq] at h
  interval_cases n <;> exact ⟨_, rfl⟩

theorem aptAt_out (k : Int) (h : k < 0 ∨ (numOfApt : Int) ≤ k) : aptAt k = .error .outOfRange := by
  rw [numOfApt_eq] at h
  have hk : APT_MAP.lookup k = none := by
    simp only [APT_MAP, List.lookup]
    have e : ∀ m : Int, m ≠ k → (k == m) = false := by
      intro m hm; simpa using fun h' => hm h'.symm
    rw [e 0 (by omega), e 1 (by omega), e 2 (by omega), e 3 (by omega), e 4 (by omega),
      e 5 (by omega), e 6 (by omega), e 7 (by omega), e 8 (by omega), e 9 (by omega),
      e 10 (by omega)]
  simp [aptAt, hk]

/-! ## `makeAdjMatrix` -/

theorem ok_bind {ε α β : Type} (a : α) (f : α → Except ε β) : (Except.ok a >>= f) = f a := rfl

theorem error_bind {ε α β : Type} (e : ε) (f : α → Except ε β) :
    ((Except.error e : Except ε α) >>= f) = .error e := rfl

theorem pure_eq_ok {ε α : Type} (a : α) : (pure a : Except ε α) = .ok a := rfl

theorem square_replicate : Square (List.replicate numOfApt (List.replicate numOfApt 0)) := by
  refine ⟨by simp, ?_⟩
  intro row hrow
  rw [List.eq_of_mem_replicate hrow]; simp

theorem entry_replicate (u v : Nat) :
    entry (List.replicate numOfApt (List.replicate numOfApt 0)) u v = 0 := by
  unfold entry
  by_cases hu : u < numOfApt
  · by_cases hv : v < numOfApt
    · simp [List.getD_eq_getElem?_getD, List.getElem?_replicate, hu, hv]
    · simp [List.getD_eq_getElem?_getD, List.getElem?_replicate, hu, hv]
  · simp [List.getD_eq_getElem?_getD, List.getElem?_replicate, hu]

theorem entry_set (m : List (List Int)) (row : List Int) (u v : Nat) (w : Int)
    (hrow : m[u]? = some row) (hv : v < row.length) (u' v' : Nat) :
    entry (m.set u (row.set v w)) u' v' = if u' = u ∧ v' = v then w else entry m u' v' := by
  have hu : u < m.length := by
    by_contra h
    rw [List.getElem?_eq_none (not_lt.mp h)] at hrow
    exact Option.noConfusion hrow
  unfold entry
  by_cases h1 : u' = u
  · subst h1
    by_cases h2 : v' = v
    · subst h2
      simp [List.getD_eq_getElem?_getD, List.getElem?_set, hu, hv]
    · have h2' : v ≠ v' := fun h => h2 h.symm
      simp [List.getD_eq_getElem?_getD, List.getElem?_set, hu, h2, h2', hrow]
  · have h1' : u ≠ u' := fun h => h1 h.symm
    simp [List.getD_eq_getElem?_getD, List.getElem?_set, h1, h1']

theorem square_set (m : List (List Int)) (row : List Int) (u v : Nat) (w : Int)
    (hm : Square m) (hrow : m[u]? = some row) : Square (m.set u (row.set v w)) := by
  refine ⟨by simpa using hm.1, ?_⟩
  intro r hr
  rcases List.mem_or_eq_of_mem_set hr with h | h
  · exact hm.2 r h
  · rw [h, List.length_set]
    exact hm.2 row (List.getElem?_mem hrow)

theorem square_getElem? (m : List (List Int)) (hm : Square m) (u : Nat) (hu : u < numOfApt) :
    ∃ row, m[u]? = some row ∧ row.length = numOfApt := by
  have h : u < m.length := by rw [hm.1]; exact hu
  exact ⟨m[u], List.getElem?_eq_getElem h, hm.2 _ (List.getElem_mem _)⟩

/-- The effect of one write of `makeAdjMatrix` with both indices in range. -/
theorem writeFlight_inRange (m : List (List Int)) (hm : Square m) (a b w : Int)
    (hr : FlightInRange [a, b, w]) :
    ∃ m', writeFlight m [a, b, w] = .ok m' ∧ Square m' ∧
      ∀ u v : Nat, entry m' u v = if (u : Int) = a ∧ (v : Int) = b then w else entry m u v := by
  obtain ⟨ha0, ha1, hb0, hb1⟩ := hr
  simp only [List.getD_cons_zero, List.getD_cons_succ] at ha0 ha1 hb0 hb1
  obtain ⟨u0, rfl⟩ := Int.eq_ofNat_of_zero_le ha0
  obtain ⟨v0, rfl⟩ := Int.eq_ofNat_of_zero_le hb0
  have hu0 : u0 < numOfApt := by exact_mod_cast ha1
  have hv0 : v0 < numOfApt := by exact_mod_cast hb1
  obtain ⟨row, hrow, hlen⟩ := square_getElem? m hm u0 hu0
  have hu0' : u0 < m.length := by rw [hm.1]; exact hu0
  have hv0' : v0 < row.length := by rw [hlen]; exact hv0
  have hrow' : m.get ⟨u0, hu0'⟩ = row := by
    have := List.getElem?_eq_getElem hu0'
    rw [hrow] at this
    exact (Option.some.inj this).symm
  refine ⟨m.set u0 (row.set v0 w), ?_, square_set m row u0 v0 w hm hrow, ?_⟩
  · have e0 : vecAt [(u0 : Int), (v0 : Int), w] 0 = .ok (u0 : Int) := rfl
    have e1 : vecAt [(u0 : Int), (v0 : Int), w] 1 = .ok (v0 : Int) := rfl
    have e2 : vecAt [(u0 : Int), (v0 : Int), w] 2 = .ok w := rfl
    simp only [writeFlight, e0, e1, e2, ok_bind, vecAt_natCast m u0 hu0', hrow',
      vecAt_natCast row v0 hv0', Int.toNat_ofNat]
    rfl
  · intro u v
    rw [entry_set m row u0 v0 w hrow hv0' u v]
    simp only [Nat.cast_inj]

theorem foldlM_writeFlight_ok (flights : List (List Int)) :
    ∀ m : List (List Int), Square m →
      (∀ f ∈ flights, f.length = 3 ∧ FlightInRange f) →
      ∃ m', flights.foldlM writeFlight m = .ok m' ∧ Square m' ∧
        ∀ u v : Nat, entry m' u v =
          match flights.reverse.find?
              (fun f => decide (f.getD 0 0 = (u : Int)) && decide (f.getD 1 0 = (v : Int))) with
          | some f => f.getD 2 0
          | none => entry m u v := by
  induction flights with
  | nil => intro m hm _; exact ⟨m, rfl, hm, fun u v => by simp⟩
  | cons f rest ih =>
    intro m hm hall
    obtain ⟨hlen, hr⟩ := hall f (List.mem_cons_self _ _)
    obtain ⟨a, b, w, rfl⟩ : ∃ a b w, f = [a, b, w] := by
      match f, hlen with
      | [a, b, w], _ => exact ⟨a, b, w, rfl⟩
    obtain ⟨m1, h1, hs1, he1⟩ := writeFlight_inRange m hm a b w hr
    obtain ⟨m', h2, hs2, he2⟩ := ih m1 hs1 (fun g hg => hall g (List.mem_cons_of_mem _ hg))
    refine ⟨m', ?_, hs2, ?_⟩
    · rw [List.foldlM_cons, h1]; exact h2
    · intro u v
      rw [he2 u v, List.reverse_cons, List.find?_append]
      cases hfind : rest.reverse.find?
          (fun f => decide (f.getD 0 0 = (u : Int)) && decide (f.getD 1 0 = (v : Int))) with
      | some g => simp
      | none =>
        rw [he1 u v]
        by_cases hc : (u : Int) = a ∧ (v : Int) = b
        · simp [hc.1, hc.2]
        · have hc' : ¬ (a = (u : Int) ∧ b = (v : Int)) := fun h => hc ⟨h.1.symm, h.2.symm⟩
          simp [hc, hc']

theorem foldlM_writeFlight_bad (flights : List (List Int)) :
    ∀ m : List (List Int), Square m → (∀ f ∈ flights, f.length = 3) →
      (∃ f ∈ flights, ¬ FlightInRange f) →
      flights.foldlM writeFlight m = .error .undefinedIndex := by
  induction flights with
  | nil => intro m _ _ h; obtain ⟨f, hf, _⟩ := h; cases hf
  | cons f rest ih =>
    intro m hm h3 hbad
    have hlen := h3 f (List.mem_cons_self _ _)
    obtain ⟨a, b, w, rfl⟩ : ∃ a b w, f = [a, b, w] := by
      match f, hlen with
      | [a, b, w], _ => exact ⟨a, b, w, rfl⟩
    have e0 : vecAt [a, b, w] 0 = .ok a := rfl
    have e1 : vecAt [a, b, w] 1 = .ok b := rfl
    have e2 : vecAt [a, b, w] 2 = .ok w := rfl
    by_cases hr : FlightInRange [a, b, w]
    · obtain ⟨m1, h1, hs1, _⟩ := writeFlight_inRange m hm a b w hr
      have hbad' : ∃ g ∈ rest, ¬ FlightInRange g := by
        obtain ⟨g, hg, hgr⟩ := hbad
        rcases List.mem_cons.mp hg with rfl | hg'
        · exact absurd hr hgr
        · exact ⟨g, hg', hgr⟩
      rw [List.foldlM_cons, h1]
      exact ih m1 hs1 (fun g hg => h3 g (List.mem_cons_of_mem _ hg)) hbad'
    · have hw : writeFlight m [a, b, w] = .error .undefinedIndex := by
        simp only [writeFlight, e0, e1, e2, ok_bind]
        by_cases ha : 0 ≤ a ∧ a < numOfApt
        · obtain ⟨u0, rfl⟩ := Int.eq_ofNat_of_zero_le ha.1
          have hu0 : u0 < numOfApt := by exact_mod_cast ha.2
          obtain ⟨row, hrow, hrlen⟩ := square_getElem? m hm u0 hu0
          have hu0' : u0 < m.length := by rw [hm.1]; exact hu0
          have hrow' : m.get ⟨u0, hu0'⟩ = row := by
            have := List.getElem?_eq_getElem hu0'
            rw [hrow] at this
            exact (Option.some.inj this).symm
          have hb : b < 0 ∨ (row.length : Int) ≤ b := by
            rw [hrlen]
            by_contra hcon
            apply hr
            simp only [FlightInRange, List.getD_cons_zero, List.getD_cons_succ]
            omega
          rw [vecAt_natCast m u0 hu0', hrow', ok_bind]
          rcases hb with hb | hb
          · rw [vecAt_neg row b hb]; rfl
          · rw [vecAt_ge row b hb]; rfl
        · have ha' : a < 0 ∨ (m.length : Int) ≤ a := by rw [hm.1]; omega
          rcases ha' with ha' | ha'
          · rw [vecAt_neg m a ha']; rfl
          · rw [vecAt_ge m a ha']; rfl
      rw [List.foldlM_cons, hw]; rfl

/-! ## The frontier: membership, size and the loop measure -/

theorem mem_heapPush (e x : Int × Int) (h : List (Int × Int)) :
    x ∈ heapPush e h ↔ x = e ∨ x ∈ h := by
  induction h with
  | nil => simp [heapPush]
  | cons y ys ih =>
    unfold heapPush
    split
    · simp
    · simp only [List.mem_cons, ih]
      tauto

theorem length_heapPush (e : Int × Int) (h : List (Int × Int)) :
    (heapPush e h).length = h.length + 1 := by
  induction h with
  | nil => simp [heapPush]
  | cons y ys ih =>
    unfold heapPush
    split
    · simp
    · simp [ih]

theorem entryLE_total (a b : Int × Int) (h : entryLE a b = false) : entryLE b a = true := by
  simp only [entryLE, Bool.or_eq_false_iff, Bool.and_eq_false_iff, decide_eq_false_iff_not,
    Bool.or_eq_true, Bool.and_eq_true, decide_eq_true_eq] at h ⊢
  omega

theorem entryLE_trans (a b c : Int × Int) (h1 : entryLE a b = true) (h2 : entryLE b c = true) :
    entryLE a c = true := by
  simp only [entryLE, Bool.or_eq_true, Bool.and_eq_true, decide_eq_true_eq] at h1 h2 ⊢
  omega

/-- Pushing keeps the entries of the frontier in ascending order, so that its head is a
least entry: the one `top` returns and `pop` removes. -/
theorem heapPush_sorted (e : Int × Int) (h : List (Int × Int))
    (hs : h.Pairwise fun a b => entryLE a b = true) :
    (heapPush e h).Pairwise fun a b => entryLE a b = true := by
  induction h with
  | nil => simp [heapPush]
  | cons x xs ih =>
    obtain ⟨hx, hxs⟩ := List.pairwise_cons.mp hs
    unfold heapPush
    split
    · next hle =>
      refine List.pairwise_cons.mpr ⟨?_, hs⟩
      intro y hy
      rcases List.mem_cons.mp hy with rfl | hy'
      · exact hle
      · exact entryLE_trans e x y hle (hx y hy')
    · next hle =>
      refine List.pairwise_cons.mpr ⟨?_, ih hxs⟩
      intro y hy
      rcases (mem_heapPush e y xs).mp hy with rfl | hy'
      · exact entryLE_total _ _ (by simpa using hle)
      · exact hx y hy'

theorem sum_map_set {α : Type} (f : α → Nat) (l : List α) (x : α) :
    ∀ (i : Nat) (h : i < l.length),
      ((l.set i x).map f).sum + f (l.get ⟨i, h⟩) = (l.map f).sum + f x := by
  induction l with
  | nil => intro i h; cases h
  | cons a as ih =>
    intro i h
    cases i with
    | zero => simp [List.set]; omega
    | succ j =>
      have hj : j < as.length := by simpa using h
      have := ih j hj
      simp only [List.set, List.map_cons, List.sum_cons, List.get_cons_succ] at this ⊢
      omega

theorem costOf_eq_get (costs : List (Int × Int)) (v : Nat) (h : v < costs.length) :
    costOf costs v = (costs.get ⟨v, h⟩).1 := by
  simp [costOf, List.getD_eq_getElem?_getD, List.getElem?_eq_getElem h]

theorem prevOf_eq_get (costs : List (Int × Int)) (v : Nat) (h : v < costs.length) :
    prevOf costs v = (costs.get ⟨v, h⟩).2 := by
  simp [prevOf, List.getD_eq_getElem?_getD, List.getElem?_eq_getElem h]

theorem costOf_set (costs : List (Int × Int)) (v : Nat) (x : Int × Int) (h : v < costs.length)
    (v' : Nat) : costOf (costs.set v x) v' = if v' = v then x.1 else costOf costs v' := by
  unfold costOf
  by_cases hv : v' = v
  · subst hv; simp [List.getD_eq_getElem?_getD, List.getElem?_set, h]
  · have hv' : v ≠ v' := fun e => hv e.symm
    simp [List.getD_eq_getElem?_getD, List.getElem?_set, hv, hv']

theorem prevOf_set (costs : List (Int × Int)) (v : Nat) (x : Int × Int) (h : v < costs.length)
    (v' : Nat) : prevOf (costs.set v x) v' = if v' = v then x.2 else prevOf costs v' := by
  unfold prevOf
  by_cases hv : v' = v
  · subst hv; simp [List.getD_eq_getElem?_getD, List.getElem?_set, h]
  · have hv' : v ≠ v' := fun e => hv e.symm
    simp [List.getD_eq_getElem?_getD, List.getElem?_set, hv, hv']

theorem wrap32_ge (x : Int) : -2147483648 ≤ wrap32 x := by
  unfold wrap32
  have := Int.emod_nonneg (x + 2147483648) (by decide : (4294967296 : Int) ≠ 0)
  omega

theorem wrap32_of_range (x : Int) (h0 : -2147483648 ≤ x) (h1 : x < 2147483648) :
    wrap32 x = x := by
  unfold wrap32
  rw [Int.emod_eq_of_lt (by omega) (by omega)]
  omega

theorem entry_eq_get (adjMatrix : List (List Int)) (hsq : Square adjMatrix) (u v : Nat)
    (hu : u < numOfApt) (hv : v < numOfApt) :
    ∃ row, vecAt adjMatrix (u : Int) = .ok row ∧ vecAt row (v : Int) = .ok (entry adjMatrix u v) := by
  obtain ⟨row, hrow, hlen⟩ := square_getElem? adjMatrix hsq u hu
  have hu' : u < adjMatrix.length := by rw [hsq.1]; exact hu
  have hv' : v < row.length := by rw [hlen]; exact hv
  have hget : adjMatrix.get ⟨u, hu'⟩ = row := by
    have := List.getElem?_eq_getElem hu'
    rw [hrow] at this
    exact (Option.some.inj this).symm
  refine ⟨row, by rw [vecAt_natCast adjMatrix u hu', hget], ?_⟩
  rw [vecAt_natCast row v hv']
  simp [entry, List.getD_eq_getElem?_getD, hrow, List.getElem?_eq_getElem hv']

/-- The loop body on a pair that is not connected, or whose candidate does not improve. -/
theorem relaxEdge_skip (adjMatrix : List (List Int)) (hsq : Square adjMatrix) (cost : Int)
    (u v : Nat) (hu : u < numOfApt) (hv : v < numOfApt) (s : State)
    (hlen : s.costs.length = numOfApt)
    (h : entry adjMatrix u v = 0 ∨ ¬ wrap32 (cost + entry adjMatrix u v) < costOf s.costs v) :
    relaxEdge adjMatrix cost (u : Int) s v = .ok s := by
  obtain ⟨row, h1, h2⟩ := entry_eq_get adjMatrix hsq u v hu hv
  have hv' : v < s.costs.length := by rw [hlen]; exact hv
  simp only [relaxEdge, h1, h2, ok_bind, vecAt_natCast s.costs v hv']
  rw [costOf_eq_get s.costs v hv', List.get_eq_getElem] at h
  by_cases h0 : entry adjMatrix u v = 0
  · simp [h0, pure_eq_ok]
  · rcases h with h | h
    · exact absurd h h0
    · simp [h0, h, pure_eq_ok]

/-- The loop body on a connected pair whose candidate improves the recorded cost. -/
theorem relaxEdge_update (adjMatrix : List (List Int)) (hsq : Square adjMatrix) (cost : Int)
    (u v : Nat) (hu : u < numOfApt) (hv : v < numOfApt) (s : State)
    (hlen : s.costs.length = numOfApt)
    (h0 : entry adjMatrix u v ≠ 0)
    (h : wrap32 (cost + entry adjMatrix u v) < costOf s.costs v) :
    relaxEdge adjMatrix cost (u : Int) s v =
      .ok (relaxed s (wrap32 (cost + entry adjMatrix u v)) u v) := by
  obtain ⟨row, h1, h2⟩ := entry_eq_get adjMatrix hsq u v hu hv
  have hv' : v < s.costs.length := by rw [hlen]; exact hv
  simp only [relaxEdge, h1, h2, ok_bind, vecAt_natCast s.costs v hv']
  rw [costOf_eq_get s.costs v hv', List.get_eq_getElem] at h
  simp [h0, h, pure_eq_ok, relaxed]

/-- A loop over a list keeps an invariant that every single iteration keeps. -/
theorem foldlM_invariant {σ ι ε : Type} (f : σ → ι → Except ε σ) (I : List ι → σ → Prop)
    (hstep : ∀ x R s, I (x :: R) s → ∃ s', f s x = .ok s' ∧ I R s') :
    ∀ R s, I R s → ∃ s', R.foldlM f s = .ok s' ∧ I [] s' := by
  intro R
  induction R with
  | nil => intro s hs; exact ⟨s, rfl, hs⟩
  | cons x R ih =>
    intro s hs
    obtain ⟨s1, h1, hI1⟩ := hstep x R s hs
    obtain ⟨s2, h2, hI2⟩ := ih s1 hI1
    exact ⟨s2, by rw [List.foldlM_cons, h1]; exact h2, hI2⟩

/-- The frontier loop ends, within any budget not below the measure, in a state that
satisfies every invariant its body keeps while lowering the measure. -/
theorem frontierLoop_invariant (adjMatrix : List (List Int)) (I : State → Prop)
    (hstep : ∀ s, I s → s.minHeap ≠ [] →
      ∃ s', popAndRelax adjMatrix s = .ok s' ∧ I s' ∧ loopMeasure s' < loopMeasure s) :
    ∀ fuel s, I s → loopMeasure s ≤ fuel →
      ∃ s', frontierLoop adjMatrix fuel s = .ok s' ∧ I s' ∧ s'.minHeap = [] := by
  intro fuel
  induction fuel with
  | zero =>
    intro s hs hm
    have h0 : s.minHeap = [] := by
      unfold loopMeasure at hm
      exact List.length_eq_zero.mp (by omega)
    exact ⟨s, by simp [frontierLoop, h0], hs, h0⟩
  | succ fuel ih =>
    intro s hs hm
    by_cases h0 : s.minHeap = []
    · exact ⟨s, by simp [frontierLoop, h0], hs, h0⟩
    · obtain ⟨s1, h1, hI1, hlt⟩ := hstep s hs h0
      obtain ⟨s2, h2, hI2, he2⟩ := ih s1 hI1 (by omega)
      refine ⟨s2, ?_, hI2, he2⟩
      simp only [frontierLoop, h0, if_false, h1, ok_bind]
      exact h2

/-! ## Termination of the frontier loop -/

theorem inBounds_relaxed (s : State) (cand : Int) (u v : Nat) (hs : InBounds s)
    (hv : v < numOfApt) : InBounds (relaxed s cand u v) := by
  refine ⟨by simpa [relaxed] using hs.1, ?_⟩
  intro e he
  rcases (mem_heapPush _ _ _).mp he with rfl | he'
  · exact ⟨Int.ofNat_nonneg v, by simpa using hv⟩
  · exact hs.2 e he'

theorem loopMeasure_relaxed (s : State) (cand : Int) (u v : Nat) (hv : v < s.costs.length)
    (h0 : -2147483648 ≤ cand) (h1 : cand < costOf s.costs v) :
    loopMeasure (relaxed s cand u v) < loopMeasure s := by
  have hsum := sum_map_set (fun e : Int × Int => (e.1 + 2147483648).toNat) s.costs
    (cand, (u : Int)) v hv
  rw [costOf_eq_get s.costs v hv] at h1
  simp only [loopMeasure, relaxed, length_heapPush]
  simp only at hsum
  omega

/-- One pass of the `for` loop from a state inside its bounds: it succeeds, stays inside
the bounds and does not raise the measure. -/
theorem relaxFrom_inBounds (adjMatrix : List (List Int)) (hsq : Square adjMatrix)
    (cost : Int) (u : Nat) (hu : u < numOfApt) (M : Nat) :
    ∀ R s, (InBounds s ∧ (∀ x ∈ R, x < numOfApt) ∧ loopMeasure s ≤ M) →
      ∃ s', relaxFrom adjMatrix cost (u : Int) R s = .ok s' ∧
        (InBounds s' ∧ (∀ x ∈ ([] : List Nat), x < numOfApt) ∧ loopMeasure s' ≤ M) := by
  apply foldlM_invariant (relaxEdge adjMatrix cost (u : Int))
    (fun R s => InBounds s ∧ (∀ x ∈ R, x < numOfApt) ∧ loopMeasure s ≤ M)
  intro x R s ⟨hb, hR, hM⟩
  have hx : x < numOfApt := hR x (List.mem_cons_self _ _)
  have hR' : ∀ y ∈ R, y < numOfApt := fun y hy => hR y (List.mem_cons_of_mem _ hy)
  by_cases hc : entry adjMatrix u x ≠ 0 ∧ wrap32 (cost + entry adjMatrix u x) < costOf s.costs x
  · refine ⟨_, relaxEdge_update adjMatrix hsq cost u x hu hx s hb.1 hc.1 hc.2,
      inBounds_relaxed s _ u x hb hx, hR', ?_⟩
    have := loopMeasure_relaxed s _ u x (by rw [hb.1]; exact hx) (wrap32_ge _) hc.2
    omega
  · refine ⟨s, relaxEdge_skip adjMatrix hsq cost u x hu hx s hb.1 ?_, hb, hR', hM⟩
    by_cases h0 : entry adjMatrix u x = 0
    · exact Or.inl h0
    · exact Or.inr (fun h => hc ⟨h0, h⟩)

/-- One iteration of the `while` loop from a state inside its bounds with a non-empty
frontier: it succeeds, stays inside the bounds and lowers the measure. -/
theorem popAndRelax_inBounds (adjMatrix : List (List Int)) (hsq : Square adjMatrix)
    (s : State) (hb : InBounds s) (hne : s.minHeap ≠ []) :
    ∃ s', popAndRelax adjMatrix s = .ok s' ∧ InBounds s' ∧ loopMeasure s' < loopMeasure s := by
  obtain ⟨costs, heap⟩ := s
  cases heap with
  | nil => exact absurd rfl hne
  | cons current rest =>
    obtain ⟨h0, h1⟩ := hb.2 current (List.mem_cons_self _ _)
    obtain ⟨u, hu⟩ := Int.eq_ofNat_of_zero_le h0
    have hu' : u < numOfApt := by rw [hu] at h1; exact_mod_cast h1
    have hb' : InBounds { costs := costs, minHeap := rest } :=
      ⟨hb.1, fun e he => hb.2 e (List.mem_cons_of_mem _ he)⟩
    obtain ⟨s', hs', hb'', _, hM⟩ := relaxFrom_inBounds adjMatrix hsq current.1 u hu'
      (loopMeasure { costs := costs, minHeap := rest }) (List.range numOfApt)
      { costs := costs, minHeap := rest }
      ⟨hb', fun x hx => List.mem_range.mp hx, le_refl _⟩
    refine ⟨s', ?_, hb'', ?_⟩
    · simp only [popAndRelax, hu]
      exact hs'
    · simp only [loopMeasure, List.length_cons] at hM ⊢
      omega

theorem length_initCosts (src : Int) : (initCosts src).length = numOfApt := by
  simp [initCosts]

theorem inBounds_initState (src : Int) (h0 : 0 ≤ src) (h1 : src < numOfApt) :
    InBounds (initState src) := by
  refine ⟨length_initCosts src, ?_⟩
  intro e he
  simp only [initState, List.mem_singleton] at he
  subst he
  exact ⟨h0, h1⟩

theorem loopMeasure_initState (src : Int) : loopMeasure (initState src) ≤ searchFuel := by
  have hsum : ((initCosts src).map fun e => (e.1 + 2147483648).toNat).sum
      ≤ (initCosts src).length * 4294967296 := by
    have := List.sum_le_card_nsmul ((initCosts src).map fun e => (e.1 + 2147483648).toNat)
      4294967296 (by
        intro x hx
        simp only [initCosts, List.map_map, List.mem_map, List.mem_range,
          Function.comp] at hx
        obtain ⟨i, _, rfl⟩ := hx
        split <;> simp [INT_MAX])
    simpa using this
  rw [length_initCosts, numOfApt_eq] at hsum
  simp only [loopMeasure, initState, searchFuel, List.length_singleton]
  omega

theorem vecAt_initCosts_src (src : Int) (h0 : 0 ≤ src) (h1 : src < numOfApt) :
    vecAt (initCosts src) src = .ok (0, -1) := by
  obtain ⟨n, rfl⟩ := Int.eq_ofNat_of_zero_le h0
  have hn : n < numOfApt := by exact_mod_cast h1
  have hn' : n < (initCosts (n : Int)).length := by rw [length_initCosts]; exact hn
  rw [vecAt_natCast _ n hn']
  simp [initCosts, List.getElem_map, List.getElem_range]

/-- The search of lines 131-161 from an airport in range is the frontier loop run from
`initState`. -/
theorem search_eq (adjMatrix : List (List Int)) (src : Int) (h0 : 0 ≤ src)
    (h1 : src < numOfApt) :
    search adjMatrix src =
      (frontierLoop adjMatrix searchFuel (initState src) >>= fun s => pure s.costs) := by
  simp only [search, vecAt_initCosts_src src h0 h1, ok_bind, initState]

/-- On a matrix of 11 rows of 11 entries the frontier loop started by an airport in range
ends within its budget. -/
theorem frontierLoop_terminates (adjMatrix : List (List Int)) (hsq : Square adjMatrix)
    (src : Int) (h0 : 0 ≤ src) (h1 : src < numOfApt) :
    ∃ s', frontierLoop adjMatrix searchFuel (initState src) = .ok s' ∧ InBounds s' ∧
      s'.minHeap = [] :=
  frontierLoop_invariant adjMatrix InBounds
    (fun s hs hne => popAndRelax_inBounds adjMatrix hsq s hs hne)
    searchFuel (initState src) (inBounds_initState src h0 h1) (loopMeasure_initState src)

theorem makeAdjMatrix_usFlights : makeAdjMatrix usFlights = .ok usMatrix := rfl

theorem square_usMatrix : Square usMatrix := by
  unfold Square
  decide

theorem find_src_out (adjMatrix : List (List Int)) (src dst : Int)
    (h : src < 0 ∨ (numOfApt : Int) ≤ src) :
    findCheapestFlightWithDijkstra adjMatrix src dst = .error .undefinedIndex := by
  have hv : vecAt (initCosts src) src = .error .undefinedIndex := by
    rcases h with h | h
    · exact vecAt_neg _ _ h
    · exact vecAt_ge _ _ (by rw [length_initCosts]; exact h)
  simp only [findCheapestFlightWithDijkstra, search, hv, error_bind]

theorem entry_nonneg (adjMatrix : List (List Int)) (hnn : NonNeg adjMatrix) (u v : Nat) :
    0 ≤ entry adjMatrix u v := by
  unfold entry
  rw [List.getD_eq_getElem?_getD, List.getD_eq_getElem?_getD]
  cases hrow : adjMatrix[u]? with
  | none => simp
  | some row =>
    simp only [Option.getD_some]
    cases hx : row[v]? with
    | none => simp
    | some x =>
      simp only [Option.getD_some]
      exact hnn row (List.getElem?_mem hrow) x (List.getElem?_mem hx)

theorem pathWeight_append_singleton (adjMatrix : List (List Int)) (v : Nat) :
    ∀ (p : List Nat) (u : Nat), p.getLast? = some u →
      pathWeight adjMatrix (p ++ [v]) = pathWeight adjMatrix p + entry adjMatrix u v := by
  intro p
  induction p with
  | nil => intro u h; simp at h
  | cons a q ih =>
    intro u h
    cases q with
    | nil =>
      simp only [List.getLast?_singleton, Option.some.injEq] at h
      subst h
      simp [pathWeight]
    | cons b r =>
      have h' : (b :: r).getLast? = some u := by
        rw [List.getLast?_cons_cons] at h; exact h
      have := ih u h'
      simp only [List.cons_append] at this ⊢
      rw [pathWeight, this, pathWeight]; ring

theorem isPath_append_singleton (adjMatrix : List (List Int)) (v : Nat) (hv : v < numOfApt) :
    ∀ (p : List Nat) (u : Nat), isPath adjMatrix p = true → p.getLast? = some u →
      entry adjMatrix u v ≠ 0 → isPath adjMatrix (p ++ [v]) = true := by
  intro p
  induction p with
  | nil => intro u h; simp [isPath] at h
  | cons a q ih =>
    intro u hp hl he
    cases q with
    | nil =>
      simp only [List.getLast?_singleton, Option.some.injEq] at hl
      subst hl
      simp only [isPath, decide_eq_true_eq] at hp
      simp [isPath, hp, he, hv]
    | cons b r =>
      have hl' : (b :: r).getLast? = some u := by
        rw [List.getLast?_cons_cons] at hl; exact hl
      simp only [isPath, Bool.and_eq_true, decide_eq_true_eq] at hp
      have := ih u hp.2 hl' he
      simp only [List.cons_append] at this ⊢
      rw [isPath, this]
      simp [hp.1]

theorem isPath_lt (adjMatrix : List (List Int)) :
    ∀ p : List Nat, isPath adjMatrix p = true → ∀ x ∈ p, x < numOfApt := by
  intro p
  induction p with
  | nil => intro h; simp [isPath] at h
  | cons a q ih =>
    intro hp x hx
    cases q with
    | nil =>
      simp only [isPath, decide_eq_true_eq] at hp
      simp only [List.mem_singleton] at hx
      subst hx; exact hp
    | cons b r =>
      simp only [isPath, Bool.and_eq_true, decide_eq_true_eq] at hp
      rcases List.mem_cons.mp hx with rfl | hx'
      · exact hp.1.1
      · exact ih hp.2 x hx'

theorem nodup_length_le (p : List Nat) (hn : p.Nodup) (hlt : ∀ x ∈ p, x < numOfApt) :
    p.length ≤ numOfApt := by
  have hsub : p ⊆ List.range numOfApt := fun x hx => List.mem_range.mpr (hlt x hx)
  have := (List.subperm_of_subset hn hsub).length_le
  simpa using this

theorem reached_mono (adjMatrix : List (List Int)) (src : Nat) (c c' : Nat → Int)
    (hle : ∀ x, c' x ≤ c x) {p : List Nat} {v : Nat} {d : Int}
    (h : Reached adjMatrix src c p v d) : Reached adjMatrix src c' p v d := by
  induction h with
  | base h0 => exact Reached.base (le_trans (hle src) h0)
  | step v _ hv he hnot hc ih => exact Reached.step v ih hv he hnot (le_trans (hle v) hc)

/-- What a reached value stands for: a path from `src` of that weight, without repeated
airport. -/
theorem reached_path (adjMatrix : List (List Int)) (src : Nat) (hsrc : src < numOfApt)
    (c : Nat → Int) {p : List Nat} {v : Nat} {d : Int} (h : Reached adjMatrix src c p v d) :
    PathFromTo adjMatrix src v p ∧ pathWeight adjMatrix p = d ∧ p.Nodup ∧ v < numOfApt := by
  induction h with
  | base _ =>
    exact ⟨⟨by simp [isPath, hsrc], rfl, rfl⟩, rfl, List.nodup_singleton _, hsrc⟩
  | @step p u d v _ hv he hnot _ ih =>
    obtain ⟨⟨hp, hh, hl⟩, hw, hn, _⟩ := ih
    refine ⟨⟨isPath_append_singleton adjMatrix v hv p u hp hl he, ?_, by simp⟩, ?_, ?_, hv⟩
    · cases p with
      | nil => simp at hh
      | cons a q => simpa using hh
    · rw [pathWeight_append_singleton adjMatrix v p u hl, hw]
    · rw [List.nodup_append]
      refine ⟨hn, List.nodup_singleton _, ?_⟩
      intro x hx hx'
      simp only [List.mem_singleton] at hx'
      subst hx'
      exact hnot hx

theorem reached_nonneg (adjMatrix : List (List Int)) (hnn : NonNeg adjMatrix) (src : Nat)
    (c : Nat → Int) {p : List Nat} {v : Nat} {d : Int} (h : Reached adjMatrix src c p v d) :
    0 ≤ d := by
  induction h with
  | base _ => exact le_refl _
  | @step p u d v _ _ _ _ _ ih =>
    have := entry_nonneg adjMatrix hnn u v
    omega

/-- The cost of every airport on a reached path is at most the weight of the path. -/
theorem reached_bound (adjMatrix : List (List Int)) (hnn : NonNeg adjMatrix) (src : Nat)
    (c : Nat → Int) {p : List Nat} {v : Nat} {d : Int} (h : Reached adjMatrix src c p v d) :
    ∀ x ∈ p, c x ≤ d := by
  induction h with
  | base h0 =>
    intro x hx
    simp only [List.mem_singleton] at hx
    subst hx; exact h0
  | @step p u d v _ _ _ _ hc ih =>
    intro x hx
    have hw := entry_nonneg adjMatrix hnn u v
    rcases List.mem_append.mp hx with hx' | hx'
    · have := ih x hx'
      omega
    · simp only [List.mem_singleton] at hx'
      subst hx'; exact hc

theorem reached_last_mem (adjMatrix : List (List Int)) (src : Nat)
    (c : Nat → Int) {p : List Nat} {v : Nat} {d : Int} (h : Reached adjMatrix src c p v d) :
    v ∈ p := by
  cases h with
  | base _ => simp
  | step v _ _ _ _ _ => simp

theorem reached_path_lt (adjMatrix : List (List Int)) (src : Nat) (hsrc : src < numOfApt)
    (c : Nat → Int) {p : List Nat} {v : Nat} {d : Int} (h : Reached adjMatrix src c p v d) :
    v < numOfApt := by
  cases h with
  | base _ => exact hsrc
  | step v _ hv _ _ _ => exact hv

/-- Under `NoOverflow` a reached value and its extension by one hop stay below `INT_MAX`. -/
theorem reached_lt (adjMatrix : List (List Int)) (hno : NoOverflow adjMatrix) (src : Nat)
    (hsrc : src < numOfApt) (c : Nat → Int) {p : List Nat} {u : Nat} {d : Int}
    (h : Reached adjMatrix src c p u d) :
    d < INT_MAX ∧ ∀ v, v < numOfApt → entry adjMatrix u v ≠ 0 →
      d + entry adjMatrix u v < INT_MAX := by
  obtain ⟨⟨hp, _, hl⟩, hw, hn, _⟩ := reached_path adjMatrix src hsrc c h
  have hlen := nodup_length_le p hn (isPath_lt adjMatrix p hp)
  refine ⟨?_, ?_⟩
  · rw [← hw]; exact hno p hp (by omega)
  · intro v hv he
    have := hno (p ++ [v]) (isPath_append_singleton adjMatrix v hv p u hp hl he)
      (by simp; omega)
    rw [pathWeight_append_singleton adjMatrix v p u hl, hw] at this
    exact this

/-! ## The invariant of the relaxation -/

theorem costOf_relaxed_le (s : State) (cand : Int) (u v : Nat) (hv : v < s.costs.length)
    (hlt : cand < costOf s.costs v) (x : Nat) :
    costOf (relaxed s cand u v).costs x ≤ costOf s.costs x := by
  simp only [relaxed, costOf_set s.costs v _ hv x]
  split
  · next h => subst h; exact le_of_lt hlt
  · exact le_refl _

/-- Recording an improving candidate keeps the table and the frontier labelled. -/
theorem labelled_relaxed (adjMatrix : List (List Int)) (hnn : NonNeg adjMatrix) (src : Nat)
    (hsrc : src < numOfApt)
    (s : State) (hL : Labelled adjMatrix src s) (c0 : Int) (u0 v : Nat) (p0 : List Nat)
    (hW : Reached adjMatrix src (costOf s.costs) p0 u0 c0) (hv : v < numOfApt)
    (he : entry adjMatrix u0 v ≠ 0)
    (hlt : c0 + entry adjMatrix u0 v < costOf s.costs v) :
    Labelled adjMatrix src (relaxed s (c0 + entry adjMatrix u0 v) u0 v) := by
  have hvl : v < s.costs.length := by rw [hL.inBounds.1]; exact hv
  have hle := costOf_relaxed_le s (c0 + entry adjMatrix u0 v) u0 v hvl hlt
  have hw0 := entry_nonneg adjMatrix hnn u0 v
  have hc0 := reached_nonneg adjMatrix hnn src _ hW
  have hbound := reached_bound adjMatrix hnn src _ hW
  have hvsrc : v ≠ src := by
    intro h
    rw [h, hL.srcCost] at hlt
    rw [h] at hw0
    omega
  have hcv : costOf (relaxed s (c0 + entry adjMatrix u0 v) u0 v).costs v
      = c0 + entry adjMatrix u0 v := by
    simp [relaxed, costOf_set s.costs v _ hvl v]
  have hcx : ∀ x, x ≠ v → costOf (relaxed s (c0 + entry adjMatrix u0 v) u0 v).costs x
      = costOf s.costs x := by
    intro x hx
    simp [relaxed, costOf_set s.costs v _ hvl x, hx]
  have hpv : prevOf (relaxed s (c0 + entry adjMatrix u0 v) u0 v).costs v = (u0 : Int) := by
    simp [relaxed, prevOf_set s.costs v _ hvl v]
  have hpx : ∀ x, x ≠ v → prevOf (relaxed s (c0 + entry adjMatrix u0 v) u0 v).costs x
      = prevOf s.costs x := by
    intro x hx
    simp [relaxed, prevOf_set s.costs v _ hvl x, hx]
  have hnew : Reached adjMatrix src (costOf (relaxed s (c0 + entry adjMatrix u0 v) u0 v).costs)
      (p0 ++ [v]) v (c0 + entry adjMatrix u0 v) := by
    refine Reached.step v (reached_mono adjMatrix src _ _ hle hW) hv he ?_ (le_of_eq hcv)
    intro hmem
    have := hbound v hmem
    omega
  refine ⟨inBounds_relaxed s _ u0 v hL.inBounds hv, ?_, ?_, ?_, ?_, ?_⟩
  · rw [hcx src (fun h => hvsrc h.symm)]; exact hL.srcCost
  · rw [hpx src (fun h => hvsrc h.symm)]; exact hL.srcPrev
  · intro x hx
    by_cases hxv : x = v
    · subst hxv
      exact Or.inr ⟨p0 ++ [x], by rw [hcv]; exact hnew⟩
    · rcases hL.label x hx with ⟨h1, h2, h3⟩ | ⟨p, hp⟩
      · exact Or.inl ⟨by rw [hcx x hxv]; exact h1, by rw [hpx x hxv]; exact h2, h3⟩
      · exact Or.inr ⟨p, by rw [hcx x hxv]; exact reached_mono adjMatrix src _ _ hle hp⟩
  · intro e hmem
    rcases (mem_heapPush _ _ _).mp hmem with rfl | hmem'
    · exact ⟨p0 ++ [v], v, rfl, hnew⟩
    · obtain ⟨p, u, hu, hp⟩ := hL.frontier e hmem'
      exact ⟨p, u, hu, reached_mono adjMatrix src _ _ hle hp⟩
  · intro x hx hxs hfin
    by_cases hxv : x = v
    · subst hxv
      have hu0 := reached_path_lt adjMatrix src hsrc _ hW
      refine ⟨u0, hu0, hpv, he, ?_⟩
      rw [hcv]
      have h1 := hle u0
      have h2 := hbound u0 (reached_last_mem adjMatrix src _ hW)
      omega
    · rw [hcx x hxv] at hfin
      obtain ⟨u, hu, hpu, heu, hcu⟩ := hL.prev x hx hxs hfin
      refine ⟨u, hu, by rw [hpx x hxv]; exact hpu, heu, ?_⟩
      rw [hcx x hxv]
      have := hle u
      omega

theorem scanning_relaxed (adjMatrix : List (List Int)) (src : Nat) (s : State)
    (hL : Labelled adjMatrix src s) (c0 : Int) (u0 v : Nat) (R : List Nat)
    (hS : Scanning adjMatrix src c0 u0 (v :: R) s) (hv : v < numOfApt)
    (hlt : c0 + entry adjMatrix u0 v < costOf s.costs v) :
    Scanning adjMatrix src c0 u0 R (relaxed s (c0 + entry adjMatrix u0 v) u0 v) := by
  have hvl : v < s.costs.length := by rw [hL.inBounds.1]; exact hv
  have hle := costOf_relaxed_le s (c0 + entry adjMatrix u0 v) u0 v hvl hlt
  have hcv : costOf (relaxed s (c0 + entry adjMatrix u0 v) u0 v).costs v
      = c0 + entry adjMatrix u0 v := by
    simp [relaxed, costOf_set s.costs v _ hvl v]
  have hcx : ∀ x, x ≠ v → costOf (relaxed s (c0 + entry adjMatrix u0 v) u0 v).costs x
      = costOf s.costs x := by
    intro x hx
    simp [relaxed, costOf_set s.costs v _ hvl x, hx]
  obtain ⟨⟨p0, hW⟩, hfix⟩ := hS
  refine ⟨⟨p0, reached_mono adjMatrix src _ _ hle hW⟩, ?_⟩
  intro u x hu hx hfin hedge
  by_cases huv : u = v
  · subst huv
    refine Or.inr (Or.inl ?_)
    rw [hcv]
    exact (mem_heapPush _ _ _).mpr (Or.inl rfl)
  · rw [hcx u huv] at hfin ⊢
    rcases hfix u x hu hx hfin hedge with h | h | ⟨h1, h2, h3⟩
    · exact Or.inl (le_trans (hle x) h)
    · exact Or.inr (Or.inl ((mem_heapPush _ _ _).mpr (Or.inr h)))
    · rcases List.mem_cons.mp h3 with hxv | hxR
      · subst hxv
        subst h2
        refine Or.inl ?_
        rw [hcv, h1]
      · exact Or.inr (Or.inr ⟨h1, h2, hxR⟩)

theorem scanning_skip (adjMatrix : List (List Int)) (src : Nat) (s : State)
    (c0 : Int) (u0 v : Nat) (R : List Nat)
    (hS : Scanning adjMatrix src c0 u0 (v :: R) s)
    (h : entry adjMatrix u0 v = 0 ∨ ¬ c0 + entry adjMatrix u0 v < costOf s.costs v) :
    Scanning adjMatrix src c0 u0 R s := by
  obtain ⟨hW, hfix⟩ := hS
  refine ⟨hW, ?_⟩
  intro u x hu hx hfin hedge
  rcases hfix u x hu hx hfin hedge with h' | h' | ⟨h1, h2, h3⟩
  · exact Or.inl h'
  · exact Or.inr (Or.inl h')
  · rcases List.mem_cons.mp h3 with hxv | hxR
    · subst hxv
      subst h2
      rcases h with h | h
      · exact absurd h hedge
      · exact Or.inl (by rw [h1]; exact not_lt.mp h)
    · exact Or.inr (Or.inr ⟨h1, h2, hxR⟩)

/-- The `for` loop keeps the invariant: it succeeds, no candidate overflows, and at its
end every pair out of the popped airport has been examined. -/
theorem relaxFrom_labelled (adjMatrix : List (List Int)) (hsq : Square adjMatrix)
    (hnn : NonNeg adjMatrix) (hno : NoOverflow adjMatrix) (src : Nat) (hsrc : src < numOfApt)
    (c0 : Int) (u0 : Nat) :
    ∀ R s, (Labelled adjMatrix src s ∧ Scanning adjMatrix src c0 u0 R s ∧
        ∀ x ∈ R, x < numOfApt) →
      ∃ s', relaxFrom adjMatrix c0 (u0 : Int) R s = .ok s' ∧
        (Labelled adjMatrix src s' ∧ Scanning adjMatrix src c0 u0 [] s' ∧
          ∀ x ∈ ([] : List Nat), x < numOfApt) := by
  apply foldlM_invariant (relaxEdge adjMatrix c0 (u0 : Int))
    (fun R s => Labelled adjMatrix src s ∧ Scanning adjMatrix src c0 u0 R s ∧
      ∀ x ∈ R, x < numOfApt)
  intro x R s ⟨hL, hS, hR⟩
  have hx : x < numOfApt := hR x (List.mem_cons_self _ _)
  have hR' : ∀ y ∈ R, y < numOfApt := fun y hy => hR y (List.mem_cons_of_mem _ hy)
  obtain ⟨p0, hW⟩ := hS.1
  have hu0 := reached_path_lt adjMatrix src hsrc _ hW
  have hc0 := reached_nonneg adjMatrix hnn src _ hW
  have hw0 := entry_nonneg adjMatrix hnn u0 x
  by_cases he : entry adjMatrix u0 x = 0
  · exact ⟨s, relaxEdge_skip adjMatrix hsq c0 u0 x hu0 hx s hL.inBounds.1 (Or.inl he), hL,
      scanning_skip adjMatrix src s c0 u0 x R hS (Or.inl he), hR'⟩
  · have hlt := (reached_lt adjMatrix hno src hsrc _ hW).2 x hx he
    have hwrap : wrap32 (c0 + entry adjMatrix u0 x) = c0 + entry adjMatrix u0 x :=
      wrap32_of_range _ (by omega) (by unfold INT_MAX at hlt; omega)
    by_cases hc : c0 + entry adjMatrix u0 x < costOf s.costs x
    · refine ⟨relaxed s (c0 + entry adjMatrix u0 x) u0 x, ?_,
        labelled_relaxed adjMatrix hnn src hsrc s hL c0 u0 x p0 hW hx he hc,
        scanning_relaxed adjMatrix src s hL c0 u0 x R hS hx hc, hR'⟩
      have := relaxEdge_update adjMatrix hsq c0 u0 x hu0 hx s hL.inBounds.1 he
        (by rw [hwrap]; exact hc)
      rw [hwrap] at this
      exact this
    · exact ⟨s, relaxEdge_skip adjMatrix hsq c0 u0 x hu0 hx s hL.inBounds.1
          (Or.inr (by rw [hwrap]; exact hc)), hL,
        scanning_skip adjMatrix src s c0 u0 x R hS (Or.inr hc), hR'⟩

/-- One iteration of the `while` loop keeps the invariant. -/
theorem popAndRelax_labelled (adjMatrix : List (List Int)) (hsq : Square adjMatrix)
    (hnn : NonNeg adjMatrix) (hno : NoOverflow adjMatrix) (src : Nat) (hsrc : src < numOfApt)
    (s : State) (hL : Labelled adjMatrix src s) (hS : Settled adjMatrix s)
    (hne : s.minHeap ≠ []) :
    ∃ s', popAndRelax adjMatrix s = .ok s' ∧ Labelled adjMatrix src s' ∧
      Settled adjMatrix s' := by
  obtain ⟨costs, heap⟩ := s
  cases heap with
  | nil => exact absurd rfl hne
  | cons current rest =>
    obtain ⟨p0, u0, hcur, hW⟩ := hL.frontier current (List.mem_cons_self _ _)
    have hL1 : Labelled adjMatrix src { costs := costs, minHeap := rest } :=
      ⟨⟨hL.inBounds.1, fun e he => hL.inBounds.2 e (List.mem_cons_of_mem _ he)⟩,
        hL.srcCost, hL.srcPrev, hL.label,
        fun e he => hL.frontier e (List.mem_cons_of_mem _ he), hL.prev⟩
    have hS1 : Scanning adjMatrix src current.1 u0 (List.range numOfApt)
        { costs := costs, minHeap := rest } := by
      refine ⟨⟨p0, hW⟩, ?_⟩
      intro u v hu hv hfin hedge
      rcases hS u v hu hv hfin hedge with h | h
      · exact Or.inl h
      · rcases List.mem_cons.mp h with h' | h'
        · refine Or.inr (Or.inr ⟨?_, ?_, List.mem_range.mpr hv⟩)
          · rw [← h']
          · have : (u : Int) = (u0 : Int) := by rw [← hcur, ← h']
            exact_mod_cast this
        · exact Or.inr (Or.inl h')
    obtain ⟨s', hs', hL', hS', _⟩ := relaxFrom_labelled adjMatrix hsq hnn hno src hsrc
      current.1 u0 (List.range numOfApt) { costs := costs, minHeap := rest }
      ⟨hL1, hS1, fun x hx => List.mem_range.mp hx⟩
    refine ⟨s', ?_, hL', ?_⟩
    · simp only [popAndRelax, hcur]
      exact hs'
    · intro u v hu hv hfin hedge
      rcases hS'.2 u v hu hv hfin hedge with h | h | ⟨_, _, h3⟩
      · exact Or.inl h
      · exact Or.inr h
      · cases h3

theorem costOf_initCosts (src x : Nat) (hx : x < numOfApt) :
    costOf (initCosts (src : Int)) x = if x = src then 0 else INT_MAX := by
  have hx' : x < (initCosts (src : Int)).length := by rw [length_initCosts]; exact hx
  rw [costOf_eq_get _ x hx']
  simp only [initCosts, List.get_eq_getElem, List.getElem_map, List.getElem_range, Nat.cast_inj]
  split <;> rfl

theorem prevOf_initCosts (src x : Nat) (hx : x < numOfApt) :
    prevOf (initCosts (src : Int)) x = -1 := by
  have hx' : x < (initCosts (src : Int)).length := by rw [length_initCosts]; exact hx
  rw [prevOf_eq_get _ x hx']
  simp only [initCosts, List.get_eq_getElem, List.getElem_map, List.getElem_range]
  split <;> rfl

theorem labelled_initState (adjMatrix : List (List Int)) (src : Nat) (hsrc : src < numOfApt) :
    Labelled adjMatrix src (initState (src : Int)) ∧ Settled adjMatrix (initState (src : Int)) := by
  have hc : costOf (initCosts (src : Int)) src = 0 := by
    rw [costOf_initCosts src src hsrc]; simp
  have hbase : Reached adjMatrix src (costOf (initCosts (src : Int))) [src] src 0 :=
    Reached.base (le_of_eq hc)
  refine ⟨⟨inBounds_initState _ (Int.ofNat_nonneg _) (by exact_mod_cast hsrc), hc,
    prevOf_initCosts src src hsrc, ?_, ?_, ?_⟩, ?_⟩
  · intro v hv
    by_cases h : v = src
    · subst h
      exact Or.inr ⟨[v], by simp only [initState]; rw [hc]; exact hbase⟩
    · exact Or.inl ⟨by simp [initState, costOf_initCosts src v hv, h],
        prevOf_initCosts src v hv, h⟩
  · intro e he
    simp only [initState, List.mem_singleton] at he
    subst he
    exact ⟨[src], src, rfl, hbase⟩
  · intro v hv hvs hfin
    simp [initState, costOf_initCosts src v hv, hvs] at hfin
  · intro u v hu _ hfin _
    by_cases h : u = src
    · subst h
      refine Or.inr ?_
      simp only [initState, List.mem_singleton]
      rw [hc]
    · simp [initState, costOf_initCosts src u hu, h] at hfin

/-- The search from `src` ends in a labelled table in which every connected pair out of
an airport with a recorded cost is relaxed. -/
theorem search_labelled (adjMatrix : List (List Int)) (hsq : Square adjMatrix)
    (hnn : NonNeg adjMatrix) (hno : NoOverflow adjMatrix) (src : Nat) (hsrc : src < numOfApt) :
    ∃ s, search adjMatrix (src : Int) = .ok s.costs ∧ Labelled adjMatrix src s ∧
      Settled adjMatrix s ∧ s.minHeap = [] := by
  have hloop := frontierLoop_invariant adjMatrix
    (fun s => Labelled adjMatrix src s ∧ Settled adjMatrix s)
    (by
      intro s ⟨hL, hS⟩ hne
      obtain ⟨s1, h1, hL1, hS1⟩ :=
        popAndRelax_labelled adjMatrix hsq hnn hno src hsrc s hL hS hne
      obtain ⟨s2, h2, _, hm⟩ := popAndRelax_inBounds adjMatrix hsq s hL.inBounds hne
      rw [h1] at h2
      cases h2
      exact ⟨s1, h1, ⟨hL1, hS1⟩, hm⟩)
    searchFuel (initState (src : Int)) (labelled_initState adjMatrix src hsrc)
    (loopMeasure_initState _)
  obtain ⟨s, hs, ⟨hL, hS⟩, he⟩ := hloop
  refine ⟨s, ?_, hL, hS, he⟩
  rw [search_eq adjMatrix _ (Int.ofNat_nonneg _) (by exact_mod_cast hsrc), hs]; rfl

/-! ## The table at the end of the search -/

theorem labelled_finite (adjMatrix : List (List Int)) (hnn : NonNeg adjMatrix)
    (hno : NoOverflow adjMatrix) (src : Nat) (hsrc : src < numOfApt) (s : State)
    (hL : Labelled adjMatrix src s) (v : Nat) (hv : v < numOfApt)
    (hfin : costOf s.costs v ≠ INT_MAX) :
    0 ≤ costOf s.costs v ∧ costOf s.costs v < INT_MAX ∧
      ∃ p, PathFromTo adjMatrix src v p ∧ pathWeight adjMatrix p = costOf s.costs v := by
  rcases hL.label v hv with ⟨h, _, _⟩ | ⟨p, hp⟩
  · exact absurd h hfin
  · exact ⟨reached_nonneg adjMatrix hnn src _ hp, (reached_lt adjMatrix hno src hsrc _ hp).1, p,
      (reached_path adjMatrix src hsrc _ hp).1, (reached_path adjMatrix src hsrc _ hp).2.1⟩

/-- At the end of the search a connected pair out of an airport with a recorded cost is
relaxed, and its head has a recorded cost too. -/
theorem settled_edge (adjMatrix : List (List Int)) (hno : NoOverflow adjMatrix) (src : Nat)
    (hsrc : src < numOfApt) (s : State) (hL : Labelled adjMatrix src s)
    (hS : Settled adjMatrix s) (he : s.minHeap = []) (u v : Nat) (hu : u < numOfApt)
    (hv : v < numOfApt) (hfin : costOf s.costs u ≠ INT_MAX) (hedge : entry adjMatrix u v ≠ 0) :
    costOf s.costs v ≤ costOf s.costs u + entry adjMatrix u v ∧ costOf s.costs v ≠ INT_MAX := by
  have h1 : costOf s.costs v ≤ costOf s.costs u + entry adjMatrix u v := by
    rcases hS u v hu hv hfin hedge with h | h
    · exact h
    · rw [he] at h; cases h
  rcases hL.label u hu with ⟨h, _, _⟩ | ⟨p, hp⟩
  · exact absurd h hfin
  · have := (reached_lt adjMatrix hno src hsrc _ hp).2 v hv hedge
    exact ⟨h1, by omega⟩

/-- At the end of the search the recorded cost of the last airport of a path is at most
the recorded cost of its first airport plus the weight of the path. -/
theorem settled_path (adjMatrix : List (List Int)) (hno : NoOverflow adjMatrix) (src : Nat)
    (hsrc : src < numOfApt) (s : State) (hL : Labelled adjMatrix src s)
    (hS : Settled adjMatrix s) (he : s.minHeap = []) :
    ∀ (p : List Nat) (u x : Nat), isPath adjMatrix p = true → p.head? = some u →
      p.getLast? = some x → costOf s.costs u ≠ INT_MAX →
      costOf s.costs x ≠ INT_MAX ∧ costOf s.costs x ≤ costOf s.costs u + pathWeight adjMatrix p := by
  intro p
  induction p with
  | nil => intro u x h; simp [isPath] at h
  | cons a q ih =>
    intro u x hp hh hl hfin
    simp only [List.head?_cons, Option.some.injEq] at hh
    subst hh
    cases q with
    | nil =>
      simp only [List.getLast?_singleton, Option.some.injEq] at hl
      subst hl
      exact ⟨hfin, by simp [pathWeight]⟩
    | cons b r =>
      have hl' : (b :: r).getLast? = some x := by
        rw [List.getLast?_cons_cons] at hl; exact hl
      rw [isPath] at hp
      simp only [Bool.and_eq_true, decide_eq_true_eq] at hp
      obtain ⟨⟨ha, hab⟩, hq⟩ := hp
      have hb : b < numOfApt := isPath_lt adjMatrix (b :: r) hq b (List.mem_cons_self _ _)
      obtain ⟨h1, h2⟩ := settled_edge adjMatrix hno src hsrc s hL hS he a b ha hb hfin hab
      obtain ⟨h3, h4⟩ := ih b x hq rfl hl' h2
      refine ⟨h3, ?_⟩
      rw [pathWeight]
      omega

/-- At the end of the search the recorded cost of a reachable airport is the least weight
of a path from `src`, and that of an unreachable airport is still `{INT_MAX, -1}`. -/
theorem settled_optimal (adjMatrix : List (List Int))
    (hno : NoOverflow adjMatrix) (src : Nat) (hsrc : src < numOfApt) (s : State)
    (hL : Labelled adjMatrix src s) (hS : Settled adjMatrix s) (he : s.minHeap = [])
    (dst : Nat) (hdst : dst < numOfApt) :
    ((∃ p, PathFromTo adjMatrix src dst p) →
        costOf s.costs dst ≠ INT_MAX ∧
          ∀ p, PathFromTo adjMatrix src dst p → costOf s.costs dst ≤ pathWeight adjMatrix p) ∧
      ((¬ ∃ p, PathFromTo adjMatrix src dst p) →
        costOf s.costs dst = INT_MAX ∧ prevOf s.costs dst = -1) := by
  have hsrcfin : costOf s.costs src ≠ INT_MAX := by rw [hL.srcCost]; decide
  have hall : ∀ p, PathFromTo adjMatrix src dst p →
      costOf s.costs dst ≠ INT_MAX ∧ costOf s.costs dst ≤ pathWeight adjMatrix p := by
    intro p ⟨hp, hh, hl⟩
    have := settled_path adjMatrix hno src hsrc s hL hS he p src dst hp hh hl hsrcfin
    rw [hL.srcCost] at this
    exact ⟨this.1, by omega⟩
  constructor
  · rintro ⟨p, hp⟩
    exact ⟨(hall p hp).1, fun q hq => (hall q hq).2⟩
  · intro hnone
    rcases hL.label dst hdst with ⟨h1, h2, _⟩ | ⟨p, hp⟩
    · exact ⟨h1, h2⟩
    · exact absurd ⟨p, (reached_path adjMatrix src hsrc _ hp).1⟩ hnone

/-- At the end of the search the predecessor of an airport with a recorded cost, other
than `src`, is the tail of a connected pair that accounts exactly for the recorded cost. -/
theorem settled_prev (adjMatrix : List (List Int)) (hnn : NonNeg adjMatrix)
    (hno : NoOverflow adjMatrix) (src : Nat) (hsrc : src < numOfApt) (s : State)
    (hL : Labelled adjMatrix src s) (hS : Settled adjMatrix s) (he : s.minHeap = [])
    (v : Nat) (hv : v < numOfApt) (hvs : v ≠ src) (hfin : costOf s.costs v ≠ INT_MAX) :
    ∃ u, u < numOfApt ∧ prevOf s.costs v = (u : Int) ∧ entry adjMatrix u v ≠ 0 ∧
      costOf s.costs u ≠ INT_MAX ∧
      costOf s.costs v = costOf s.costs u + entry adjMatrix u v := by
  obtain ⟨u, hu, hpu, hedge, hle⟩ := hL.prev v hv hvs hfin
  have hw := entry_nonneg adjMatrix hnn u v
  have hvlt := (labelled_finite adjMatrix hnn hno src hsrc s hL v hv hfin).2.1
  have hufin : costOf s.costs u ≠ INT_MAX := by omega
  have := (settled_edge adjMatrix hno src hsrc s hL hS he u v hu hv hufin hedge).1
  exact ⟨u, hu, hpu, hedge, hufin, by omega⟩

theorem filter_length_le (l : List Nat) (p q : Nat → Bool)
    (hpq : ∀ x ∈ l, p x = true → q x = true) :
    (l.filter p).length ≤ (l.filter q).length := by
  induction l with
  | nil => simp
  | cons b t ih =>
    have iht := ih (fun x hx => hpq x (List.mem_cons_of_mem _ hx))
    have hb := hpq b (List.mem_cons_self _ _)
    cases hpb : p b with
    | false =>
      cases hqb : q b with
      | false => simp [List.filter, hpb, hqb]; exact iht
      | true => simp [List.filter, hpb, hqb]; omega
    | true =>
      have hqb := hb hpb
      simp [List.filter, hpb, hqb]; exact iht

theorem filter_length_lt (l : List Nat) (p q : Nat → Bool)
    (hpq : ∀ x ∈ l, p x = true → q x = true) (a : Nat) (ha : a ∈ l) (hqa : q a = true)
    (hpa : p a = false) : (l.filter p).length < (l.filter q).length := by
  induction l with
  | nil => cases ha
  | cons b t ih =>
    have hpq' : ∀ x ∈ t, p x = true → q x = true :=
      fun x hx => hpq x (List.mem_cons_of_mem _ hx)
    rcases List.mem_cons.mp ha with hab | hat
    · subst hab
      have := filter_length_le t p q hpq'
      simp [List.filter, hpa, hqa]; omega
    · have iht := ih hpq' hat
      have hb := hpq b (List.mem_cons_self _ _)
      cases hpb : p b with
      | false =>
        cases hqb : q b with
        | false => simp [List.filter, hpb, hqb]; exact iht
        | true => simp [List.filter, hpb, hqb]; omega
      | true =>
        have hqb := hb hpb
        simp [List.filter, hpb, hqb]; exact iht

theorem rank_lt_numOfApt (costs : List (Int × Int)) (v : Nat) (hv : v < numOfApt) :
    rank costs v < numOfApt := by
  have := filter_length_lt (List.range numOfApt)
    (fun x => decide (costOf costs x < costOf costs v)) (fun _ => true)
    (fun _ _ _ => rfl) v (List.mem_range.mpr hv) rfl (by simp)
  simpa [rank] using this

theorem rank_lt_rank (costs : List (Int × Int)) (u v : Nat) (hu : u < numOfApt)
    (h : costOf costs u < costOf costs v) : rank costs u < rank costs v := by
  apply filter_length_lt (List.range numOfApt) _ _ _ u (List.mem_range.mpr hu)
  · simpa using h
  · simp
  · intro x _ hx
    simp only [decide_eq_true_eq] at hx ⊢
    omega

/-! ## The route and the returned cost -/

/-- The walk along `PrevApt` over the final table: from an airport with a recorded cost
it reaches `src` within the budget and leaves on the stack a path that accounts for the
recorded cost of `dst`. -/
theorem walkRoute_spec (adjMatrix : List (List Int)) (hnn : NonNeg adjMatrix)
    (hno : NoOverflow adjMatrix) (src : Nat) (hsrc : src < numOfApt) (s : State)
    (hL : Labelled adjMatrix src s) (hS : Settled adjMatrix s) (he : s.minHeap = [])
    (dst : Nat) :
    ∀ (fuel curr : Nat) (acc : List Nat), curr < numOfApt → costOf s.costs curr ≠ INT_MAX →
      isPath adjMatrix (curr :: acc) = true → (curr :: acc).getLast? = some dst →
      pathWeight adjMatrix (curr :: acc) + costOf s.costs curr = costOf s.costs dst →
      rank s.costs curr < fuel →
      ∃ r : List Nat,
        walkRoute s.costs (src : Int) fuel (curr : Int) (acc.map fun n : Nat => (n : Int))
            = .ok (r.map fun n : Nat => (n : Int)) ∧
          PathFromTo adjMatrix src dst (src :: r) ∧
          pathWeight adjMatrix (src :: r) = costOf s.costs dst := by
  intro fuel
  induction fuel with
  | zero => intro curr acc _ _ _ _ _ hr; omega
  | succ fuel ih =>
    intro curr acc hcurr hfin hp hl hw hr
    by_cases hcs : curr = src
    · subst hcs
      refine ⟨acc, by simp [walkRoute], ⟨hp, rfl, hl⟩, ?_⟩
      rw [hL.srcCost] at hw
      omega
    · have hcs' : ¬ (curr : Int) = (src : Int) := fun h => hcs (by exact_mod_cast h)
      obtain ⟨u, hu, hpu, hedge, hufin, hcu⟩ :=
        settled_prev adjMatrix hnn hno src hsrc s hL hS he curr hcurr hcs hfin
      have hw0 := entry_nonneg adjMatrix hnn u curr
      have hlt : costOf s.costs u < costOf s.costs curr := by omega
      have hcl : curr < s.costs.length := by rw [hL.inBounds.1]; exact hcurr
      obtain ⟨name, hname⟩ := aptAt_natCast curr hcurr
      have hp' : isPath adjMatrix (u :: curr :: acc) = true := by
        rw [isPath, hp]; simp [hu, hedge]
      have hl' : (u :: curr :: acc).getLast? = some dst := by
        rw [List.getLast?_cons_cons]; exact hl
      have hw' : pathWeight adjMatrix (u :: curr :: acc) + costOf s.costs u
          = costOf s.costs dst := by
        rw [pathWeight]; omega
      have hr' : rank s.costs u < fuel := by
        have := rank_lt_rank s.costs u curr hu hlt
        omega
      obtain ⟨r, hwalk, hpath, hweight⟩ := ih u (curr :: acc) hu hufin hp' hl' hw' hr'
      refine ⟨r, ?_, hpath, hweight⟩
      rw [prevOf_eq_get s.costs curr hcl] at hpu
      simp only [walkRoute, hcs', if_false, hname, ok_bind, vecAt_natCast s.costs curr hcl, hpu]
      simpa using hwalk

/-- The result of `findCheapestFlightWithDijkstra` for a reachable destination: the
recorded cost of `dst`, least among all paths, with a route that is a path of that weight. -/
theorem find_spec (adjMatrix : List (List Int)) (hsq : Square adjMatrix)
    (hnn : NonNeg adjMatrix) (hno : NoOverflow adjMatrix) (src dst : Nat)
    (hsrc : src < numOfApt) (hdst : dst < numOfApt)
    (hreach : ∃ p, PathFromTo adjMatrix src dst p) :
    ∃ (c : Int) (r : List Nat),
      findCheapestFlightWithDijkstra adjMatrix (src : Int) (dst : Int)
          = .ok (c, r.map fun n : Nat => (n : Int)) ∧
        PathFromTo adjMatrix src dst r ∧ pathWeight adjMatrix r = c ∧
        ∀ p, PathFromTo adjMatrix src dst p → c ≤ pathWeight adjMatrix p := by
  obtain ⟨s, hsearch, hL, hS, he⟩ := search_labelled adjMatrix hsq hnn hno src hsrc
  obtain ⟨hfin, hmin⟩ :=
    (settled_optimal adjMatrix hno src hsrc s hL hS he dst hdst).1 hreach
  obtain ⟨r, hwalk, hpath, hweight⟩ :=
    walkRoute_spec adjMatrix hnn hno src hsrc s hL hS he dst numOfApt dst [] hdst hfin
      (by simp [isPath, hdst]) rfl (by simp [pathWeight]) (rank_lt_numOfApt s.costs dst hdst)
  have hdl : dst < s.costs.length := by rw [hL.inBounds.1]; exact hdst
  obtain ⟨n1, hn1⟩ := aptAt_natCast src hsrc
  obtain ⟨n2, hn2⟩ := aptAt_natCast dst hdst
  refine ⟨costOf s.costs dst, src :: r, ?_, hpath, hweight, hmin⟩
  simp only [List.map_nil] at hwalk
  simp only [findCheapestFlightWithDijkstra, hsearch, ok_bind, printCost, hn1, hn2,
    vecAt_natCast s.costs dst hdl, hwalk, pure_eq_ok, costOf_eq_get s.costs dst hdl,
    List.map_cons]

/-! ## Bounded matrices, the trivial query and unreachable destinations -/

theorem entry_le (adjMatrix : List (List Int)) (W : Int) (hW : EntriesAtMost adjMatrix W)
    (h0 : 0 ≤ W) (u v : Nat) : entry adjMatrix u v ≤ W := by
  unfold entry
  rw [List.getD_eq_getElem?_getD, List.getD_eq_getElem?_getD]
  cases hrow : adjMatrix[u]? with
  | none => simpa using h0
  | some row =>
    simp only [Option.getD_some]
    cases hx : row[v]? with
    | none => simpa using h0
    | some x =>
      simp only [Option.getD_some]
      exact hW row (List.getElem?_mem hrow) x (List.getElem?_mem hx)

theorem pathWeight_le (adjMatrix : List (List Int)) (W : Int)
    (hW : EntriesAtMost adjMatrix W) (h0 : 0 ≤ W) :
    ∀ p : List Nat, p ≠ [] → pathWeight adjMatrix p + W ≤ (p.length : Int) * W := by
  intro p
  induction p with
  | nil => intro h; exact absurd rfl h
  | cons a q ih =>
    intro _
    cases q with
    | nil => simp [pathWeight]
    | cons b r =>
      have h1 := ih (List.cons_ne_nil b r)
      have h2 := entry_le adjMatrix W hW h0 a b
      rw [pathWeight]
      simp only [List.length_cons, Nat.cast_add, Nat.cast_one] at h1 ⊢
      linarith

/-- Entries in `[0, W]` with `11 * W < INT_MAX` rule out every overflow. -/
theorem noOverflow_of_entriesAtMost (adjMatrix : List (List Int)) (W : Int)
    (hW : EntriesAtMost adjMatrix W) (h0 : 0 ≤ W) (h11 : 11 * W < INT_MAX) :
    NoOverflow adjMatrix := by
  intro p hp hlen
  have hne : p ≠ [] := by
    intro h; rw [h] at hp; simp [isPath] at hp
  have h1 := pathWeight_le adjMatrix W hW h0 p hne
  have h2 : (p.length : Int) ≤ 12 := by
    rw [numOfApt_eq] at hlen
    exact_mod_cast hlen
  have h3 : (p.length : Int) * W ≤ 12 * W := mul_le_mul_of_nonneg_right h2 h0
  linarith

theorem nonNeg_usMatrix : NonNeg usMatrix := by
  unfold NonNeg
  decide

theorem noOverflow_usMatrix : NoOverflow usMatrix :=
  noOverflow_of_entriesAtMost usMatrix 1000 (by unfold EntriesAtMost; decide) (by decide)
    (by decide)

theorem square_oneFlightMatrix : Square oneFlightMatrix := by
  unfold Square
  decide

theorem nonNeg_oneFlightMatrix : NonNeg oneFlightMatrix := by
  unfold NonNeg
  decide

theorem noOverflow_oneFlightMatrix : NoOverflow oneFlightMatrix :=
  noOverflow_of_entriesAtMost oneFlightMatrix 400 (by unfold EntriesAtMost; decide)
    (by decide) (by decide)

theorem no_path_oneFlightMatrix : ¬ ∃ p, PathFromTo oneFlightMatrix 1 0 p := by
  rintro ⟨p, hp, hh, hl⟩
  match p, hp, hh, hl with
  | [a], _, hh, hl =>
    simp only [List.head?_cons, Option.some.injEq] at hh
    simp only [List.getLast?_singleton, Option.some.injEq] at hl
    omega
  | a :: b :: r, hp, hh, _ =>
    simp only [List.head?_cons, Option.some.injEq] at hh
    subst hh
    rw [isPath] at hp
    simp only [Bool.and_eq_true, decide_eq_true_eq] at hp
    obtain ⟨⟨_, hedge⟩, hq⟩ := hp
    have hb : b < numOfApt := isPath_lt oneFlightMatrix (b :: r) hq b (List.mem_cons_self _ _)
    rw [numOfApt_eq] at hb
    interval_cases b <;> exact hedge rfl

theorem isPath_pairs (adjMatrix : List (List Int)) :
    ∀ (p : List Nat), isPath adjMatrix p = true → ∀ i, i + 1 < p.length →
      entry adjMatrix (p.getD i 0) (p.getD (i + 1) 0) ≠ 0 := by
  intro p
  induction p with
  | nil => intro h; simp [isPath] at h
  | cons a q ih =>
    intro hp i hi
    cases q with
    | nil => simp at hi
    | cons b r =>
      rw [isPath] at hp
      simp only [Bool.and_eq_true, decide_eq_true_eq] at hp
      cases i with
      | zero => simpa using hp.1.2
      | succ j =>
        have := ih hp.2 j (by simpa using hi)
        simpa using this

/-- The query from an airport to itself returns cost `0` and the route of that airport
alone. -/
theorem find_self (adjMatrix : List (List Int)) (hsq : Square adjMatrix)
    (hnn : NonNeg adjMatrix) (hno : NoOverflow adjMatrix) (src : Nat) (hsrc : src < numOfApt) :
    findCheapestFlightWithDijkstra adjMatrix (src : Int) (src : Int) = .ok (0, [(src : Int)]) := by
  obtain ⟨s, hsearch, hL, _, _⟩ := search_labelled adjMatrix hsq hnn hno src hsrc
  have hsl : src < s.costs.length := by rw [hL.inBounds.1]; exact hsrc
  obtain ⟨n1, hn1⟩ := aptAt_natCast src hsrc
  have hc := hL.srcCost
  rw [costOf_eq_get s.costs src hsl] at hc
  have hwalk : walkRoute s.costs (src : Int) numOfApt (src : Int) [] = .ok [] := by
    rw [numOfApt_eq]; simp [walkRoute]
  simp only [findCheapestFlightWithDijkstra, hsearch, ok_bind, printCost, hn1,
    vecAt_natCast s.costs src hsl, hwalk, pure_eq_ok, hc]

/-- The query for a destination without any path from `src`: the table still holds
`{INT_MAX, -1}` for it, `INT_MAX` is written as the cost, and the walk then follows the
predecessor `-1` into `APT_MAP.at(-1)`. -/
theorem find_unreachable (adjMatrix : List (List Int)) (hsq : Square adjMatrix)
    (hnn : NonNeg adjMatrix) (hno : NoOverflow adjMatrix) (src dst : Nat)
    (hsrc : src < numOfApt) (hdst : dst < numOfApt) (hne : src ≠ dst)
    (hnone : ¬ ∃ p, PathFromTo adjMatrix src dst p) :
    ∃ costs, search adjMatrix (src : Int) = .ok costs ∧
      vecAt costs (dst : Int) = .ok (INT_MAX, -1) ∧
      printCost costs (src : Int) (dst : Int) = .ok INT_MAX ∧
      findCheapestFlightWithDijkstra adjMatrix (src : Int) (dst : Int) = .error .outOfRange := by
  obtain ⟨s, hsearch, hL, hS, he⟩ := search_labelled adjMatrix hsq hnn hno src hsrc
  obtain ⟨hc, hp⟩ := (settled_optimal adjMatrix hno src hsrc s hL hS he dst hdst).2 hnone
  have hdl : dst < s.costs.length := by rw [hL.inBounds.1]; exact hdst
  obtain ⟨n1, hn1⟩ := aptAt_natCast src hsrc
  obtain ⟨n2, hn2⟩ := aptAt_natCast dst hdst
  rw [costOf_eq_get s.costs dst hdl] at hc
  rw [prevOf_eq_get s.costs dst hdl] at hp
  have hget : vecAt s.costs (dst : Int) = .ok (INT_MAX, -1) := by
    rw [vecAt_natCast s.costs dst hdl, ← hc, ← hp]
  have hprint : printCost s.costs (src : Int) (dst : Int) = .ok INT_MAX := by
    simp only [printCost, hn1, hn2, hget, ok_bind, pure_eq_ok]
  have hds : ¬ (dst : Int) = (src : Int) := fun h => hne (by exact_mod_cast h.symm)
  have hms : ¬ (-1 : Int) = (src : Int) := by omega
  have hwalk : walkRoute s.costs (src : Int) numOfApt (dst : Int) [] = .error .outOfRange := by
    rw [numOfApt_eq]
    simp only [walkRoute, hds, if_false, hn2, hget, ok_bind, hms,
      aptAt_out (-1) (Or.inl (by decide)), error_bind]
  refine ⟨s.costs, hsearch, hget, hprint, ?_⟩
  simp only [findCheapestFlightWithDijkstra, hsearch, ok_bind, hprint, hwalk, error_bind]

/-! ## Recorded costs never increase -/

theorem vecAt_ok_natCast {α : Type} (v : List α) (n : Nat) (a : α)
    (h : vecAt v (n : Int) = .ok a) : v[n]? = some a := by
  unfold vecAt at h
  simp only [Int.ofNat_nonneg, if_true, Int.toNat_ofNat] at h
  cases hv : v[n]? with
  | none => rw [hv] at h; cases h
  | some b => rw [hv] at h; cases h; rfl

/-- What one execution of the loop body can do: nothing, or record a strictly smaller
cost for `nextApt`. -/
theorem relaxEdge_cases (adjMatrix : List (List Int)) (cost currApt : Int) (s s' : State)
    (nextApt : Nat) (h : relaxEdge adjMatrix cost currApt s nextApt = .ok s') :
    s' = s ∨ ∃ cand, nextApt < s.costs.length ∧ cand < costOf s.costs nextApt ∧
      s' = { costs := s.costs.set nextApt (cand, currApt),
             minHeap := heapPush (cand, (nextApt : Int)) s.minHeap } := by
  unfold relaxEdge at h
  cases h1 : vecAt adjMatrix currApt with
  | error e => rw [h1] at h; cases h
  | ok row =>
    rw [h1, ok_bind] at h
    cases h2 : vecAt row (nextApt : Int) with
    | error e => rw [h2] at h; cases h
    | ok flightCost =>
      rw [h2, ok_bind] at h
      by_cases h0 : flightCost ≠ 0
      · rw [if_pos h0] at h
        cases h3 : vecAt s.costs (nextApt : Int) with
        | error e => rw [h3] at h; cases h
        | ok entry =>
          rw [h3, ok_bind] at h
          have hget := vecAt_ok_natCast s.costs nextApt entry h3
          obtain ⟨hlen, hval⟩ := List.getElem?_eq_some.mp hget
          by_cases hc : wrap32 (cost + flightCost) < entry.1
          · rw [if_pos hc] at h
            refine Or.inr ⟨wrap32 (cost + flightCost), hlen, ?_, ?_⟩
            · rw [costOf_eq_get s.costs nextApt hlen, List.get_eq_getElem, hval]
              exact hc
            · exact (Except.ok.inj h).symm
          · rw [if_neg hc] at h
            exact Or.inl (Except.ok.inj h).symm
      · rw [if_neg h0] at h
        exact Or.inl (Except.ok.inj h).symm

theorem relaxEdge_costs_le (adjMatrix : List (List Int)) (cost currApt : Int) (s s' : State)
    (nextApt : Nat) (h : relaxEdge adjMatrix cost currApt s nextApt = .ok s') (v : Nat) :
    costOf s'.costs v ≤ costOf s.costs v := by
  rcases relaxEdge_cases adjMatrix cost currApt s s' nextApt h with rfl | ⟨cand, hlen, hlt, rfl⟩
  · exact le_refl _
  · simp only [costOf_set s.costs nextApt _ hlen v]
    split
    · next hv => subst hv; exact le_of_lt hlt
    · exact le_refl _

theorem relaxFrom_costs_le (adjMatrix : List (List Int)) (cost currApt : Int) :
    ∀ (apts : List Nat) (s s' : State), relaxFrom adjMatrix cost currApt apts s = .ok s' →
      ∀ v, costOf s'.costs v ≤ costOf s.costs v := by
  intro apts
  induction apts with
  | nil =>
    intro s s' h v
    have : s' = s := (Except.ok.inj h).symm
    rw [this]
  | cons x R ih =>
    intro s s' h v
    unfold relaxFrom at h
    rw [List.foldlM_cons] at h
    cases h1 : relaxEdge adjMatrix cost currApt s x with
    | error e => rw [h1] at h; cases h
    | ok s1 =>
      rw [h1, ok_bind] at h
      exact le_trans (ih s1 s' h v) (relaxEdge_costs_le adjMatrix cost currApt s s1 x h1 v)

theorem popAndRelax_costs_le (adjMatrix : List (List Int)) (s s' : State)
    (h : popAndRelax adjMatrix s = .ok s') (v : Nat) :
    costOf s'.costs v ≤ costOf s.costs v := by
  obtain ⟨costs, heap⟩ := s
  cases heap with
  | nil =>
    have : s' = { costs := costs, minHeap := [] } := (Except.ok.inj h).symm
    rw [this]
  | cons current rest =>
    exact relaxFrom_costs_le adjMatrix current.1 current.2 (List.range numOfApt)
      { costs := costs, minHeap := rest } s' h v

theorem vecAt_initCosts (src : Int) (v : Nat) (hv : v < numOfApt) :
    vecAt (initCosts src) (v : Int) = .ok (if (v : Int) = src then (0, -1) else (INT_MAX, -1)) := by
  have hv' : v < (initCosts src).length := by rw [length_initCosts]; exact hv
  rw [vecAt_natCast _ v hv']
  simp [initCosts, List.getElem_map, List.getElem_range]

/-! ## Every state of the run, and stale entries -/

/-- An invariant kept by one iteration holds after any number of iterations. -/
theorem runPops_invariant (adjMatrix : List (List Int)) (I : State → Prop)
    (hstep : ∀ s, I s → ∃ s', popAndRelax adjMatrix s = .ok s' ∧ I s') :
    ∀ n s, I s → ∃ s', runPops adjMatrix n s = .ok s' ∧ I s' := by
  intro n
  induction n with
  | zero => intro s hs; exact ⟨s, rfl, hs⟩
  | succ n ih =>
    intro s hs
    obtain ⟨s1, h1, hI1⟩ := hstep s hs
    obtain ⟨s2, h2, hI2⟩ := ih s1 hI1
    exact ⟨s2, by simp only [runPops, h1, ok_bind]; exact h2, hI2⟩

theorem relaxEdge_sorted (adjMatrix : List (List Int)) (cost currApt : Int) (s s' : State)
    (nextApt : Nat) (h : relaxEdge adjMatrix cost currApt s nextApt = .ok s')
    (hs : FrontierSorted s) : FrontierSorted s' := by
  rcases relaxEdge_cases adjMatrix cost currApt s s' nextApt h with rfl | ⟨cand, _, _, rfl⟩
  · exact hs
  · exact heapPush_sorted _ _ hs

theorem relaxFrom_sorted (adjMatrix : List (List Int)) (cost currApt : Int) :
    ∀ (apts : List Nat) (s s' : State), relaxFrom adjMatrix cost currApt apts s = .ok s' →
      FrontierSorted s → FrontierSorted s' := by
  intro apts
  induction apts with
  | nil =>
    intro s s' h hs
    have : s' = s := (Except.ok.inj h).symm
    rw [this]; exact hs
  | cons x R ih =>
    intro s s' h hs
    unfold relaxFrom at h
    rw [List.foldlM_cons] at h
    cases h1 : relaxEdge adjMatrix cost currApt s x with
    | error e => rw [h1] at h; cases h
    | ok s1 =>
      rw [h1, ok_bind] at h
      exact ih s1 s' h (relaxEdge_sorted adjMatrix cost currApt s s1 x h1 hs)

theorem popAndRelax_sorted (adjMatrix : List (List Int)) (s s' : State)
    (h : popAndRelax adjMatrix s = .ok s') (hs : FrontierSorted s) : FrontierSorted s' := by
  obtain ⟨costs, heap⟩ := s
  cases heap with
  | nil =>
    have : s' = { costs := costs, minHeap := [] } := (Except.ok.inj h).symm
    rw [this]; exact hs
  | cons current rest =>
    exact relaxFrom_sorted adjMatrix current.1 current.2 (List.range numOfApt)
      { costs := costs, minHeap := rest } s' h (List.Pairwise.of_cons hs)

/-- One iteration keeps the whole invariant: labelled table, settled pairs, sorted
frontier. -/
theorem popAndRelax_full (adjMatrix : List (List Int)) (hsq : Square adjMatrix)
    (hnn : NonNeg adjMatrix) (hno : NoOverflow adjMatrix) (src : Nat) (hsrc : src < numOfApt)
    (s : State)
    (hI : Labelled adjMatrix src s ∧ Settled adjMatrix s ∧ FrontierSorted s) :
    ∃ s', popAndRelax adjMatrix s = .ok s' ∧
      (Labelled adjMatrix src s' ∧ Settled adjMatrix s' ∧ FrontierSorted s') := by
  obtain ⟨hL, hS, hSo⟩ := hI
  by_cases hne : s.minHeap = []
  · refine ⟨s, ?_, hL, hS, hSo⟩
    simp only [popAndRelax, hne]
  · obtain ⟨s', h1, hL', hS'⟩ := popAndRelax_labelled adjMatrix hsq hnn hno src hsrc s hL hS hne
    exact ⟨s', h1, hL', hS', popAndRelax_sorted adjMatrix s s' h1 hSo⟩

theorem frontierSorted_initState (src : Int) : FrontierSorted (initState src) := by
  simp [FrontierSorted, initState]

/-- Every state of the run from `src` satisfies the whole invariant. -/
theorem runPops_full (adjMatrix : List (List Int)) (hsq : Square adjMatrix)
    (hnn : NonNeg adjMatrix) (hno : NoOverflow adjMatrix) (src : Nat) (hsrc : src < numOfApt)
    (n : Nat) :
    ∃ s, runPops adjMatrix n (initState (src : Int)) = .ok s ∧
      (Labelled adjMatrix src s ∧ Settled adjMatrix s ∧ FrontierSorted s) :=
  runPops_invariant adjMatrix
    (fun s => Labelled adjMatrix src s ∧ Settled adjMatrix s ∧ FrontierSorted s)
    (fun s hI => popAndRelax_full adjMatrix hsq hnn hno src hsrc s hI) n
    (initState (src : Int))
    ⟨(labelled_initState adjMatrix src hsrc).1, (labelled_initState adjMatrix src hsrc).2,
      frontierSorted_initState _⟩

theorem foldlM_fixed {σ ι ε : Type} (f : σ → ι → Except ε σ) (s : σ) :
    ∀ R : List ι, (∀ x ∈ R, f s x = .ok s) → R.foldlM f s = .ok s := by
  intro R
  induction R with
  | nil => intro _; rfl
  | cons x R ih =>
    intro h
    rw [List.foldlM_cons, h x (List.mem_cons_self _ _), ok_bind]
    exact ih (fun y hy => h y (List.mem_cons_of_mem _ hy))

/-- A stale popped entry changes nothing: its scan records no cost, no predecessor, and
pushes nothing. -/
theorem popAndRelax_stale (adjMatrix : List (List Int)) (hsq : Square adjMatrix)
    (hnn : NonNeg adjMatrix) (hno : NoOverflow adjMatrix) (src : Nat) (hsrc : src < numOfApt)
    (s : State)
    (hI : Labelled adjMatrix src s ∧ Settled adjMatrix s ∧ FrontierSorted s)
    (current : Int × Int) (rest : List (Int × Int)) (hheap : s.minHeap = current :: rest)
    (u0 : Nat) (hu : current.2 = (u0 : Int)) (hstale : costOf s.costs u0 < current.1) :
    popAndRelax adjMatrix s = .ok { s with minHeap := rest } := by
  obtain ⟨hL, hS, hSo⟩ := hI
  obtain ⟨costs, heap⟩ := s
  simp only at hheap
  subst hheap
  obtain ⟨p0, u1, hu1, hW⟩ := hL.frontier current (List.mem_cons_self _ _)
  have hu01 : u1 = u0 := by
    have : (u1 : Int) = (u0 : Int) := by rw [← hu1, hu]
    exact_mod_cast this
  subst hu01
  have hu0 := reached_path_lt adjMatrix src hsrc _ hW
  have hc0 := reached_nonneg adjMatrix hnn src _ hW
  obtain ⟨hclt, hcand⟩ := reached_lt adjMatrix hno src hsrc _ hW
  have hfin : costOf costs u1 ≠ INT_MAX := by
    simp only at hstale
    omega
  simp only [popAndRelax, hu]
  apply foldlM_fixed
  intro v hv
  have hv' : v < numOfApt := List.mem_range.mp hv
  apply relaxEdge_skip adjMatrix hsq current.1 u1 v hu0 hv' { costs := costs, minHeap := rest }
    hL.inBounds.1
  by_cases he : entry adjMatrix u1 v = 0
  · exact Or.inl he
  · refine Or.inr ?_
    have hw0 := entry_nonneg adjMatrix hnn u1 v
    have hlt := hcand v hv' he
    have hwrap : wrap32 (current.1 + entry adjMatrix u1 v) = current.1 + entry adjMatrix u1 v :=
      wrap32_of_range _ (by omega) (by unfold INT_MAX at hlt; omega)
    rw [hwrap]
    simp only at hstale ⊢
    rcases hS u1 v hu0 hv' hfin he with h | h
    · simp only at h
      omega
    · exfalso
      rcases List.mem_cons.mp h with h' | h'
      · have : costOf costs u1 = current.1 := by
          have := congrArg Prod.fst h'
          simpa using this
        omega
      · have hle := (List.pairwise_cons.mp hSo).1 _ h'
        simp only [entryLE, Bool.or_eq_true, Bool.and_eq_true, decide_eq_true_eq] at hle
        omega

/-- Under the invariant one iteration of the variant that skips stale entries does what
one iteration of the code does. -/
theorem popAndRelaxSkippingStale_eq (adjMatrix : List (List Int)) (hsq : Square adjMatrix)
    (hnn : NonNeg adjMatrix) (hno : NoOverflow adjMatrix) (src : Nat) (hsrc : src < numOfApt)
    (s : State)
    (hI : Labelled adjMatrix src s ∧ Settled adjMatrix s ∧ FrontierSorted s) :
    popAndRelaxSkippingStale adjMatrix s = popAndRelax adjMatrix s := by
  cases hheap : s.minHeap with
  | nil => simp only [popAndRelaxSkippingStale, popAndRelax, hheap]
  | cons current rest =>
    obtain ⟨p0, u1, hu1, hW⟩ := hI.1.frontier current (by rw [hheap]; exact List.mem_cons_self _ _)
    have hu0 := reached_path_lt adjMatrix src hsrc _ hW
    have hul : u1 < s.costs.length := by rw [hI.1.inBounds.1]; exact hu0
    by_cases hstale : costOf s.costs u1 < current.1
    · rw [popAndRelax_stale adjMatrix hsq hnn hno src hsrc s hI current rest hheap u1 hu1 hstale]
      rw [costOf_eq_get s.costs u1 hul] at hstale
      simp only [popAndRelaxSkippingStale, hheap, hu1, vecAt_natCast s.costs u1 hul, ok_bind,
        if_pos hstale, pure_eq_ok]
    · rw [costOf_eq_get s.costs u1 hul] at hstale
      simp only [popAndRelaxSkippingStale, popAndRelax, hheap, hu1,
        vecAt_natCast s.costs u1 hul, ok_bind, if_neg hstale]

theorem frontierLoopSkippingStale_eq (adjMatrix : List (List Int)) (hsq : Square adjMatrix)
    (hnn : NonNeg adjMatrix) (hno : NoOverflow adjMatrix) (src : Nat) (hsrc : src < numOfApt) :
    ∀ (fuel : Nat) (s : State),
      (Labelled adjMatrix src s ∧ Settled adjMatrix s ∧ FrontierSorted s) →
      frontierLoopSkippingStale adjMatrix fuel s = frontierLoop adjMatrix fuel s := by
  intro fuel
  induction fuel with
  | zero => intro s _; simp only [frontierLoopSkippingStale, frontierLoop]
  | succ fuel ih =>
    intro s hI
    by_cases hne : s.minHeap = []
    · simp only [frontierLoopSkippingStale, frontierLoop, hne, if_true]
    · obtain ⟨s1, h1, hI1⟩ := popAndRelax_full adjMatrix hsq hnn hno src hsrc s hI
      simp only [frontierLoopSkippingStale, frontierLoop, hne, if_false,
        popAndRelaxSkippingStale_eq adjMatrix hsq hnn hno src hsrc s hI, h1, ok_bind]
      exact ih s1 hI1

theorem searchSkippingStale_eq (adjMatrix : List (List Int)) (hsq : Square adjMatrix)
    (hnn : NonNeg adjMatrix) (hno : NoOverflow adjMatrix) (src : Nat) (hsrc : src < numOfApt) :
    searchSkippingStale adjMatrix (src : Int) = search adjMatrix (src : Int) := by
  have h0 : (0 : Int) ≤ (src : Int) := Int.ofNat_nonneg _
  have h1 : (src : Int) < (numOfApt : Int) := by exact_mod_cast hsrc
  have hloop := frontierLoopSkippingStale_eq adjMatrix hsq hnn hno src hsrc searchFuel
    (initState (src : Int))
    ⟨(labelled_initState adjMatrix src hsrc).1, (labelled_initState adjMatrix src hsrc).2,
      frontierSorted_initState _⟩
  simp only [searchSkippingStale, search, vecAt_initCosts_src (src : Int) h0 h1, ok_bind]
  simp only [initState] at hloop
  rw [hloop]

/-- Entries in `[0, W]` on a matrix of 11 rows of 11 entries force `0 <= W`. -/
theorem bound_nonneg (adjMatrix : List (List Int)) (hsq : Square adjMatrix) (W : Int)
    (hW : ∀ row ∈ adjMatrix, ∀ x ∈ row, 0 ≤ x ∧ x ≤ W) : 0 ≤ W := by
  obtain ⟨row, hrow, hlen⟩ := square_getElem? adjMatrix hsq 0 (by decide)
  have h0 : 0 < row.length := by rw [hlen]; decide
  have hx := hW row (List.getElem?_mem hrow) (row.get ⟨0, h0⟩) (List.get_mem _ _ _)
  omega

/-- A value reached along a path without repeated airport is at most `10 * W`, and one
more hop keeps it at most `11 * W`. -/
theorem reached_le (adjMatrix : List (List Int)) (W : Int) (hW : EntriesAtMost adjMatrix W)
    (h0 : 0 ≤ W) (src : Nat) (hsrc : src < numOfApt) (c : Nat → Int) {p : List Nat} {u : Nat}
    {d : Int} (h : Reached adjMatrix src c p u d) :
    d ≤ 10 * W ∧ ∀ v, d + entry adjMatrix u v ≤ 11 * W := by
  obtain ⟨⟨hp, _, _⟩, hw, hn, _⟩ := reached_path adjMatrix src hsrc c h
  have hlen := nodup_length_le p hn (isPath_lt adjMatrix p hp)
  have hne : p ≠ [] := by
    intro e; rw [e] at hp; simp [isPath] at hp
  have h1 := pathWeight_le adjMatrix W hW h0 p hne
  have h2 : (p.length : Int) ≤ 11 := by
    rw [numOfApt_eq] at hlen
    exact_mod_cast hlen
  have h3 : (p.length : Int) * W ≤ 11 * W := mul_le_mul_of_nonneg_right h2 h0
  have hd : d ≤ 10 * W := by rw [← hw]; linarith
  refine ⟨hd, ?_⟩
  intro v
  have := entry_le adjMatrix W hW h0 u v
  linarith

/-- The state in which the frontier loop ends is a state of the run. -/
theorem frontierLoop_runPops (adjMatrix : List (List Int)) :
    ∀ (fuel : Nat) (s s' : State), frontierLoop adjMatrix fuel s = .ok s' →
      ∃ n, n ≤ fuel ∧ runPops adjMatrix n s = .ok s' := by
  intro fuel
  induction fuel with
  | zero =>
    intro s s' h
    by_cases hne : s.minHeap = []
    · simp only [frontierLoop, hne, if_true] at h
      exact ⟨0, le_refl _, h⟩
    · simp only [frontierLoop, hne, if_false] at h
      cases h
  | succ fuel ih =>
    intro s s' h
    by_cases hne : s.minHeap = []
    · simp only [frontierLoop, hne, if_true] at h
      exact ⟨0, Nat.zero_le _, h⟩
    · simp only [frontierLoop, hne, if_false] at h
      cases h1 : popAndRelax adjMatrix s with
      | error e => rw [h1] at h; cases h
      | ok s1 =>
        rw [h1, ok_bind] at h
        obtain ⟨n, hn, hrun⟩ := ih s1 s' h
        exact ⟨n + 1, by omega, by simp only [runPops, h1, ok_bind]; exact hrun⟩

/-! ## The walk along the predecessors, step by step -/

/-- A walk that ends within a budget ends the same way within a larger one. -/
theorem walkRoute_succ (costs : List (Int × Int)) (src : Int) :
    ∀ (fuel : Nat) (curr : Int) (acc r : List Int),
      walkRoute costs src fuel curr acc = .ok r →
      walkRoute costs src (fuel + 1) curr acc = .ok r := by
  intro fuel
  induction fuel with
  | zero =>
    intro curr acc r h
    by_cases hc : curr = src
    · simp only [walkRoute, hc, if_true] at h ⊢
      exact h
    · simp only [walkRoute, hc, if_false] at h
      cases h
  | succ fuel ih =>
    intro curr acc r h
    by_cases hc : curr = src
    · simp only [walkRoute, hc, if_true] at h ⊢
      exact h
    · rw [walkRoute] at h ⊢
      simp only [hc, if_false] at h ⊢
      cases h1 : aptAt curr with
      | error e => rw [h1] at h; cases h
      | ok name =>
        rw [h1, ok_bind] at h
        rw [ok_bind]
        cases h2 : vecAt costs curr with
        | error e => rw [h2] at h; cases h
        | ok entry =>
          rw [h2, ok_bind] at h
          rw [ok_bind]
          exact ih entry.2 (curr :: acc) r h

theorem prevChain_ne (costs : List (Int × Int)) :
    ∀ (l : List Nat) (a : Nat), prevChain costs (a :: l) → ∀ x ∈ l, prevOf costs x ≠ -1 := by
  intro l
  induction l with
  | nil => intro a _ x hx; cases hx
  | cons b t ih =>
    intro a h x hx
    rw [prevChain] at h
    rcases List.mem_cons.mp hx with rfl | hx'
    · rw [h.1]; omega
    · exact ih b h.2 x hx'

/-- The walk over the final table, with its trace: from an airport with a recorded cost
it reaches `src` within as many steps as there are airports of smaller cost, and the
stack it leaves lists each airport after its predecessor, in strictly increasing cost. -/
theorem walkRoute_chain (adjMatrix : List (List Int)) (hnn : NonNeg adjMatrix)
    (hno : NoOverflow adjMatrix) (src : Nat) (hsrc : src < numOfApt) (s : State)
    (hL : Labelled adjMatrix src s) (hS : Settled adjMatrix s) (he : s.minHeap = [])
    (dst : Nat) :
    ∀ (fuel curr : Nat) (acc : List Nat), curr < numOfApt → costOf s.costs curr ≠ INT_MAX →
      (curr :: acc).getLast? = some dst → prevChain s.costs (curr :: acc) →
      (curr :: acc).Pairwise (fun a b => costOf s.costs a < costOf s.costs b) →
      rank s.costs curr ≤ fuel →
      ∃ r : List Nat,
        walkRoute s.costs (src : Int) fuel (curr : Int) (acc.map fun n : Nat => (n : Int))
            = .ok (r.map fun n : Nat => (n : Int)) ∧
          (src :: r).getLast? = some dst ∧ prevChain s.costs (src :: r) ∧
          (src :: r).Pairwise (fun a b => costOf s.costs a < costOf s.costs b) := by
  have hstep : ∀ curr, curr < numOfApt → costOf s.costs curr ≠ INT_MAX → curr ≠ src →
      ∃ u, u < numOfApt ∧ prevOf s.costs curr = (u : Int) ∧ costOf s.costs u ≠ INT_MAX ∧
        costOf s.costs u < costOf s.costs curr := by
    intro curr hcurr hfin hcs
    obtain ⟨u, hu, hpu, hedge, hufin, hcu⟩ :=
      settled_prev adjMatrix hnn hno src hsrc s hL hS he curr hcurr hcs hfin
    have hw0 := entry_nonneg adjMatrix hnn u curr
    exact ⟨u, hu, hpu, hufin, by omega⟩
  intro fuel
  induction fuel with
  | zero =>
    intro curr acc hcurr hfin hl hch hpw hr
    have hcs : curr = src := by
      by_contra hne
      obtain ⟨u, hu, _, _, hlt⟩ := hstep curr hcurr hfin hne
      have := rank_lt_rank s.costs u curr hu hlt
      omega
    subst hcs
    exact ⟨acc, by simp [walkRoute], hl, hch, hpw⟩
  | succ fuel ih =>
    intro curr acc hcurr hfin hl hch hpw hr
    by_cases hcs : curr = src
    · subst hcs
      exact ⟨acc, by simp [walkRoute], hl, hch, hpw⟩
    · have hcs' : ¬ (curr : Int) = (src : Int) := fun h => hcs (by exact_mod_cast h)
      obtain ⟨u, hu, hpu, hufin, hlt⟩ := hstep curr hcurr hfin hcs
      have hcl : curr < s.costs.length := by rw [hL.inBounds.1]; exact hcurr
      obtain ⟨name, hname⟩ := aptAt_natCast curr hcurr
      have hl' : (u :: curr :: acc).getLast? = some dst := by
        rw [List.getLast?_cons_cons]; exact hl
      have hch' : prevChain s.costs (u :: curr :: acc) := by
        rw [prevChain]; exact ⟨hpu, hch⟩
      have hpw' : (u :: curr :: acc).Pairwise
          (fun a b => costOf s.costs a < costOf s.costs b) := by
        refine List.pairwise_cons.mpr ⟨?_, hpw⟩
        intro x hx
        rcases List.mem_cons.mp hx with rfl | hx'
        · exact hlt
        · exact lt_trans hlt ((List.pairwise_cons.mp hpw).1 x hx')
      have hr' : rank s.costs u ≤ fuel := by
        have := rank_lt_rank s.costs u curr hu hlt
        omega
      obtain ⟨r, hwalk, h1, h2, h3⟩ := ih u (curr :: acc) hu hufin hl' hch' hpw' hr'
      refine ⟨r, ?_, h1, h2, h3⟩
      rw [prevOf_eq_get s.costs curr hcl] at hpu
      simp only [walkRoute, hcs', if_false, hname, ok_bind, vecAt_natCast s.costs curr hcl, hpu]
      simpa using hwalk

/-- The walk of `findCheapestFlightWithDijkstra` for a reachable destination, with its
trace. -/
theorem find_walk (adjMatrix : List (List Int)) (hsq : Square adjMatrix)
    (hnn : NonNeg adjMatrix) (hno : NoOverflow adjMatrix) (src dst : Nat)
    (hsrc : src < numOfApt) (hdst : dst < numOfApt)
    (hreach : ∃ p, PathFromTo adjMatrix src dst p) :
    ∃ (costs : List (Int × Int)) (r : List Nat),
      search adjMatrix (src : Int) = .ok costs ∧
        walkRoute costs (src : Int) 10 (dst : Int) [] = .ok (r.map fun n : Nat => (n : Int)) ∧
        (src :: r).Nodup ∧ (src :: r).getLast? = some dst ∧ prevChain costs (src :: r) ∧
        (∀ x ∈ r, prevOf costs x ≠ -1) ∧
        findCheapestFlightWithDijkstra adjMatrix (src : Int) (dst : Int)
          = .ok (costOf costs dst, (src :: r).map fun n : Nat => (n : Int)) := by
  obtain ⟨s, hsearch, hL, hS, he⟩ := search_labelled adjMatrix hsq hnn hno src hsrc
  obtain ⟨hfin, _⟩ := (settled_optimal adjMatrix hno src hsrc s hL hS he dst hdst).1 hreach
  have hrank : rank s.costs dst ≤ 10 := by
    have := rank_lt_numOfApt s.costs dst hdst
    rw [numOfApt_eq] at this
    omega
  obtain ⟨r, hwalk, hlast, hchain, hpw⟩ :=
    walkRoute_chain adjMatrix hnn hno src hsrc s hL hS he dst 10 dst [] hdst hfin rfl
      (by simp [prevChain]) (List.pairwise_singleton _ _) hrank
  simp only [List.map_nil] at hwalk
  have hwalk' := walkRoute_succ s.costs (src : Int) 10 (dst : Int) [] _ hwalk
  have hdl : dst < s.costs.length := by rw [hL.inBounds.1]; exact hdst
  obtain ⟨n1, hn1⟩ := aptAt_natCast src hsrc
  obtain ⟨n2, hn2⟩ := aptAt_natCast dst hdst
  refine ⟨s.costs, r, hsearch, hwalk, ?_, hlast, hchain, prevChain_ne s.costs r src hchain, ?_⟩
  · exact hpw.imp (fun h => fun e => by rw [e] at h; exact lt_irrefl _ h)
  · have hfuel : numOfApt = 10 + 1 := rfl
    rw [← hfuel] at hwalk'
    simp only [findCheapestFlightWithDijkstra, hsearch, ok_bind, printCost, hn1, hn2,
      vecAt_natCast s.costs dst hdl, hwalk', pure_eq_ok, costOf_eq_get s.costs dst hdl,
      List.map_cons]

/-! ## The reference graph -/

theorem reachable_of_search (adjMatrix : List (List Int)) (hsq : Square adjMatrix)
    (hnn : NonNeg adjMatrix) (hno : NoOverflow adjMatrix) (src : Nat) (hsrc : src < numOfApt)
    (costs : List (Int × Int)) (h : search adjMatrix (src : Int) = .ok costs) (v : Nat)
    (hv : v < numOfApt) (hfin : costOf costs v ≠ INT_MAX) :
    ∃ p, PathFromTo adjMatrix src v p := by
  obtain ⟨s, hsearch, hL, _, _⟩ := search_labelled adjMatrix hsq hnn hno src hsrc
  have hc : s.costs = costs := Except.ok.inj (hsearch.symm.trans h)
  rw [← hc] at hfin
  obtain ⟨_, _, p, hp, _⟩ := labelled_finite adjMatrix hnn hno src hsrc s hL v hv hfin
  exact ⟨p, hp⟩

/-- The table in which the search on the matrix of `usFlights` ends holds a cost below
`INT_MAX` for every airport, whatever the source. -/
theorem search_usMatrix_finite (src : Nat) (hsrc : src < 11) :
    ∃ costs, search usMatrix (src : Int) = .ok costs ∧
      ∀ v, v < 11 → costOf costs v < INT_MAX := by
  interval_cases src
  · exact ⟨[(0, -1), (400, 0), (150, 0), (240, 0), (600, 0), (450, 3),
      (540, 3), (810, 5), (990, 7), (1150, 2), (1250, 9)],
      rfl, by decide⟩
  · exact ⟨[(350, 1), (0, -1), (500, 0), (590, 0), (500, 1), (800, 3),
      (890, 3), (1160, 5), (1340, 7), (1100, 4), (1200, 9)],
      rfl, by decide⟩
  · exact ⟨[(100, 2), (500, 0), (0, -1), (300, 2), (700, 0), (510, 3),
      (600, 3), (870, 5), (1050, 7), (1000, 2), (1100, 9)],
      rfl, by decide⟩
  · exact ⟨[(200, 3), (600, 0), (350, 0), (0, -1), (400, 3), (210, 3),
      (300, 3), (570, 5), (750, 7), (970, 7), (1070, 9)],
      rfl, by decide⟩
  · exact ⟨[(500, 4), (450, 4), (650, 0), (420, 4), (0, -1), (630, 3),
      (720, 3), (990, 5), (1070, 9), (600, 4), (700, 9)],
      rfl, by decide⟩
  · exact ⟨[(350, 3), (750, 0), (500, 0), (150, 5), (550, 3), (0, -1),
      (450, 3), (360, 5), (540, 7), (760, 7), (860, 9)],
      rfl, by decide⟩
  · exact ⟨[(440, 3), (840, 0), (590, 0), (240, 6), (640, 3), (450, 3),
      (0, -1), (400, 6), (580, 7), (800, 7), (900, 9)],
      rfl, by decide⟩
  · exact ⟨[(650, 3), (1050, 0), (800, 0), (450, 5), (850, 3), (300, 7),
      (360, 7), (0, -1), (180, 7), (400, 7), (500, 9)],
      rfl, by decide⟩
  · exact ⟨[(750, 3), (1150, 0), (900, 0), (550, 5), (950, 3), (400, 7),
      (460, 7), (100, 8), (0, -1), (500, 7), (600, 9)],
      rfl, by decide⟩
  · exact ⟨[(1000, 2), (1080, 4), (900, 9), (900, 5), (630, 9), (750, 7),
      (810, 7), (450, 9), (470, 9), (0, -1), (100, 9)],
      rfl, by decide⟩
  · exact ⟨[(1150, 2), (1170, 4), (1050, 9), (1000, 5), (720, 10), (850, 7),
      (910, 7), (550, 10), (620, 9), (150, 10), (0, -1)],
      rfl, by decide⟩

/-! ## Only reachable airports are written -/

theorem pathFromTo_extend (adjMatrix : List (List Int)) (src u x : Nat) (p : List Nat)
    (hp : PathFromTo adjMatrix src u p) (hx : x < numOfApt) (he : entry adjMatrix u x ≠ 0) :
    PathFromTo adjMatrix src x (p ++ [x]) := by
  obtain ⟨hpath, hhead, hlast⟩ := hp
  refine ⟨isPath_append_singleton adjMatrix x hx p u hpath hlast he, ?_, by simp⟩
  cases p with
  | nil => simp at hhead
  | cons a q => simpa using hhead

theorem writtenReachable_relaxed (adjMatrix : List (List Int)) (src : Nat) (s : State)
    (cand : Int) (u x : Nat) (hW : WrittenReachable adjMatrix src s)
    (hu : ∃ p, PathFromTo adjMatrix src u p) (hx : x < numOfApt)
    (hxl : x < s.costs.length) (he : entry adjMatrix u x ≠ 0) :
    WrittenReachable adjMatrix src (relaxed s cand u x) := by
  obtain ⟨p, hp⟩ := hu
  have hxr : ∃ q, PathFromTo adjMatrix src x q :=
    ⟨p ++ [x], pathFromTo_extend adjMatrix src u x p hp hx he⟩
  refine ⟨?_, ?_⟩
  · intro v hv
    by_cases hvx : v = x
    · subst hvx
      exact Or.inr hxr
    · simp only [relaxed, costOf_set s.costs x _ hxl v, prevOf_set s.costs x _ hxl v, hvx,
        if_false]
      exact hW.1 v hv
  · intro e hmem
    rcases (mem_heapPush _ _ _).mp hmem with rfl | hmem'
    · exact ⟨x, rfl, hxr⟩
    · exact hW.2 e hmem'

theorem relaxFrom_writtenReachable (adjMatrix : List (List Int)) (hsq : Square adjMatrix)
    (src : Nat) (cost : Int) (u : Nat) (hu : u < numOfApt)
    (hur : ∃ p, PathFromTo adjMatrix src u p) :
    ∀ R s, (InBounds s ∧ (∀ x ∈ R, x < numOfApt) ∧ WrittenReachable adjMatrix src s) →
      ∃ s', relaxFrom adjMatrix cost (u : Int) R s = .ok s' ∧
        (InBounds s' ∧ (∀ x ∈ ([] : List Nat), x < numOfApt) ∧
          WrittenReachable adjMatrix src s') := by
  apply foldlM_invariant (relaxEdge adjMatrix cost (u : Int))
    (fun R s => InBounds s ∧ (∀ x ∈ R, x < numOfApt) ∧ WrittenReachable adjMatrix src s)
  intro x R s ⟨hb, hR, hW⟩
  have hx : x < numOfApt := hR x (List.mem_cons_self _ _)
  have hR' : ∀ y ∈ R, y < numOfApt := fun y hy => hR y (List.mem_cons_of_mem _ hy)
  by_cases hc : entry adjMatrix u x ≠ 0 ∧ wrap32 (cost + entry adjMatrix u x) < costOf s.costs x
  · exact ⟨_, relaxEdge_update adjMatrix hsq cost u x hu hx s hb.1 hc.1 hc.2,
      inBounds_relaxed s _ u x hb hx, hR',
      writtenReachable_relaxed adjMatrix src s _ u x hW hur hx (by rw [hb.1]; exact hx) hc.1⟩
  · refine ⟨s, relaxEdge_skip adjMatrix hsq cost u x hu hx s hb.1 ?_, hb, hR', hW⟩
    by_cases h0 : entry adjMatrix u x = 0
    · exact Or.inl h0
    · exact Or.inr (fun h => hc ⟨h0, h⟩)

theorem popAndRelax_writtenReachable (adjMatrix : List (List Int)) (hsq : Square adjMatrix)
    (src : Nat) (s : State) (hI : InBounds s ∧ WrittenReachable adjMatrix src s)
    (hne : s.minHeap ≠ []) :
    ∃ s', popAndRelax adjMatrix s = .ok s' ∧
      (InBounds s' ∧ WrittenReachable adjMatrix src s') ∧
      loopMeasure s' < loopMeasure s := by
  obtain ⟨hb, hW⟩ := hI
  obtain ⟨s2, h2, _, hm⟩ := popAndRelax_inBounds adjMatrix hsq s hb hne
  obtain ⟨costs, heap⟩ := s
  cases heap with
  | nil => exact absurd rfl hne
  | cons current rest =>
    obtain ⟨u, hu, hur⟩ := hW.2 current (List.mem_cons_self _ _)
    obtain ⟨_, h1⟩ := hb.2 current (List.mem_cons_self _ _)
    have hu' : u < numOfApt := by rw [hu] at h1; exact_mod_cast h1
    have hb' : InBounds { costs := costs, minHeap := rest } :=
      ⟨hb.1, fun e he => hb.2 e (List.mem_cons_of_mem _ he)⟩
    have hW' : WrittenReachable adjMatrix src { costs := costs, minHeap := rest } :=
      ⟨hW.1, fun e he => hW.2 e (List.mem_cons_of_mem _ he)⟩
    obtain ⟨s', hs', hb'', _, hW''⟩ := relaxFrom_writtenReachable adjMatrix hsq src current.1
      u hu' hur (List.range numOfApt) { costs := costs, minHeap := rest }
      ⟨hb', fun x hx => List.mem_range.mp hx, hW'⟩
    have hpop : popAndRelax adjMatrix { costs := costs, minHeap := current :: rest } = .ok s' := by
      simp only [popAndRelax, hu]
      exact hs'
    have hs2 : s' = s2 := Except.ok.inj (hpop.symm.trans h2)
    rw [← hs2] at hm
    exact ⟨s', hpop, ⟨hb'', hW''⟩, hm⟩

/-- On every matrix of 11 rows of 11 entries the search from an airport in range ends
with a table that still holds `{INT_MAX, -1}` for every airport without a path from
`src`. -/
theorem search_writtenReachable (adjMatrix : List (List Int)) (hsq : Square adjMatrix)
    (src : Nat) (hsrc : src < numOfApt) :
    ∃ costs, search adjMatrix (src : Int) = .ok costs ∧ costs.length = numOfApt ∧
      ∀ v, v < numOfApt → (¬ ∃ p, PathFromTo adjMatrix src v p) →
        costOf costs v = INT_MAX ∧ prevOf costs v = -1 := by
  have h0 : (0 : Int) ≤ (src : Int) := Int.ofNat_nonneg _
  have h1 : (src : Int) < (numOfApt : Int) := by exact_mod_cast hsrc
  have hself : ∃ p, PathFromTo adjMatrix src src p :=
    ⟨[src], by simp [isPath, hsrc], rfl, rfl⟩
  have hinit : WrittenReachable adjMatrix src (initState (src : Int)) := by
    refine ⟨?_, ?_⟩
    · intro v hv
      by_cases hvs : v = src
      · subst hvs; exact Or.inr hself
      · exact Or.inl ⟨by simp [initState, costOf_initCosts src v hv, hvs],
          prevOf_initCosts src v hv⟩
    · intro e he
      simp only [initState, List.mem_singleton] at he
      subst he
      exact ⟨src, rfl, hself⟩
  obtain ⟨s, hs, ⟨hb, hW⟩, _⟩ := frontierLoop_invariant adjMatrix
    (fun s => InBounds s ∧ WrittenReachable adjMatrix src s)
    (fun s hI hne => popAndRelax_writtenReachable adjMatrix hsq src s hI hne)
    searchFuel (initState (src : Int)) ⟨inBounds_initState _ h0 h1, hinit⟩
    (loopMeasure_initState _)
  refine ⟨s.costs, ?_, hb.1, ?_⟩
  · rw [search_eq adjMatrix _ h0 h1, hs]; rfl
  · intro v hv hnone
    rcases hW.1 v hv with h | h
    · exact h
    · exact absurd h hnone

/-- The query for a destination without any path from `src`, on every matrix of 11 rows
of 11 entries: the table still holds `{INT_MAX, -1}` for it and `INT_MAX` is written as
the cost. -/
theorem printCost_unreachable (adjMatrix : List (List Int)) (hsq : Square adjMatrix)
    (src dst : Nat) (hsrc : src < numOfApt) (hdst : dst < numOfApt)
    (hnone : ¬ ∃ p, PathFromTo adjMatrix src dst p) :
    ∃ costs, search adjMatrix (src : Int) = .ok costs ∧
      vecAt costs (dst : Int) = .ok (INT_MAX, -1) ∧
      printCost costs (src : Int) (dst : Int) = .ok INT_MAX := by
  obtain ⟨costs, hsearch, hlen, hun⟩ := search_writtenReachable adjMatrix hsq src hsrc
  obtain ⟨hc, hp⟩ := hun dst hdst hnone
  have hdl : dst < costs.length := by rw [hlen]; exact hdst
  obtain ⟨n1, hn1⟩ := aptAt_natCast src hsrc
  obtain ⟨n2, hn2⟩ := aptAt_natCast dst hdst
  rw [costOf_eq_get costs dst hdl] at hc
  rw [prevOf_eq_get costs dst hdl] at hp
  have hget : vecAt costs (dst : Int) = .ok (INT_MAX, -1) := by
    rw [vecAt_natCast costs dst hdl, ← hc, ← hp]
  refine ⟨costs, hsearch, hget, ?_⟩
  simp only [printCost, hn1, hn2, hget, ok_bind, pure_eq_ok]

/-- What one execution of the loop body can do, with the range of the recorded value:
nothing, or record and push a 32-bit value strictly below the recorded cost. -/
theorem relaxEdge_push (adjMatrix : List (List Int)) (cost currApt : Int) (s s' : State)
    (nextApt : Nat) (h : relaxEdge adjMatrix cost currApt s nextApt = .ok s') :
    s' = s ∨ ∃ cand, -2147483648 ≤ cand ∧ cand < costOf s.costs nextApt ∧
      s' = { costs := s.costs.set nextApt (cand, currApt),
             minHeap := heapPush (cand, (nextApt : Int)) s.minHeap } := by
  unfold relaxEdge at h
  cases h1 : vecAt adjMatrix currApt with
  | error e => rw [h1] at h; cases h
  | ok row =>
    rw [h1, ok_bind] at h
    cases h2 : vecAt row (nextApt : Int) with
    | error e => rw [h2] at h; cases h
    | ok flightCost =>
      rw [h2, ok_bind] at h
      by_cases h0 : flightCost ≠ 0
      · rw [if_pos h0] at h
        cases h3 : vecAt s.costs (nextApt : Int) with
        | error e => rw [h3] at h; cases h
        | ok entry =>
          rw [h3, ok_bind] at h
          have hget := vecAt_ok_natCast s.costs nextApt entry h3
          obtain ⟨hlen, hval⟩ := List.getElem?_eq_some.mp hget
          by_cases hc : wrap32 (cost + flightCost) < entry.1
          · rw [if_pos hc] at h
            refine Or.inr ⟨wrap32 (cost + flightCost), wrap32_ge _, ?_, ?_⟩
            · rw [costOf_eq_get s.costs nextApt hlen, List.get_eq_getElem, hval]
              exact hc
            · exact (Except.ok.inj h).symm
          · rw [if_neg hc] at h
            exact Or.inl (Except.ok.inj h).symm
      · rw [if_neg h0] at h
        exact Or.inl (Except.ok.inj h).symm

/-- When the entries are non-negative and no sum overflows, every cost recorded in any
state of the run is at least `0`. -/
theorem runPops_costs_nonneg (adjMatrix : List (List Int)) (hsq : Square adjMatrix)
    (hnn : NonNeg adjMatrix) (hno : NoOverflow adjMatrix) (src : Nat) (hsrc : src < numOfApt)
    (n : Nat) (s : State) (hrun : runPops adjMatrix n (initState (src : Int)) = .ok s)
    (v : Nat) (hv : v < numOfApt) : 0 ≤ costOf s.costs v := by
  obtain ⟨s1, h1, hL, _, _⟩ := runPops_full adjMatrix hsq hnn hno src hsrc n
  have hs : s1 = s := Except.ok.inj (h1.symm.trans hrun)
  rw [hs] at hL
  rcases hL.label v hv with ⟨h, _, _⟩ | ⟨p, hp⟩
  · rw [h]; decide
  · exact reached_nonneg adjMatrix hnn src _ hp

/-! ## Entries equal to zero -/

theorem find?_filter_of_imp {α : Type} (p q : α → Bool) (h : ∀ x, p x = true → q x = true) :
    ∀ l : List α, (l.filter q).find? p = l.find? p := by
  intro l
  induction l with
  | nil => rfl
  | cons a t ih =>
    cases hq : q a with
    | true =>
      rw [List.filter_cons_of_pos hq, List.find?_cons, List.find?_cons, ih]
    | false =>
      have hp : p a = false := by
        cases hpa : p a with
        | false => rfl
        | true => rw [h a hpa] at hq; cases hq
      rw [List.filter_cons_of_neg (by simp [hq]), List.find?_cons, hp, ih]

theorem find?_filter_none {α : Type} (p q : α → Bool) (h : ∀ x, q x = true → p x = false)
    (l : List α) : (l.filter q).find? p = none := by
  rw [List.find?_eq_none]
  intro x hx
  have := (List.mem_filter.mp hx).2
  simp [h x this]

theorem lastWeight_append_zero (flights : List (List Int)) (a b u v : Int) :
    lastWeight (flights ++ [[a, b, 0]]) u v =
      if u = a ∧ v = b then 0 else lastWeight flights u v := by
  unfold lastWeight
  rw [List.reverse_append, List.reverse_singleton, List.singleton_append, List.find?_cons]
  by_cases h : u = a ∧ v = b
  · simp [h.1, h.2]
  · have h' : ¬ (a = u ∧ b = v) := fun e => h ⟨e.1.symm, e.2.symm⟩
    have hp : (decide (([a, b, 0] : List Int).getD 0 0 = u) &&
        decide (([a, b, 0] : List Int).getD 1 0 = v)) = false := by
      simpa using h'
    rw [hp, if_neg h]

theorem lastWeight_withoutEdges (flights : List (List Int)) (a b u v : Int) :
    lastWeight (withoutEdges flights a b) u v =
      if u = a ∧ v = b then 0 else lastWeight flights u v := by
  unfold lastWeight withoutEdges
  rw [← List.filter_reverse]
  by_cases h : u = a ∧ v = b
  · rw [if_pos h, find?_filter_none]
    intro x hx
    rw [h.1, h.2]
    simp only [Bool.not_eq_true', Bool.and_eq_false_iff, decide_eq_false_iff_not] at hx ⊢
    exact hx
  · rw [if_neg h, find?_filter_of_imp]
    intro x hx
    simp only [Bool.and_eq_true, decide_eq_true_eq] at hx
    simp only [Bool.not_eq_true', Bool.and_eq_false_iff, decide_eq_false_iff_not]
    by_contra hcon
    push_neg at hcon
    exact h ⟨by rw [← hx.1, hcon.1], by rw [← hx.2, hcon.2]⟩

theorem makeAdjMatrix_ok (flights : List (List Int))
    (h : ∀ f ∈ flights, f.length = 3 ∧ FlightInRange f) :
    ∃ m, makeAdjMatrix flights = .ok m ∧ Square m ∧
      ∀ u v : Nat, entry m u v = lastWeight flights u v := by
  obtain ⟨m, h1, hs, he⟩ := foldlM_writeFlight_ok flights _ square_replicate h
  refine ⟨m, h1, hs, ?_⟩
  intro u v
  rw [he u v, lastWeight, entry_replicate]

theorem entry_eq_getElem (m : List (List Int)) (i j : Nat)
    (hi : i < m.length) (hj : j < (m.get ⟨i, hi⟩).length) :
    entry m i j = (m.get ⟨i, hi⟩).get ⟨j, hj⟩ := by
  have hj' : j < m[i].length := hj
  simp [entry, List.getD_eq_getElem?_getD, List.getElem?_eq_getElem hi,
    List.getElem?_eq_getElem hj']

/-- Two matrices of 11 rows of 11 entries with the same entries are equal. -/
theorem square_ext (m1 m2 : List (List Int)) (h1 : Square m1) (h2 : Square m2)
    (h : ∀ u v, u < numOfApt → v < numOfApt → entry m1 u v = entry m2 u v) : m1 = m2 := by
  apply List.ext_getElem (by rw [h1.1, h2.1])
  intro i hi1 hi2
  have hr1 : m1[i].length = numOfApt := h1.2 _ (List.getElem_mem _)
  have hr2 : m2[i].length = numOfApt := h2.2 _ (List.getElem_mem _)
  apply List.ext_getElem (by rw [hr1, hr2])
  intro j hj1 hj2
  have hi : i < numOfApt := by rw [← h1.1]; exact hi1
  have hj : j < numOfApt := by rw [← hr1]; exact hj1
  have e1 := entry_eq_getElem m1 i j hi1 hj1
  have e2 := entry_eq_getElem m2 i j hi2 hj2
  have := h i j hi hj
  rw [e1, e2] at this
  exact this

/-- Appending a flight of cost `0` builds the matrix of the list without the flights of
that pair. -/
theorem makeAdjMatrix_append_zero (flights : List (List Int))
    (h3 : ∀ f ∈ flights, f.length = 3) (u v : Nat) (hu : u < numOfApt) (hv : v < numOfApt) :
    makeAdjMatrix (flights ++ [[(u : Int), (v : Int), 0]])
      = makeAdjMatrix (withoutEdges flights (u : Int) (v : Int)) := by
  have hnew : FlightInRange [(u : Int), (v : Int), 0] := by
    simp only [FlightInRange, List.getD_cons_zero, List.getD_cons_succ]
    exact ⟨Int.ofNat_nonneg _, by exact_mod_cast hu, Int.ofNat_nonneg _, by exact_mod_cast hv⟩
  have h3a : ∀ f ∈ flights ++ [[(u : Int), (v : Int), 0]], f.length = 3 := by
    intro f hf
    rcases List.mem_append.mp hf with hf | hf
    · exact h3 f hf
    · simp only [List.mem_singleton] at hf
      rw [hf]; rfl
  have h3w : ∀ f ∈ withoutEdges flights (u : Int) (v : Int), f.length = 3 :=
    fun f hf => h3 f (List.mem_filter.mp hf).1
  by_cases hall : ∀ f ∈ flights, FlightInRange f
  · have hra : ∀ f ∈ flights ++ [[(u : Int), (v : Int), 0]], f.length = 3 ∧ FlightInRange f := by
      intro f hf
      refine ⟨h3a f hf, ?_⟩
      rcases List.mem_append.mp hf with hf | hf
      · exact hall f hf
      · simp only [List.mem_singleton] at hf
        rw [hf]; exact hnew
    have hrw : ∀ f ∈ withoutEdges flights (u : Int) (v : Int),
        f.length = 3 ∧ FlightInRange f :=
      fun f hf => ⟨h3w f hf, hall f (List.mem_filter.mp hf).1⟩
    obtain ⟨m1, e1, s1, w1⟩ := makeAdjMatrix_ok _ hra
    obtain ⟨m2, e2, s2, w2⟩ := makeAdjMatrix_ok _ hrw
    rw [e1, e2]
    congr 1
    apply square_ext m1 m2 s1 s2
    intro a b _ _
    rw [w1 a b, w2 a b, lastWeight_append_zero, lastWeight_withoutEdges]
  · push_neg at hall
    obtain ⟨f, hf, hbad⟩ := hall
    have hkeep : f ∈ withoutEdges flights (u : Int) (v : Int) := by
      refine List.mem_filter.mpr ⟨hf, ?_⟩
      simp only [Bool.not_eq_true', Bool.and_eq_false_iff, decide_eq_false_iff_not]
      by_contra hcon
      push_neg at hcon
      apply hbad
      simp only [FlightInRange, hcon.1, hcon.2]
      exact ⟨Int.ofNat_nonneg _, by exact_mod_cast hu, Int.ofNat_nonneg _, by exact_mod_cast hv⟩
    have ea := foldlM_writeFlight_bad (flights ++ [[(u : Int), (v : Int), 0]]) _
      square_replicate h3a ⟨f, List.mem_append.mpr (Or.inl hf), hbad⟩
    have ew := foldlM_writeFlight_bad (withoutEdges flights (u : Int) (v : Int)) _
      square_replicate h3w ⟨f, hkeep, hbad⟩
    unfold makeAdjMatrix
    rw [ea, ew]

theorem makeAdjMatrix_append_zero_entry (flights : List (List Int))
    (h3 : ∀ f ∈ flights, f.length = 3) (u v : Nat) (hu : u < numOfApt) (hv : v < numOfApt)
    (m : List (List Int))
    (hm : makeAdjMatrix (flights ++ [[(u : Int), (v : Int), 0]]) = .ok m) :
    entry m u v = 0 := by
  have hnew : FlightInRange [(u : Int), (v : Int), 0] := by
    simp only [FlightInRange, List.getD_cons_zero, List.getD_cons_succ]
    exact ⟨Int.ofNat_nonneg _, by exact_mod_cast hu, Int.ofNat_nonneg _, by exact_mod_cast hv⟩
  have h3a : ∀ f ∈ flights ++ [[(u : Int), (v : Int), 0]], f.length = 3 := by
    intro f hf
    rcases List.mem_append.mp hf with hf | hf
    · exact h3 f hf
    · simp only [List.mem_singleton] at hf
      rw [hf]; rfl
  by_cases hall : ∀ f ∈ flights ++ [[(u : Int), (v : Int), 0]], FlightInRange f
  · obtain ⟨m1, e1, _, w1⟩ := makeAdjMatrix_ok _ (fun f hf => ⟨h3a f hf, hall f hf⟩)
    rw [e1] at hm
    cases hm
    rw [w1 u v, lastWeight_append_zero]
    simp
  · push_neg at hall
    obtain ⟨f, hf, hbad⟩ := hall
    have ea := foldlM_writeFlight_bad (flights ++ [[(u : Int), (v : Int), 0]]) _
      square_replicate h3a ⟨f, hf, hbad⟩
    unfold makeAdjMatrix at hm
    rw [ea] at hm
    cases hm

/-- The loop body on a pair whose entry is `0` leaves the state as it is. -/
theorem relaxEdge_zero (adjMatrix : List (List Int)) (cost currApt : Int) (s : State)
    (nextApt : Nat) (row : List Int) (h1 : vecAt adjMatrix currApt = .ok row)
    (h2 : vecAt row (nextApt : Int) = .ok 0) :
    relaxEdge adjMatrix cost currApt s nextApt = .ok s := by
  simp only [relaxEdge, h1, h2, ok_bind, ne_eq, not_true_eq_false, if_false, pure_eq_ok]

theorem aptAt_ok_range (k : Int) (name : String) (h : aptAt k = .ok name) :
    0 ≤ k ∧ k < numOfApt := by
  by_contra hcon
  have hout : k < 0 ∨ (numOfApt : Int) ≤ k := by omega
  rw [aptAt_out k hout] at h
  cases h

theorem prevLinked_relaxed (adjMatrix : List (List Int)) (s : State) (cand : Int) (u x : Nat)
    (hu : u < numOfApt) (hx : x < s.costs.length) (he : entry adjMatrix u x ≠ 0)
    (hP : PrevLinked adjMatrix s.costs) : PrevLinked adjMatrix (relaxed s cand u x).costs := by
  intro v hv
  simp only [relaxed, prevOf_set s.costs x _ hx v]
  by_cases hvx : v = x
  · subst hvx
    simp only [if_true]
    exact Or.inr ⟨u, hu, rfl, he⟩
  · simp only [hvx, if_false]
    exact hP v hv

theorem relaxFrom_prevLinked (adjMatrix : List (List Int)) (hsq : Square adjMatrix)
    (cost : Int) (u : Nat) (hu : u < numOfApt) :
    ∀ R s, (InBounds s ∧ (∀ x ∈ R, x < numOfApt) ∧ PrevLinked adjMatrix s.costs) →
      ∃ s', relaxFrom adjMatrix cost (u : Int) R s = .ok s' ∧
        (InBounds s' ∧ (∀ x ∈ ([] : List Nat), x < numOfApt) ∧
          PrevLinked adjMatrix s'.costs) := by
  apply foldlM_invariant (relaxEdge adjMatrix cost (u : Int))
    (fun R s => InBounds s ∧ (∀ x ∈ R, x < numOfApt) ∧ PrevLinked adjMatrix s.costs)
  intro x R s ⟨hb, hR, hP⟩
  have hx : x < numOfApt := hR x (List.mem_cons_self _ _)
  have hR' : ∀ y ∈ R, y < numOfApt := fun y hy => hR y (List.mem_cons_of_mem _ hy)
  by_cases hc : entry adjMatrix u x ≠ 0 ∧ wrap32 (cost + entry adjMatrix u x) < costOf s.costs x
  · exact ⟨_, relaxEdge_update adjMatrix hsq cost u x hu hx s hb.1 hc.1 hc.2,
      inBounds_relaxed s _ u x hb hx, hR',
      prevLinked_relaxed adjMatrix s _ u x hu (by rw [hb.1]; exact hx) hc.1 hP⟩
  · refine ⟨s, relaxEdge_skip adjMatrix hsq cost u x hu hx s hb.1 ?_, hb, hR', hP⟩
    by_cases h0 : entry adjMatrix u x = 0
    · exact Or.inl h0
    · exact Or.inr (fun h => hc ⟨h0, h⟩)

theorem popAndRelax_prevLinked (adjMatrix : List (List Int)) (hsq : Square adjMatrix)
    (s : State) (hI : InBounds s ∧ PrevLinked adjMatrix s.costs) (hne : s.minHeap ≠ []) :
    ∃ s', popAndRelax adjMatrix s = .ok s' ∧ (InBounds s' ∧ PrevLinked adjMatrix s'.costs) ∧
      loopMeasure s' < loopMeasure s := by
  obtain ⟨hb, hP⟩ := hI
  obtain ⟨s2, h2, _, hm⟩ := popAndRelax_inBounds adjMatrix hsq s hb hne
  obtain ⟨costs, heap⟩ := s
  cases heap with
  | nil => exact absurd rfl hne
  | cons current rest =>
    obtain ⟨h0, h1⟩ := hb.2 current (List.mem_cons_self _ _)
    obtain ⟨u, hu⟩ := Int.eq_ofNat_of_zero_le h0
    have hu' : u < numOfApt := by rw [hu] at h1; exact_mod_cast h1
    have hb' : InBounds { costs := costs, minHeap := rest } :=
      ⟨hb.1, fun e he => hb.2 e (List.mem_cons_of_mem _ he)⟩
    obtain ⟨s', hs', hb'', _, hP'⟩ := relaxFrom_prevLinked adjMatrix hsq current.1 u hu'
      (List.range numOfApt) { costs := costs, minHeap := rest }
      ⟨hb', fun x hx => List.mem_range.mp hx, hP⟩
    have hpop : popAndRelax adjMatrix { costs := costs, minHeap := current :: rest } = .ok s' := by
      simp only [popAndRelax, hu]
      exact hs'
    have hs2 : s' = s2 := Except.ok.inj (hpop.symm.trans h2)
    rw [← hs2] at hm
    exact ⟨s', hpop, ⟨hb'', hP'⟩, hm⟩

/-- On a matrix of 11 rows of 11 entries the search from an airport in range ends with a
table in which every predecessor other than `-1` is the tail of a connected pair. -/
theorem search_prevLinked (adjMatrix : List (List Int)) (hsq : Square adjMatrix) (src : Int)
    (h0 : 0 ≤ src) (h1 : src < numOfApt) :
    ∃ costs, search adjMatrix src = .ok costs ∧ costs.length = numOfApt ∧
      PrevLinked adjMatrix costs := by
  have hinit : PrevLinked adjMatrix (initState src).costs := by
    intro v hv
    refine Or.inl ?_
    have hv' : v < (initCosts src).length := by rw [length_initCosts]; exact hv
    simp only [initState]
    rw [prevOf_eq_get _ v hv']
    simp only [initCosts, List.get_eq_getElem, List.getElem_map, List.getElem_range]
    split <;> rfl
  obtain ⟨s, hs, ⟨hb, hP⟩, _⟩ := frontierLoop_invariant adjMatrix
    (fun s => InBounds s ∧ PrevLinked adjMatrix s.costs)
    (fun s hI hne => popAndRelax_prevLinked adjMatrix hsq s hI hne)
    searchFuel (initState src) ⟨inBounds_initState src h0 h1, hinit⟩
    (loopMeasure_initState src)
  refine ⟨s.costs, ?_, hb.1, hP⟩
  rw [search_eq adjMatrix src h0 h1, hs]; rfl

/-- A walk that ends leaves a stack whose consecutive pairs are connected. -/
theorem walkRoute_connected (adjMatrix : List (List Int)) (costs : List (Int × Int))
    (hlen : costs.length = numOfApt) (hP : PrevLinked adjMatrix costs) (src : Int)
    (h0 : 0 ≤ src) :
    ∀ (fuel : Nat) (curr : Int) (acc r : List Int),
      walkRoute costs src fuel curr acc = .ok r →
      connectedPairs adjMatrix acc →
      (∀ b t, acc = b :: t → curr = -1 ∨ (0 ≤ curr ∧ entry adjMatrix curr.toNat b.toNat ≠ 0)) →
      connectedPairs adjMatrix (src :: r) := by
  have hdone : ∀ (acc : List Int), connectedPairs adjMatrix acc →
      (∀ b t, acc = b :: t → src = -1 ∨ (0 ≤ src ∧ entry adjMatrix src.toNat b.toNat ≠ 0)) →
      connectedPairs adjMatrix (src :: acc) := by
    intro acc hacc hhead
    cases acc with
    | nil => simp [connectedPairs]
    | cons b t =>
      rcases hhead b t rfl with h | h
      · omega
      · rw [connectedPairs]; exact ⟨h, hacc⟩
  intro fuel
  induction fuel with
  | zero =>
    intro curr acc r h hacc hhead
    by_cases hc : curr = src
    · simp only [walkRoute, hc, if_true] at h
      have hr : acc = r := Except.ok.inj h
      rw [← hr]
      rw [hc] at hhead
      exact hdone acc hacc hhead
    · simp only [walkRoute, hc, if_false] at h
      cases h
  | succ fuel ih =>
    intro curr acc r h hacc hhead
    by_cases hc : curr = src
    · simp only [walkRoute, hc, if_true] at h
      have hr : acc = r := Except.ok.inj h
      rw [← hr]
      rw [hc] at hhead
      exact hdone acc hacc hhead
    · rw [walkRoute] at h
      simp only [hc, if_false] at h
      cases h1 : aptAt curr with
      | error e => rw [h1] at h; cases h
      | ok name =>
        rw [h1, ok_bind] at h
        obtain ⟨hc0, hc1⟩ := aptAt_ok_range curr name h1
        obtain ⟨n, rfl⟩ := Int.eq_ofNat_of_zero_le hc0
        have hn : n < numOfApt := by exact_mod_cast hc1
        have hnl : n < costs.length := by rw [hlen]; exact hn
        rw [vecAt_natCast costs n hnl, ok_bind] at h
        have hprev : (costs.get ⟨n, hnl⟩).2 = prevOf costs n := (prevOf_eq_get costs n hnl).symm
        rw [hprev] at h
        apply ih (prevOf costs n) ((n : Int) :: acc) r h
        · cases acc with
          | nil => simp [connectedPairs]
          | cons b t =>
            rcases hhead b t rfl with hneg | hok
            · omega
            · rw [connectedPairs]; exact ⟨hok, hacc⟩
        · intro b t hbt
          have hb : b = (n : Int) := (List.cons.inj hbt).1.symm
          subst hb
          rcases hP n hn with hm1 | ⟨u, _, hu, hedge⟩
          · exact Or.inl hm1
          · refine Or.inr ?_
            rw [hu]
            exact ⟨Int.ofNat_nonneg _, by simpa using hedge⟩

/-- Every consecutive pair of a route returned by `findCheapestFlightWithDijkstra` has a
non-zero entry. -/
theorem find_connectedPairs (adjMatrix : List (List Int)) (hsq : Square adjMatrix)
    (src dst c : Int) (route : List Int)
    (h : findCheapestFlightWithDijkstra adjMatrix src dst = .ok (c, route)) :
    connectedPairs adjMatrix route := by
  by_cases hsrc : src < 0 ∨ (numOfApt : Int) ≤ src
  · rw [find_src_out adjMatrix src dst hsrc] at h
    cases h
  · have h0 : 0 ≤ src := by omega
    have h1 : src < numOfApt := by omega
    obtain ⟨costs, hsearch, hlen, hP⟩ := search_prevLinked adjMatrix hsq src h0 h1
    simp only [findCheapestFlightWithDijkstra, hsearch, ok_bind] at h
    cases hp : printCost costs src dst with
    | error e => rw [hp] at h; cases h
    | ok printed =>
      rw [hp, ok_bind] at h
      cases hw : walkRoute costs src numOfApt dst [] with
      | error e => rw [hw] at h; cases h
      | ok r =>
        rw [hw, ok_bind] at h
        cases ha : aptAt src with
        | error e => rw [ha] at h; cases h
        | ok name =>
          rw [ha, ok_bind] at h
          cases hv : vecAt costs dst with
          | error e => rw [hv] at h; cases h
          | ok entry =>
            rw [hv, ok_bind] at h
            have hroute : route = src :: r := by
              have := Except.ok.inj h
              exact (congrArg Prod.snd this).symm
            rw [hroute]
            exact walkRoute_connected adjMatrix costs hlen hP src h0 numOfApt dst [] r hw
              (by simp [connectedPairs]) (fun b t hbt => by cases hbt)

theorem connectedPairs_getD (adjMatrix : List (List Int)) :
    ∀ (l : List Int), connectedPairs adjMatrix l → ∀ i, i + 1 < l.length →
      entry adjMatrix (l.getD i 0).toNat (l.getD (i + 1) 0).toNat ≠ 0 := by
  intro l
  induction l with
  | nil => intro _ i hi; simp at hi
  | cons a q ih =>
    intro hl i hi
    cases q with
    | nil => simp at hi
    | cons b r =>
      rw [connectedPairs] at hl
      cases i with
      | zero => simpa using hl.1.2
      | succ j =>
        have := ih hl.2 j (by simpa using hi)
        simpa using this

/-! ## The claims -/

/-- C1: optimality.  For every matrix of 11 rows of 11 non-negative entries in which no
path of at most 11 hops weighs `INT_MAX` or more, and for every `src`, `dst` in `[0, 11)`
with `dst` reachable from `src`, `findCheapestFlightWithDijkstra` returns a cost that is
the weight of a directed path from `src` to `dst` and is at most the weight of every
directed path from `src` to `dst`: the minimum over all such paths. -/
theorem cheapest_cost_is_minimum (adjMatrix : List (List Int)) (hsq : Square adjMatrix)
    (hnn : NonNeg adjMatrix) (hno : NoOverflow adjMatrix) (src dst : Nat)
    (hsrc : src < 11) (hdst : dst < 11) (hreach : ∃ p, PathFromTo adjMatrix src dst p) :
    ∃ (c : Int) (route : List Int),
      findCheapestFlightWithDijkstra adjMatrix (src : Int) (dst : Int) = .ok (c, route) ∧
        (∃ p, PathFromTo adjMatrix src dst p ∧ pathWeight adjMatrix p = c) ∧
        ∀ p, PathFromTo adjMatrix src dst p → c ≤ pathWeight adjMatrix p := by
  obtain ⟨c, r, hfind, hpath, hweight, hmin⟩ :=
    find_spec adjMatrix hsq hnn hno src dst hsrc hdst hreach
  exact ⟨c, _, hfind, ⟨r, hpath, hweight⟩, hmin⟩

theorem cheapest_cost_is_minimum_witness :
    ∃ (c : Int) (route : List Int),
      findCheapestFlightWithDijkstra usMatrix ((0 : Nat) : Int) ((6 : Nat) : Int)
          = .ok (c, route) ∧
        (∃ p, PathFromTo usMatrix 0 6 p ∧ pathWeight usMatrix p = c) ∧
        ∀ p, PathFromTo usMatrix 0 6 p → c ≤ pathWeight usMatrix p :=
  cheapest_cost_is_minimum usMatrix square_usMatrix nonNeg_usMatrix noOverflow_usMatrix 0 6
    (by decide) (by decide) ⟨[0, 3, 6], by unfold PathFromTo; decide⟩

/-- C2, against the claim: `wrapMatrix` has 11 rows of 11 non-negative entries and airport
`1` is reachable from airport `0`, yet the query `(0, 1)` returns cost `1` with the route
`0 -> 1`, whose only pair weighs `INT_MAX - 1`: the candidate `(INT_MAX - 1) + 5` formed
for the pair `1 -> 0` exceeds `INT_MAX`. -/
theorem route_weight_differs_on_overflow :
    Square wrapMatrix ∧ NonNeg wrapMatrix ∧ PathFromTo wrapMatrix 0 1 [0, 1] ∧
      findCheapestFlightWithDijkstra wrapMatrix 0 1 = .ok (1, [0, 1]) ∧
      pathWeight wrapMatrix [0, 1] = 2147483646 := by
  refine ⟨by unfold Square; decide, by unfold NonNeg; decide, by unfold PathFromTo; decide,
    rfl, rfl⟩

/-- C2 as amended: path validity when no sum overflows.  For every matrix of 11 rows of
11 non-negative entries in which no path of at most 11 hops weighs `INT_MAX` or more, and
every `src`, `dst` in `[0, 11)` with `dst` reachable from `src`, the route written by
`findCheapestFlightWithDijkstra` starts at `src`, ends at `dst`, has a non-zero entry for
every consecutive pair, and the sum of these entries is the returned cost. -/
theorem route_is_valid_path (adjMatrix : List (List Int)) (hsq : Square adjMatrix)
    (hnn : NonNeg adjMatrix) (hno : NoOverflow adjMatrix) (src dst : Nat)
    (hsrc : src < 11) (hdst : dst < 11) (hreach : ∃ p, PathFromTo adjMatrix src dst p) :
    ∃ (c : Int) (r : List Nat),
      findCheapestFlightWithDijkstra adjMatrix (src : Int) (dst : Int)
          = .ok (c, r.map fun n : Nat => (n : Int)) ∧
        r.head? = some src ∧ r.getLast? = some dst ∧
        (∀ i, i + 1 < r.length → entry adjMatrix (r.getD i 0) (r.getD (i + 1) 0) ≠ 0) ∧
        pathWeight adjMatrix r = c := by
  obtain ⟨c, r, hfind, hpath, hweight, _⟩ :=
    find_spec adjMatrix hsq hnn hno src dst hsrc hdst hreach
  exact ⟨c, r, hfind, hpath.2.1, hpath.2.2, isPath_pairs adjMatrix r hpath.1, hweight⟩

theorem route_is_valid_path_witness :
    ∃ (c : Int) (r : List Nat),
      findCheapestFlightWithDijkstra usMatrix ((0 : Nat) : Int) ((10 : Nat) : Int)
          = .ok (c, r.map fun n : Nat => (n : Int)) ∧
        r.head? = some 0 ∧ r.getLast? = some 10 ∧
        (∀ i, i + 1 < r.length → entry usMatrix (r.getD i 0) (r.getD (i + 1) 0) ≠ 0) ∧
        pathWeight usMatrix r = c :=
  route_is_valid_path usMatrix square_usMatrix nonNeg_usMatrix noOverflow_usMatrix 0 10
    (by decide) (by decide) ⟨[0, 4, 10], by unfold PathFromTo; decide⟩

/-- C3, against the claim: in `oneFlightMatrix` no path leads from airport `1` to airport
`0`, and the query `(1, 0)` writes the number `INT_MAX` as the cost and then ends with
the `std::out_of_range` of `APT_MAP.at(-1)`, the very outcome of a query whose `dst` is
out of range. -/
theorem unreachable_not_distinct :
    (¬ ∃ p, PathFromTo oneFlightMatrix 1 0 p) ∧
      (search oneFlightMatrix 1 >>= fun costs => printCost costs 1 0) = .ok 2147483647 ∧
      findCheapestFlightWithDijkstra oneFlightMatrix 1 0 = .error .outOfRange ∧
      findCheapestFlightWithDijkstra oneFlightMatrix 1 11 = .error .outOfRange :=
  ⟨no_path_oneFlightMatrix, rfl, rfl, rfl⟩

/-- C3 as amended: the code has no unreachable outcome.  For every matrix of 11 rows of
11 entries and every `src`, `dst` in `[0, 11)` with no directed path from `src` to `dst`
(hence `src != dst`), the search leaves `costs[dst]` at its initial value `{INT_MAX, -1}`
and the cost written for the query is the number `INT_MAX`. -/
theorem unreachable_reports_int_max (adjMatrix : List (List Int)) (hsq : Square adjMatrix)
    (src dst : Nat) (hsrc : src < 11) (hdst : dst < 11)
    (hnone : ¬ ∃ p, PathFromTo adjMatrix src dst p) :
    ∃ costs, search adjMatrix (src : Int) = .ok costs ∧
      vecAt costs (dst : Int) = .ok (INT_MAX, -1) ∧
      printCost costs (src : Int) (dst : Int) = .ok INT_MAX :=
  printCost_unreachable adjMatrix hsq src dst hsrc hdst hnone

theorem unreachable_reports_int_max_witness :
    ∃ costs, search oneFlightMatrix ((1 : Nat) : Int) = .ok costs ∧
      vecAt costs ((0 : Nat) : Int) = .ok (INT_MAX, -1) ∧
      printCost costs ((1 : Nat) : Int) ((0 : Nat) : Int) = .ok INT_MAX :=
  unreachable_reports_int_max oneFlightMatrix square_oneFlightMatrix 1 0 (by decide)
    (by decide) no_path_oneFlightMatrix

/-- C4: for a list of flights `{fromApt, toApt, cost}` whose airports all lie in
`[0, 11)`, `makeAdjMatrix` returns a matrix of exactly 11 rows of exactly 11 entries in
which entry `[u][v]` is the cost of the last flight of the list from `u` to `v`, and `0`
when the list has no such flight. -/
theorem makeAdjMatrix_last_write_wins (flights : List (List Int))
    (h : ∀ f ∈ flights, f.length = 3 ∧ FlightInRange f) :
    ∃ m, makeAdjMatrix flights = .ok m ∧ m.length = 11 ∧ (∀ row ∈ m, row.length = 11) ∧
      ∀ u v : Nat, u < 11 → v < 11 → entry m u v = lastWeight flights u v := by
  obtain ⟨m, h1, hs, he⟩ := foldlM_writeFlight_ok flights _ square_replicate h
  refine ⟨m, h1, hs.1, hs.2, ?_⟩
  intro u v _ _
  rw [he u v, lastWeight, entry_replicate]

theorem makeAdjMatrix_last_write_wins_witness :
    ∃ m, makeAdjMatrix [[0, 1, 400], [2, 0, 100], [0, 1, 7]] = .ok m ∧ m.length = 11 ∧
      (∀ row ∈ m, row.length = 11) ∧
      ∀ u v : Nat, u < 11 → v < 11 →
        entry m u v = lastWeight [[0, 1, 400], [2, 0, 100], [0, 1, 7]] u v :=
  makeAdjMatrix_last_write_wins [[0, 1, 400], [2, 0, 100], [0, 1, 7]]
    (by unfold FlightInRange; decide)

/-- C5, against the claim: `wrapMatrix` has 11 rows of 11 non-negative entries, yet the
query `(0, 0)` returns the cost `-2147483645`: the candidate `(INT_MAX - 1) + 5` formed
for the pair `1 -> 0` exceeds `INT_MAX` and replaces the cost `0` of the source. -/
theorem self_cost_differs_on_overflow :
    Square wrapMatrix ∧ NonNeg wrapMatrix ∧
      findCheapestFlightWithDijkstra wrapMatrix 0 0 = .ok (-2147483645, [0]) := by
  refine ⟨by unfold Square; decide, by unfold NonNeg; decide, rfl⟩

/-- C5 as amended: self-path when no sum overflows.  For every matrix of 11 rows of 11
non-negative entries in which no path of at most 11 hops weighs `INT_MAX` or more, and
every `s` in `[0, 11)`, the query `(s, s)` returns cost `0` and the route `[s]`. -/
theorem self_query_is_trivial (adjMatrix : List (List Int)) (hsq : Square adjMatrix)
    (hnn : NonNeg adjMatrix) (hno : NoOverflow adjMatrix) (s : Nat) (hs : s < 11) :
    findCheapestFlightWithDijkstra adjMatrix (s : Int) (s : Int) = .ok (0, [(s : Int)]) :=
  find_self adjMatrix hsq hnn hno s hs

theorem self_query_is_trivial_witness :
    findCheapestFlightWithDijkstra usMatrix ((4 : Nat) : Int) ((4 : Nat) : Int)
      = .ok (0, [((4 : Nat) : Int)]) :=
  self_query_is_trivial usMatrix square_usMatrix nonNeg_usMatrix noOverflow_usMatrix 4
    (by decide)

/-- C6: on the matrix built from `usFlights` the query `(0, 2)` returns cost `150` with
route `[0, 2]` and the query `(2, 0)` returns cost `100` with route `[2, 0]`. -/
theorem reference_direct_edges :
    (makeAdjMatrix usFlights >>= fun m => findCheapestFlightWithDijkstra m 0 2)
        = .ok (150, [0, 2]) ∧
      (makeAdjMatrix usFlights >>= fun m => findCheapestFlightWithDijkstra m 2 0)
        = .ok (100, [2, 0]) :=
  ⟨rfl, rfl⟩

/-- C7: on the matrix built from `usFlights` the entry `[0][6]` is `0`, the query `(0, 6)`
returns cost `540 = 240 + 300` with route `[0, 3, 6]`, and `540` is at most the weight of
every directed path from `0` to `6` in that matrix. -/
theorem reference_multi_hop :
    ∃ m, makeAdjMatrix usFlights = .ok m ∧ entry m 0 6 = 0 ∧
      findCheapestFlightWithDijkstra m 0 6 = .ok (540, [0, 3, 6]) ∧
      entry m 0 3 = 240 ∧ entry m 3 6 = 300 ∧ pathWeight m [0, 3, 6] = 540 ∧
      ∀ p, PathFromTo m 0 6 p → 540 ≤ pathWeight m p := by
  refine ⟨usMatrix, rfl, rfl, rfl, rfl, rfl, rfl, ?_⟩
  obtain ⟨c, r, hfind, _, _, hmin⟩ :=
    find_spec usMatrix square_usMatrix nonNeg_usMatrix noOverflow_usMatrix 0 6
      (by decide) (by decide) ⟨[0, 3, 6], by unfold PathFromTo; decide⟩
  have hval : findCheapestFlightWithDijkstra usMatrix ((0 : Nat) : Int) ((6 : Nat) : Int)
      = .ok (540, [0, 3, 6]) := rfl
  rw [hval] at hfind
  have hc : (540 : Int) = c := congrArg Prod.fst (Except.ok.inj hfind)
  rw [hc]
  exact hmin

/-- C9, against the claim: for the one-flight list `{{11, 0, 5}}` the builder raises no
`OutOfRange` error; the write `adjMatrix[11][0] = 5` is an unchecked access outside the
11 rows. -/
theorem makeAdjMatrix_no_outOfRange :
    makeAdjMatrix [[11, 0, 5]] = .error .undefinedIndex ∧
      makeAdjMatrix [[11, 0, 5]] ≠ .error .outOfRange := by
  have h : makeAdjMatrix [[11, 0, 5]] = .error .undefinedIndex := rfl
  refine ⟨h, ?_⟩
  rw [h]
  intro hc
  cases hc

/-- C9 as amended: `makeAdjMatrix` validates nothing.  On a list of flights
`{fromApt, toApt, cost}` it succeeds when all airports lie in `[0, 11)`, and when some
flight has an airport outside `[0, 11)` it performs an unchecked out-of-bounds access
instead of raising an `OutOfRange` error. -/
theorem makeAdjMatrix_unchecked (flights : List (List Int))
    (h3 : ∀ f ∈ flights, f.length = 3) :
    ((∀ f ∈ flights, FlightInRange f) → ∃ m, makeAdjMatrix flights = .ok m) ∧
      ((∃ f ∈ flights, ¬ FlightInRange f) →
        makeAdjMatrix flights = .error .undefinedIndex) := by
  constructor
  · intro hr
    obtain ⟨m, h1, _, _⟩ :=
      foldlM_writeFlight_ok flights _ square_replicate (fun f hf => ⟨h3 f hf, hr f hf⟩)
    exact ⟨m, h1⟩
  · intro hbad
    exact foldlM_writeFlight_bad flights _ square_replicate h3 hbad

theorem makeAdjMatrix_unchecked_witness :
    (∃ m, makeAdjMatrix [[0, 1, 400], [1, 0, 350]] = .ok m) ∧
      makeAdjMatrix [[0, 1, 400], [1, -1, 350]] = .error .undefinedIndex :=
  ⟨(makeAdjMatrix_unchecked [[0, 1, 400], [1, 0, 350]] (by decide)).1
      (by unfold FlightInRange; decide),
    (makeAdjMatrix_unchecked [[0, 1, 400], [1, -1, 350]] (by decide)).2
      ⟨[1, -1, 350], by decide, by unfold FlightInRange; decide⟩⟩

/-- C10, against the claim: `wrapMatrix` has 11 rows of 11 non-negative entries, yet the
second iteration of the search from `0` records and pushes the cost `-2147483645` for
airport `0`: the recorded costs are not bounded below by `0`. -/
theorem pushed_cost_negative_on_overflow :
    Square wrapMatrix ∧ NonNeg wrapMatrix ∧
      runPops wrapMatrix 2 (initState 0) =
        .ok { costs := [(-2147483645, 1), (2147483646, 0), (2147483647, -1),
                (2147483647, -1), (2147483647, -1), (2147483647, -1), (2147483647, -1),
                (2147483647, -1), (2147483647, -1), (2147483647, -1), (2147483647, -1)],
              minHeap := [(-2147483645, 0)] } := by
  refine ⟨by unfold Square; decide, by unfold NonNeg; decide, rfl⟩

/-- C10 as amended: on every matrix of 11 rows of 11 entries and for every `src` in
`[0, 11)` the loop `while (!minHeap.empty())` ends: after finitely many pops (at most
`searchFuel`) the frontier is empty and the search returns the table reached, every
iteration strictly lowering `loopMeasure` (twice the sum of the recorded costs, offset by
`2^31`, plus the size of the frontier).  The cause is that every push records a cost
strictly below the one recorded before, and the recorded costs are bounded below: by
`-2^31`, the least 32-bit value, in general, and by `0` in every state of the run when
the entries are non-negative and no path of at most 11 hops weighs `INT_MAX` or more. -/
theorem frontier_loop_terminates (adjMatrix : List (List Int)) (hsq : Square adjMatrix)
    (src : Int) (h0 : 0 ≤ src) (h1 : src < 11) :
    (∃ final, frontierLoop adjMatrix searchFuel (initState src) = .ok final ∧
        final.minHeap = [] ∧ search adjMatrix src = .ok final.costs) ∧
      (∀ s, InBounds s → s.minHeap ≠ [] →
        ∃ s', popAndRelax adjMatrix s = .ok s' ∧ InBounds s' ∧
          loopMeasure s' < loopMeasure s) ∧
      (∀ (cost currApt : Int) (s s' : State) (nextApt : Nat),
        relaxEdge adjMatrix cost currApt s nextApt = .ok s' →
        s' = s ∨ ∃ cand, -2147483648 ≤ cand ∧ cand < costOf s.costs nextApt ∧
          s' = { costs := s.costs.set nextApt (cand, currApt),
                 minHeap := heapPush (cand, (nextApt : Int)) s.minHeap }) ∧
      (NonNeg adjMatrix → NoOverflow adjMatrix →
        ∀ (n : Nat) (s : State), runPops adjMatrix n (initState src) = .ok s →
          ∀ v, v < 11 → 0 ≤ costOf s.costs v) := by
  refine ⟨?_, fun s hs hne => popAndRelax_inBounds adjMatrix hsq s hs hne,
    fun cost currApt s s' nextApt h => relaxEdge_push adjMatrix cost currApt s s' nextApt h,
    ?_⟩
  · obtain ⟨s', hs', _, he⟩ := frontierLoop_terminates adjMatrix hsq src h0 h1
    refine ⟨s', hs', he, ?_⟩
    rw [search_eq adjMatrix src h0 h1, hs']; rfl
  · intro hnn hno n s hrun v hv
    obtain ⟨k, rfl⟩ := Int.eq_ofNat_of_zero_le h0
    have hk : k < numOfApt := by
      rw [numOfApt_eq]
      exact_mod_cast h1
    exact runPops_costs_nonneg adjMatrix hsq hnn hno k hk n s hrun v hv

theorem frontier_loop_terminates_witness :
    (∃ final, frontierLoop usMatrix searchFuel (initState 0) = .ok final ∧
        final.minHeap = [] ∧ search usMatrix 0 = .ok final.costs) ∧
      (∀ s, InBounds s → s.minHeap ≠ [] →
        ∃ s', popAndRelax usMatrix s = .ok s' ∧ InBounds s' ∧
          loopMeasure s' < loopMeasure s) ∧
      (∀ (cost currApt : Int) (s s' : State) (nextApt : Nat),
        relaxEdge usMatrix cost currApt s nextApt = .ok s' →
        s' = s ∨ ∃ cand, -2147483648 ≤ cand ∧ cand < costOf s.costs nextApt ∧
          s' = { costs := s.costs.set nextApt (cand, currApt),
                 minHeap := heapPush (cand, (nextApt : Int)) s.minHeap }) ∧
      (∀ (n : Nat) (s : State), runPops usMatrix n (initState 0) = .ok s →
        ∀ v, v < 11 → 0 ≤ costOf s.costs v) :=
  (fun h => ⟨h.1, h.2.1, h.2.2.1, h.2.2.2 nonNeg_usMatrix noOverflow_usMatrix⟩)
    (frontier_loop_terminates usMatrix square_usMatrix 0 (by decide) (by decide))

/-! ## The claims about the relaxation -/

/-- C11, against the claim: `wrapMatrix` has 11 rows of 11 non-negative entries and
airport `0` is reachable from itself, yet the search from `0` ends with the negative cost
`-2147483645` recorded for airport `0`: the candidate `(INT_MAX - 1) + 5` exceeded
`INT_MAX`. -/
theorem final_cost_negative_on_overflow :
    Square wrapMatrix ∧ NonNeg wrapMatrix ∧ PathFromTo wrapMatrix 0 0 [0] ∧
      search wrapMatrix 0 = .ok [(-2147483645, 1), (1, 0), (2147483647, -1),
        (2147483647, -1), (2147483647, -1), (2147483647, -1), (2147483647, -1),
        (2147483647, -1), (2147483647, -1), (2147483647, -1), (2147483647, -1)] := by
  refine ⟨by unfold Square; decide, by unfold NonNeg; decide, by unfold PathFromTo; decide,
    rfl⟩

/-- C11 as amended: relaxation fixpoint when no sum overflows.  For every matrix of 11
rows of 11 non-negative entries in which no path of at most 11 hops weighs `INT_MAX` or
more, and every `src` in `[0, 11)`, the search ends with a table in which every airport
reachable from `src` has a cost `>= 0`, and for every connected pair `(u, v)` with `u`
reachable from `src`, `costs[v][0] <= costs[u][0] + adjMatrix[u][v]`. -/
theorem relaxation_fixpoint (adjMatrix : List (List Int)) (hsq : Square adjMatrix)
    (hnn : NonNeg adjMatrix) (hno : NoOverflow adjMatrix) (src : Nat) (hsrc : src < 11) :
    ∃ costs, search adjMatrix (src : Int) = .ok costs ∧
      (∀ v, v < 11 → (∃ p, PathFromTo adjMatrix src v p) → 0 ≤ costOf costs v) ∧
      (∀ u v, u < 11 → v < 11 → (∃ p, PathFromTo adjMatrix src u p) →
        entry adjMatrix u v ≠ 0 →
        costOf costs v ≤ costOf costs u + entry adjMatrix u v) := by
  obtain ⟨s, hsearch, hL, hS, he⟩ := search_labelled adjMatrix hsq hnn hno src hsrc
  refine ⟨s.costs, hsearch, ?_, ?_⟩
  · intro v hv hreach
    have hfin := ((settled_optimal adjMatrix hno src hsrc s hL hS he v hv).1 hreach).1
    exact (labelled_finite adjMatrix hnn hno src hsrc s hL v hv hfin).1
  · intro u v hu hv hreach hedge
    have hfin := ((settled_optimal adjMatrix hno src hsrc s hL hS he u hu).1 hreach).1
    exact (settled_edge adjMatrix hno src hsrc s hL hS he u v hu hv hfin hedge).1

theorem relaxation_fixpoint_witness :
    ∃ costs, search usMatrix ((0 : Nat) : Int) = .ok costs ∧
      (∀ v, v < 11 → (∃ p, PathFromTo usMatrix 0 v p) → 0 ≤ costOf costs v) ∧
      (∀ u v, u < 11 → v < 11 → (∃ p, PathFromTo usMatrix 0 u p) →
        entry usMatrix u v ≠ 0 →
        costOf costs v ≤ costOf costs u + entry usMatrix u v) :=
  relaxation_fixpoint usMatrix square_usMatrix nonNeg_usMatrix noOverflow_usMatrix 0
    (by decide)

/-- C12, against the claim: on `staleMatrix` (11 rows of 11 non-negative entries) the
fifth entry popped in the search from `0` is `{INT_MAX - 1, 1}`, stale since the recorded
cost of airport `1` is `2`; its scan forms `(INT_MAX - 1) + 5`, which exceeds `INT_MAX`,
replaces the cost `7` of airport `3` and pushes an entry.  The final table differs from
that of the variant that skips stale entries. -/
theorem stale_entry_relaxes_on_overflow :
    Square staleMatrix ∧ NonNeg staleMatrix ∧
      runPops staleMatrix 4 (initState 0) =
        .ok { costs := [(0, -1), (2, 2), (1, 0), (7, 1), (2147483647, -1), (2147483647, -1),
                (2147483647, -1), (2147483647, -1), (2147483647, -1), (2147483647, -1),
                (2147483647, -1)],
              minHeap := [(2147483646, 1)] } ∧
      runPops staleMatrix 5 (initState 0) =
        .ok { costs := [(0, -1), (2, 2), (1, 0), (-2147483645, 1), (2147483647, -1),
                (2147483647, -1), (2147483647, -1), (2147483647, -1), (2147483647, -1),
                (2147483647, -1), (2147483647, -1)],
              minHeap := [(-2147483645, 3)] } ∧
      (search staleMatrix 0 >>= fun costs => vecAt costs 3) = .ok (-2147483645, 1) ∧
      (searchSkippingStale staleMatrix 0 >>= fun costs => vecAt costs 3) = .ok (7, 1) := by
  refine ⟨by unfold Square; decide, by unfold NonNeg; decide, rfl, rfl, rfl, rfl⟩

/-- C12 as amended: stale entries are harmless when no sum overflows.  For every matrix
of 11 rows of 11 non-negative entries in which no path of at most 11 hops weighs
`INT_MAX` or more, and every `src` in `[0, 11)`: in every state of the run, if the entry
`{cost, u}` on top of the frontier is stale (`cost` exceeds the recorded cost of `u`),
the iteration that pops it only removes it, leaving every cost and predecessor unchanged
and pushing nothing; and the search returns the same table as the variant that skips
stale entries. -/
theorem stale_entries_are_harmless (adjMatrix : List (List Int)) (hsq : Square adjMatrix)
    (hnn : NonNeg adjMatrix) (hno : NoOverflow adjMatrix) (src : Nat) (hsrc : src < 11) :
    (∀ (n : Nat) (s : State) (current : Int × Int) (rest : List (Int × Int)),
        runPops adjMatrix n (initState (src : Int)) = .ok s → s.minHeap = current :: rest →
        costOf s.costs current.2.toNat < current.1 →
        popAndRelax adjMatrix s = .ok { s with minHeap := rest }) ∧
      searchSkippingStale adjMatrix (src : Int) = search adjMatrix (src : Int) := by
  refine ⟨?_, searchSkippingStale_eq adjMatrix hsq hnn hno src hsrc⟩
  intro n s current rest hrun hheap hstale
  obtain ⟨s1, h1, hI⟩ := runPops_full adjMatrix hsq hnn hno src hsrc n
  rw [hrun] at h1
  cases h1
  obtain ⟨_, u1, hu1, _⟩ := hI.1.frontier current (by rw [hheap]; exact List.mem_cons_self _ _)
  rw [hu1, Int.toNat_ofNat] at hstale
  exact popAndRelax_stale adjMatrix hsq hnn hno src hsrc s hI current rest hheap u1 hu1 hstale

theorem stale_entries_are_harmless_witness :
    (∀ (n : Nat) (s : State) (current : Int × Int) (rest : List (Int × Int)),
        runPops usMatrix n (initState ((0 : Nat) : Int)) = .ok s →
        s.minHeap = current :: rest →
        costOf s.costs current.2.toNat < current.1 →
        popAndRelax usMatrix s = .ok { s with minHeap := rest }) ∧
      searchSkippingStale usMatrix ((0 : Nat) : Int) = search usMatrix ((0 : Nat) : Int) :=
  stale_entries_are_harmless usMatrix square_usMatrix nonNeg_usMatrix noOverflow_usMatrix 0
    (by decide)

/-- C13: recorded costs never increase.  For every matrix and every state, one execution
of the loop body (a neighbour update) and one whole iteration of the frontier loop (a
pop with its scan) leave every `costs[v][0]` at most what it was; and the table built by
the initialisation holds `{0, -1}` for `src` and `{INT_MAX, -1}` for every other
airport. -/
theorem costs_never_increase (adjMatrix : List (List Int)) (s s' : State) :
    (∀ (cost currApt : Int) (nextApt : Nat),
        relaxEdge adjMatrix cost currApt s nextApt = .ok s' →
        ∀ v, costOf s'.costs v ≤ costOf s.costs v) ∧
      (popAndRelax adjMatrix s = .ok s' → ∀ v, costOf s'.costs v ≤ costOf s.costs v) ∧
      (∀ (src : Int) (v : Nat), v < 11 →
        vecAt (initCosts src) (v : Int)
          = .ok (if (v : Int) = src then (0, -1) else (INT_MAX, -1))) :=
  ⟨fun cost currApt nextApt h v => relaxEdge_costs_le adjMatrix cost currApt s s' nextApt h v,
    fun h v => popAndRelax_costs_le adjMatrix s s' h v,
    fun src v hv => vecAt_initCosts src v hv⟩

theorem costs_never_increase_witness :
    ∀ v, costOf [(0, -1), (400, 0), (150, 0), (240, 0), (600, 0), (2147483647, -1),
        (2147483647, -1), (2147483647, -1), (2147483647, -1), (2147483647, -1),
        (2147483647, -1)] v ≤ costOf (initState 0).costs v :=
  (costs_never_increase usMatrix (initState 0)
    { costs := [(0, -1), (400, 0), (150, 0), (240, 0), (600, 0), (2147483647, -1),
        (2147483647, -1), (2147483647, -1), (2147483647, -1), (2147483647, -1),
        (2147483647, -1)],
      minHeap := [(150, 2), (240, 3), (400, 1), (600, 4)] }).2.1 rfl

/-- C18: no overflow from the infinity sentinel.  For every matrix of 11 rows of 11
entries in `[0, W]` with `11 * W <= INT_MAX` and every `src` in `[0, 11)`, in the state
after any number of iterations every entry on the frontier carries the weight of a
directed path from `src` to its airport (never `INT_MAX`), and every candidate
`cost + flightCost` that the next iteration forms for a connected pair lies in
`[0, 11 * W]`, so that the 32-bit addition returns the exact sum. -/
theorem candidate_sums_never_overflow (adjMatrix : List (List Int)) (hsq : Square adjMatrix)
    (W : Int) (hW : ∀ row ∈ adjMatrix, ∀ x ∈ row, 0 ≤ x ∧ x ≤ W) (h11 : 11 * W ≤ INT_MAX)
    (src : Nat) (hsrc : src < 11) (n : Nat) :
    ∃ s, runPops adjMatrix n (initState (src : Int)) = .ok s ∧
      (∀ e ∈ s.minHeap, e.1 ≠ INT_MAX ∧
        ∃ (u : Nat) (p : List Nat), e.2 = (u : Int) ∧ PathFromTo adjMatrix src u p ∧
          pathWeight adjMatrix p = e.1) ∧
      (∀ (current : Int × Int) (rest : List (Int × Int)), s.minHeap = current :: rest →
        ∀ nextApt, nextApt < 11 → entry adjMatrix current.2.toNat nextApt ≠ 0 →
          0 ≤ current.1 + entry adjMatrix current.2.toNat nextApt ∧
          current.1 + entry adjMatrix current.2.toNat nextApt ≤ 11 * W ∧
          wrap32 (current.1 + entry adjMatrix current.2.toNat nextApt)
            = current.1 + entry adjMatrix current.2.toNat nextApt) := by
  have h0 : 0 ≤ W := bound_nonneg adjMatrix hsq W hW
  have hnn : NonNeg adjMatrix := fun row hrow x hx => (hW row hrow x hx).1
  have hle : EntriesAtMost adjMatrix W := fun row hrow x hx => (hW row hrow x hx).2
  have h11' : 11 * W < INT_MAX := by unfold INT_MAX at h11 ⊢; omega
  have hno := noOverflow_of_entriesAtMost adjMatrix W hle h0 h11'
  obtain ⟨s, hrun, hL, _, _⟩ := runPops_full adjMatrix hsq hnn hno src hsrc n
  refine ⟨s, hrun, ?_, ?_⟩
  · intro e he
    obtain ⟨p, u, hu, hR⟩ := hL.frontier e he
    have hlt := (reached_lt adjMatrix hno src hsrc _ hR).1
    obtain ⟨hpath, hweight, _, _⟩ := reached_path adjMatrix src hsrc _ hR
    exact ⟨by omega, u, p, hu, hpath, hweight⟩
  · intro current rest hheap nextApt _ _
    obtain ⟨p, u, hu, hR⟩ := hL.frontier current (by rw [hheap]; exact List.mem_cons_self _ _)
    rw [hu, Int.toNat_ofNat]
    have hc0 := reached_nonneg adjMatrix hnn src _ hR
    have hw0 := entry_nonneg adjMatrix hnn u nextApt
    have hsum := (reached_le adjMatrix W hle h0 src hsrc _ hR).2 nextApt
    refine ⟨by omega, hsum, wrap32_of_range _ (by omega) (by unfold INT_MAX at h11; omega)⟩

theorem candidate_sums_never_overflow_witness :
    ∃ s, runPops usMatrix 3 (initState ((0 : Nat) : Int)) = .ok s ∧
      (∀ e ∈ s.minHeap, e.1 ≠ INT_MAX ∧
        ∃ (u : Nat) (p : List Nat), e.2 = (u : Int) ∧ PathFromTo usMatrix 0 u p ∧
          pathWeight usMatrix p = e.1) ∧
      (∀ (current : Int × Int) (rest : List (Int × Int)), s.minHeap = current :: rest →
        ∀ nextApt, nextApt < 11 → entry usMatrix current.2.toNat nextApt ≠ 0 →
          0 ≤ current.1 + entry usMatrix current.2.toNat nextApt ∧
          current.1 + entry usMatrix current.2.toNat nextApt ≤ 11 * 1000 ∧
          wrap32 (current.1 + entry usMatrix current.2.toNat nextApt)
            = current.1 + entry usMatrix current.2.toNat nextApt) :=
  candidate_sums_never_overflow usMatrix square_usMatrix 1000 (by decide) (by decide) 0
    (by decide) 3

/-- C14, against the claim: `cycleMatrix` has 11 rows of 11 non-negative entries and
airport `1` is reachable from airport `0`, yet the search from `0` ends with airport `2`
as predecessor of `1` and airport `1` as predecessor of `2` (the candidates
`(INT_MAX - 1) + 5` and beyond exceeded `INT_MAX`), so that the walk from `1` never
reaches `0`. -/
theorem walk_cycles_on_overflow :
    Square cycleMatrix ∧ NonNeg cycleMatrix ∧ PathFromTo cycleMatrix 0 1 [0, 1] ∧
      search cycleMatrix 0 = .ok [(0, -1), (-2147483640, 2), (-2147483645, 1),
        (2147483647, -1), (2147483647, -1), (2147483647, -1), (2147483647, -1),
        (2147483647, -1), (2147483647, -1), (2147483647, -1), (2147483647, -1)] ∧
      findCheapestFlightWithDijkstra cycleMatrix 0 1 = .error .diverges := by
  refine ⟨by unfold Square; decide, by unfold NonNeg; decide, by unfold PathFromTo; decide,
    rfl, rfl⟩

/-- C14 as amended: path reconstruction when no sum overflows.  For every matrix of 11
rows of 11 non-negative entries in which no path of at most 11 hops weighs `INT_MAX` or
more, and every `src`, `dst` in `[0, 11)` with `dst` reachable from `src`, the walk
`curr = costs[curr][1]` from `dst` reaches `src` within 10 steps; the airports it visits
are distinct, the predecessor it reads is never `-1`, and read backwards it is the route
from `src` to `dst` that the function writes. -/
theorem route_walk_reaches_source (adjMatrix : List (List Int)) (hsq : Square adjMatrix)
    (hnn : NonNeg adjMatrix) (hno : NoOverflow adjMatrix) (src dst : Nat)
    (hsrc : src < 11) (hdst : dst < 11) (hreach : ∃ p, PathFromTo adjMatrix src dst p) :
    ∃ (costs : List (Int × Int)) (r : List Nat),
      search adjMatrix (src : Int) = .ok costs ∧
        walkRoute costs (src : Int) 10 (dst : Int) [] = .ok (r.map fun n : Nat => (n : Int)) ∧
        (src :: r).Nodup ∧ (src :: r).getLast? = some dst ∧ prevChain costs (src :: r) ∧
        (∀ x ∈ r, prevOf costs x ≠ -1) ∧
        findCheapestFlightWithDijkstra adjMatrix (src : Int) (dst : Int)
          = .ok (costOf costs dst, (src :: r).map fun n : Nat => (n : Int)) :=
  find_walk adjMatrix hsq hnn hno src dst hsrc hdst hreach

theorem route_walk_reaches_source_witness :
    ∃ (costs : List (Int × Int)) (r : List Nat),
      search usMatrix ((0 : Nat) : Int) = .ok costs ∧
        walkRoute costs ((0 : Nat) : Int) 10 ((10 : Nat) : Int) []
          = .ok (r.map fun n : Nat => (n : Int)) ∧
        (0 :: r).Nodup ∧ (0 :: r).getLast? = some 10 ∧ prevChain costs (0 :: r) ∧
        (∀ x ∈ r, prevOf costs x ≠ -1) ∧
        findCheapestFlightWithDijkstra usMatrix ((0 : Nat) : Int) ((10 : Nat) : Int)
          = .ok (costOf costs 10, (0 :: r).map fun n : Nat => (n : Int)) :=
  route_walk_reaches_source usMatrix square_usMatrix nonNeg_usMatrix noOverflow_usMatrix 0 10
    (by decide) (by decide) ⟨[0, 4, 10], by unfold PathFromTo; decide⟩

/-- C15, the code at the failing input: in `oneFlightMatrix` no path leads from airport
`1` to airport `0`; the query `(1, 0)` writes `INT_MAX` as the cost, and the walk that
follows reads the predecessor `-1` of airport `0` and calls `APT_MAP.at(-1)`, which
throws: the function does not complete and writes no route. -/
theorem unreachable_walk_throws :
    (¬ ∃ p, PathFromTo oneFlightMatrix 1 0 p) ∧
      search oneFlightMatrix 1 = .ok (initCosts 1) ∧
      printCost (initCosts 1) 1 0 = .ok INT_MAX ∧
      walkRoute (initCosts 1) 1 numOfApt 0 [] = .error .outOfRange ∧
      findCheapestFlightWithDijkstra oneFlightMatrix 1 0 = .error .outOfRange :=
  ⟨no_path_oneFlightMatrix, rfl, rfl, rfl, rfl⟩

/-- C16: zero-weight edges are indistinguishable from absent edges.  For every list of
flights `{fromApt, toApt, cost}` and every pair `(u, v)` in `[0, 11)`, appending the
flight `{u, v, 0}` makes `makeAdjMatrix` return what it returns for the list with every
flight from `u` to `v` removed, a matrix whose entry `[u][v]` is `0`.  On every matrix of
11 rows of 11 entries the loop body leaves the state unchanged for a pair whose entry is
`0`, and every consecutive pair of a route that `findCheapestFlightWithDijkstra` returns
has a non-zero entry. -/
theorem zero_weight_is_no_edge (flights : List (List Int)) (h3 : ∀ f ∈ flights, f.length = 3)
    (u v : Nat) (hu : u < 11) (hv : v < 11) (adjMatrix : List (List Int))
    (hsq : Square adjMatrix) :
    makeAdjMatrix (flights ++ [[(u : Int), (v : Int), 0]])
        = makeAdjMatrix (withoutEdges flights (u : Int) (v : Int)) ∧
      (∀ m, makeAdjMatrix (flights ++ [[(u : Int), (v : Int), 0]]) = .ok m →
        entry m u v = 0) ∧
      (∀ (cost currApt : Int) (s : State) (nextApt : Nat) (row : List Int),
        vecAt adjMatrix currApt = .ok row → vecAt row (nextApt : Int) = .ok 0 →
        relaxEdge adjMatrix cost currApt s nextApt = .ok s) ∧
      (∀ (src dst c : Int) (route : List Int),
        findCheapestFlightWithDijkstra adjMatrix src dst = .ok (c, route) →
        ∀ i, i + 1 < route.length →
          entry adjMatrix (route.getD i 0).toNat (route.getD (i + 1) 0).toNat ≠ 0) :=
  ⟨makeAdjMatrix_append_zero flights h3 u v hu hv,
    fun m hm => makeAdjMatrix_append_zero_entry flights h3 u v hu hv m hm,
    fun cost currApt s nextApt row h1 h2 =>
      relaxEdge_zero adjMatrix cost currApt s nextApt row h1 h2,
    fun src dst c route h =>
      connectedPairs_getD adjMatrix route (find_connectedPairs adjMatrix hsq src dst c route h)⟩

theorem zero_weight_is_no_edge_witness :
    makeAdjMatrix (usFlights ++ [[((0 : Nat) : Int), ((1 : Nat) : Int), 0]])
        = makeAdjMatrix (withoutEdges usFlights ((0 : Nat) : Int) ((1 : Nat) : Int)) ∧
      (∀ m, makeAdjMatrix (usFlights ++ [[((0 : Nat) : Int), ((1 : Nat) : Int), 0]]) = .ok m →
        entry m 0 1 = 0) ∧
      (∀ (cost currApt : Int) (s : State) (nextApt : Nat) (row : List Int),
        vecAt usMatrix currApt = .ok row → vecAt row (nextApt : Int) = .ok 0 →
        relaxEdge usMatrix cost currApt s nextApt = .ok s) ∧
      (∀ (src dst c : Int) (route : List Int),
        findCheapestFlightWithDijkstra usMatrix src dst = .ok (c, route) →
        ∀ i, i + 1 < route.length →
          entry usMatrix (route.getD i 0).toNat (route.getD (i + 1) 0).toNat ≠ 0) :=
  zero_weight_is_no_edge usFlights (by decide) 0 1 (by decide) (by decide) usMatrix
    square_usMatrix

/-- C17: the shipped graph never hits the unreachable case.  On the matrix built from
`usFlights`, for every `src` and `dst` in `[0, 10]` (in particular for the pairs with
`src != dst` that `askSrcAndDst` returns), `dst` is reachable from `src`, the cost that
`findCheapestFlightWithDijkstra` returns is below `INT_MAX`, and the walk from `dst`
reaches `src` without ever reading the predecessor `-1`. -/
theorem reference_graph_is_connected (src dst : Nat) (hsrc : src < 11) (hdst : dst < 11) :
    makeAdjMatrix usFlights = .ok usMatrix ∧
      (∃ p, PathFromTo usMatrix src dst p) ∧
      ∃ (costs : List (Int × Int)) (r : List Nat),
        search usMatrix (src : Int) = .ok costs ∧
          findCheapestFlightWithDijkstra usMatrix (src : Int) (dst : Int)
            = .ok (costOf costs dst, (src :: r).map fun n : Nat => (n : Int)) ∧
          costOf costs dst < INT_MAX ∧
          walkRoute costs (src : Int) numOfApt (dst : Int) []
            = .ok (r.map fun n : Nat => (n : Int)) ∧
          (src :: r).getLast? = some dst ∧ prevChain costs (src :: r) ∧
          ∀ x ∈ r, prevOf costs x ≠ -1 := by
  obtain ⟨costs, hsearch, hfin⟩ := search_usMatrix_finite src hsrc
  have hreach : ∃ p, PathFromTo usMatrix src dst p :=
    reachable_of_search usMatrix square_usMatrix nonNeg_usMatrix noOverflow_usMatrix src hsrc
      costs hsearch dst hdst (by have := hfin dst hdst; omega)
  obtain ⟨costs', r, hsearch', hwalk, _, hlast, hchain, hprev, hfind⟩ :=
    find_walk usMatrix square_usMatrix nonNeg_usMatrix noOverflow_usMatrix src dst hsrc hdst
      hreach
  have hc : costs' = costs := Except.ok.inj (hsearch'.symm.trans hsearch)
  rw [hc] at hwalk hchain hprev hfind
  refine ⟨rfl, hreach, costs, r, hsearch, hfind, hfin dst hdst, ?_, hlast, hchain, hprev⟩
  exact walkRoute_succ costs (src : Int) 10 (dst : Int) [] _ hwalk

theorem reference_graph_is_connected_witness :
    makeAdjMatrix usFlights = .ok usMatrix ∧
      (∃ p, PathFromTo usMatrix 9 1 p) ∧
      ∃ (costs : List (Int × Int)) (r : List Nat),
        search usMatrix ((9 : Nat) : Int) = .ok costs ∧
          findCheapestFlightWithDijkstra usMatrix ((9 : Nat) : Int) ((1 : Nat) : Int)
            = .ok (costOf costs 1, (9 :: r).map fun n : Nat => (n : Int)) ∧
          costOf costs 1 < INT_MAX ∧
          walkRoute costs ((9 : Nat) : Int) numOfApt ((1 : Nat) : Int) []
            = .ok (r.map fun n : Nat => (n : Int)) ∧
          (9 :: r).getLast? = some 1 ∧ prevChain costs (9 :: r) ∧
          ∀ x ∈ r, prevOf costs x ≠ -1 :=
  reference_graph_is_connected 9 1 (by decide) (by decide)


end CheapestFlight
